import Mathlib

/-!
A shallow embedding of the Market-Microstructure-Simulator core
(`src/microbook`): the price-time priority limit order book
(`book.py`), portfolio accounting (`sim/portfolio.py`), execution
metrics (`sim/execution_metrics.py`), the discrete-event simulator
(`sim/simulator.py`, `sim/events.py`), and the TWAP executor
(`sim/strategy.py`).

Modelling conventions:
- Python `float` prices are modelled as `ℚ` (all book logic uses only
  comparisons on prices, which are exact in both models); the single use
  of IEEE infinity (`place_market` on the BUY side sets the aggressor
  price to `float("inf")` before matching) is modelled by passing the
  aggressor's effective limit to the matching loop as a `WithTop ℚ`,
  with `⊤` standing for `float("inf")`.
- Python `int` quantities, timestamps and times are `Int`.
- Python `dict`s (insertion ordered, unique keys) are association lists:
  `alGet` is `d.get(k)`, `alSet` is `d[k] = v` (updates the existing
  entry in place, else appends), `alPop` is `d.pop(k, None)`.
- `collections.deque` FIFO queues are `List Order` (append at the tail,
  pop at the head).
- The matching loops of `_match_buy` / `_match_sell` terminate in Python
  because every iteration either removes a resting order or zeroes the
  aggressor; they are embedded with an explicit fuel argument, and the
  public operations pass one more unit of fuel than the number of
  resting orders on the opposite side, which is always sufficient.
-/

set_option synthInstance.maxSize 512

namespace Microbook

/-- `Side` enumeration (`types.py`). -/
inductive Side where
  | BUY : Side
  | SELL : Side
deriving DecidableEq, Repr

/-- An order (`order.py`).  `qty` is mutable while the order rests. -/
structure Order where
  order_id : String
  side : Side
  price : ℚ
  qty : Int
  ts : Int
deriving DecidableEq, Repr

/-- The `__post_init__` validation of `Order`: construction raises
unless the quantity and price are strictly positive. -/
def Order.valid (o : Order) : Prop := 0 < o.qty ∧ 0 < o.price

instance (o : Order) : Decidable o.valid := by
  unfold Order.valid; infer_instance

/-- A single execution event (`types.py`). -/
structure Fill where
  taker_order_id : String
  maker_order_id : String
  price : ℚ
  qty : Int
deriving DecidableEq, Repr

section AssocList

variable {K V : Type} [DecidableEq K]

/-- `d.get(k)` on a Python dict modelled as an association list. -/
def alGet : List (K × V) → K → Option V
  | [], _ => none
  | (k, v) :: rest, key => if k = key then some v else alGet rest key

/-- `d[k] = v`: replace the (first) entry for `k` in place, else append. -/
def alSet : List (K × V) → K → V → List (K × V)
  | [], key, val => [(key, val)]
  | (k, v) :: rest, key, val =>
      if k = key then (key, val) :: rest else (k, v) :: alSet rest key val

/-- `d.pop(k, None)`: drop the (first) entry for `k` if present. -/
def alPop : List (K × V) → K → List (K × V)
  | [], _ => []
  | (k, v) :: rest, key => if k = key then rest else (k, v) :: alPop rest key

/-- The keys of an association list, in order. -/
def keysOf (l : List (K × V)) : List K := l.map Prod.fst

end AssocList

/-- `LimitOrderBook._insert_price`: insert into an already sorted list at
the position `bisect.bisect_left` finds (for bids the list is descending
and the bisection runs on negated values). -/
def insertPrice (prices : List ℚ) (price : ℚ) (descending : Bool) : List ℚ :=
  match prices with
  | [] => [price]
  | p :: rest =>
      if (if descending then price < p else p < price) then
        p :: insertPrice rest price descending
      else price :: p :: rest

/-- `LimitOrderBook._remove_price`: drop the first occurrence. -/
def removePrice : List ℚ → ℚ → List ℚ
  | [], _ => []
  | p :: rest, price => if p = price then rest else p :: removePrice rest price

/-- Total quantity of a level queue (`sum(o.qty for o in q)`). -/
def sumQty (q : List Order) : Int := (q.map Order.qty).sum

/-- The state of `LimitOrderBook` (`book.py`): the two price→queue dicts,
the sorted price lists, the cached per-level aggregate quantities and the
order-id index. -/
structure Book where
  bids : List (ℚ × List Order)
  asks : List (ℚ × List Order)
  bid_prices : List ℚ
  ask_prices : List ℚ
  bid_qty : List (ℚ × Int)
  ask_qty : List (ℚ × Int)
  id_map : List (String × Side × ℚ)
deriving DecidableEq, Repr

/-- A freshly constructed `LimitOrderBook()`. -/
def Book.empty : Book := ⟨[], [], [], [], [], [], []⟩

def Book.best_bid (b : Book) : Option ℚ := b.bid_prices.head?

def Book.best_ask (b : Book) : Option ℚ := b.ask_prices.head?

def Book.midprice (b : Book) : Option ℚ :=
  match b.best_bid, b.best_ask with
  | some bb, some aa => some ((bb + aa) / 2)
  | _, _ => none

/-- `top_of_book`: the `{best_bid, best_ask, mid}` record. -/
def Book.top_of_book (b : Book) : Option ℚ × Option ℚ × Option ℚ :=
  (b.best_bid, b.best_ask, b.midprice)

/-- `depth(levels)`: the first `levels` prices of each side paired with
the cached aggregate quantity (`self._bid_qty.get(p, 0)`). -/
def Book.depth (b : Book) (levels : Nat) : List (ℚ × Int) × List (ℚ × Int) :=
  ((b.bid_prices.take levels).map (fun p => (p, (alGet b.bid_qty p).getD 0)),
   (b.ask_prices.take levels).map (fun p => (p, (alGet b.ask_qty p).getD 0)))

/-- One side of the book: the triple of locals (`book`, `prices`, `agg`)
that `_rest`, `cancel` and `modify` select by side before operating. -/
structure SideView where
  book : List (ℚ × List Order)
  prices : List ℚ
  agg : List (ℚ × Int)
deriving DecidableEq, Repr

def Book.view (b : Book) : Side → SideView
  | Side.BUY => ⟨b.bids, b.bid_prices, b.bid_qty⟩
  | Side.SELL => ⟨b.asks, b.ask_prices, b.ask_qty⟩

def Book.withView (b : Book) : Side → SideView → Book
  | Side.BUY, v => { b with bids := v.book, bid_prices := v.prices, bid_qty := v.agg }
  | Side.SELL, v => { b with asks := v.book, ask_prices := v.prices, ask_qty := v.agg }

/-- `LimitOrderBook._rest`: create the level if needed (inserting its
price into the sorted sequence), append the order to the level's FIFO,
bump the aggregate, and index the order id. -/
def Book.rest (b : Book) (order : Order) : Book :=
  let v := b.view order.side
  let v1 :=
    if (alGet v.book order.price).isSome then v
    else ⟨alSet v.book order.price [],
          insertPrice v.prices order.price (order.side == Side.BUY),
          alSet v.agg order.price 0⟩
  let q := (alGet v1.book order.price).getD []
  let v2 : SideView :=
    ⟨alSet v1.book order.price (q ++ [order]), v1.prices,
     alSet v1.agg order.price ((alGet v1.agg order.price).getD 0 + order.qty)⟩
  { b.withView order.side v2 with
    id_map := alSet b.id_map order.order_id (order.side, order.price) }

/-- Number of resting orders on the ask side; an upper bound on the
iterations of the `_match_buy` loop. -/
def Book.askOrderCount (b : Book) : Nat := (b.asks.map (fun kv => kv.2.length)).sum

/-- Number of resting orders on the bid side. -/
def Book.bidOrderCount (b : Book) : Nat := (b.bids.map (fun kv => kv.2.length)).sum

/-- The state mutation of one `_match_buy` loop iteration after trading
`traded` against `maker` at the head of level `best_ask`: decrement the
cached aggregate, and if the maker is exhausted pop it (and its level
and price, if now empty) and drop it from the index. -/
def buyStepBook (b : Book) (best_ask : ℚ) (rest_prices : List ℚ) (maker : Order)
    (q_rest : List Order) (traded : Int) : Book :=
  let agg2 := alSet b.ask_qty best_ask ((alGet b.ask_qty best_ask).getD 0 - traded)
  if maker.qty - traded = 0 then
    if q_rest.isEmpty then
      { b with asks := alPop b.asks best_ask,
               ask_prices := rest_prices,
               ask_qty := alPop agg2 best_ask,
               id_map := alPop b.id_map maker.order_id }
    else
      { b with asks := alSet b.asks best_ask q_rest,
               ask_qty := agg2,
               id_map := alPop b.id_map maker.order_id }
  else
    { b with asks := alSet b.asks best_ask ({ maker with qty := maker.qty - traded } :: q_rest),
             ask_qty := agg2 }

/-- `LimitOrderBook._match_buy`, with explicit fuel for the `while` loop.
`limit` is the aggressor's effective price (`buy.price`, which
`place_market` has set to `float("inf")`, modelled as `⊤`).  The two
error exits marked unreachable correspond to a `KeyError` / `IndexError`
that Python would raise on a malformed book; they cannot occur when the
book is well formed.  Returns the fills in execution order, the updated
book, and the aggressor with its remaining quantity. -/
def matchBuyF : Nat → Book → Order → WithTop ℚ → List Fill × Book × Order
  | 0, b, buy, _ => ([], b, buy)
  | Nat.succ fuel, b, buy, limit =>
    if 0 < buy.qty then
      match b.ask_prices with
      | [] => ([], b, buy)
      | best_ask :: rest_prices =>
        if limit < (best_ask : WithTop ℚ) then ([], b, buy)
        else
          match alGet b.asks best_ask with
          | none => ([], b, buy)        -- Python: KeyError, unreachable on a well formed book
          | some ask_q =>
            match ask_q with
            | [] => ([], b, buy)        -- Python: IndexError, unreachable on a well formed book
            | maker :: q_rest =>
              let traded := min buy.qty maker.qty
              let fill : Fill := ⟨buy.order_id, maker.order_id, best_ask, traded⟩
              let buy2 := { buy with qty := buy.qty - traded }
              let b2 := buyStepBook b best_ask rest_prices maker q_rest traded
              let res := matchBuyF fuel b2 buy2 limit
              (fill :: res.1, res.2)
    else ([], b, buy)

/-- The state mutation of one `_match_sell` loop iteration, mirroring
`buyStepBook` on the bid side. -/
def sellStepBook (b : Book) (best_bid : ℚ) (rest_prices : List ℚ) (maker : Order)
    (q_rest : List Order) (traded : Int) : Book :=
  let agg2 := alSet b.bid_qty best_bid ((alGet b.bid_qty best_bid).getD 0 - traded)
  if maker.qty - traded = 0 then
    if q_rest.isEmpty then
      { b with bids := alPop b.bids best_bid,
               bid_prices := rest_prices,
               bid_qty := alPop agg2 best_bid,
               id_map := alPop b.id_map maker.order_id }
    else
      { b with bids := alSet b.bids best_bid q_rest,
               bid_qty := agg2,
               id_map := alPop b.id_map maker.order_id }
  else
    { b with bids := alSet b.bids best_bid ({ maker with qty := maker.qty - traded } :: q_rest),
             bid_qty := agg2 }

/-- `LimitOrderBook._match_sell`, with explicit fuel.  `limit` is the
aggressor's effective price (`sell.price`, which `place_market` has set
to `0.0`). -/
def matchSellF : Nat → Book → Order → ℚ → List Fill × Book × Order
  | 0, b, sell, _ => ([], b, sell)
  | Nat.succ fuel, b, sell, limit =>
    if 0 < sell.qty then
      match b.bid_prices with
      | [] => ([], b, sell)
      | best_bid :: rest_prices =>
        if best_bid < limit then ([], b, sell)
        else
          match alGet b.bids best_bid with
          | none => ([], b, sell)       -- Python: KeyError, unreachable on a well formed book
          | some bid_q =>
            match bid_q with
            | [] => ([], b, sell)       -- Python: IndexError, unreachable on a well formed book
            | maker :: q_rest =>
              let traded := min sell.qty maker.qty
              let fill : Fill := ⟨sell.order_id, maker.order_id, best_bid, traded⟩
              let sell2 := { sell with qty := sell.qty - traded }
              let b2 := sellStepBook b best_bid rest_prices maker q_rest traded
              let res := matchSellF fuel b2 sell2 limit
              (fill :: res.1, res.2)
    else ([], b, sell)

/-- `place_limit`: match immediately if crossing, then rest any
remainder. -/
def Book.place_limit (b : Book) (order : Order) : List Fill × Book :=
  let r :=
    if order.side == Side.BUY then
      matchBuyF (b.askOrderCount + 1) b order (order.price : WithTop ℚ)
    else
      matchSellF (b.bidOrderCount + 1) b order order.price
  if 0 < r.2.2.qty then (r.1, r.2.1.rest r.2.2) else (r.1, r.2.1)

/-- `place_market`: match with an effective price of `float("inf")`
(BUY, modelled `⊤`) or `0.0` (SELL); never rest. -/
def Book.place_market (b : Book) (order : Order) : List Fill × Book :=
  if order.side == Side.BUY then
    let r := matchBuyF (b.askOrderCount + 1) b order (⊤ : WithTop ℚ)
    (r.1, r.2.1)
  else
    let r := matchSellF (b.bidOrderCount + 1) b order (0 : ℚ)
    (r.1, r.2.1)

/-- The queue walk inside `cancel`: rebuild the deque skipping the first
order with the given id; also report whether it was found and its
quantity. -/
def removeFirstOrder : List Order → String → List Order × Bool × Int
  | [], _ => ([], false, 0)
  | o :: rest, oid =>
      if o.order_id = oid then (rest, true, o.qty)
      else
        let r := removeFirstOrder rest oid
        (o :: r.1, r.2.1, r.2.2)

/-- `cancel(order_id)`: look the id up in the index, walk the level to
remove it, maintain the aggregate (with the defensive clamp), drop empty
levels, and clean the index. -/
def Book.cancel (b : Book) (order_id : String) : Bool × Book :=
  match alGet b.id_map order_id with
  | none => (false, b)
  | some (side, price) =>
    let v := b.view side
    match alGet v.book price with
    | none =>
      -- inconsistent but handled gracefully: clean the stale index entry
      (false, { b with id_map := alPop b.id_map order_id })
    | some q =>
      let r := removeFirstOrder q order_id
      let new_q := r.1
      if r.2.1 = false then
        -- not found: put the queue back, report failure
        (false, b.withView side ⟨alSet v.book price new_q, v.prices, v.agg⟩)
      else
        let removed_qty := r.2.2
        let agg1 := alSet v.agg price ((alGet v.agg price).getD 0 - removed_qty)
        if new_q.isEmpty = false then
          let agg2 :=
            if (alGet agg1 price).getD 0 ≤ 0 then alSet agg1 price (sumQty new_q) else agg1
          (true, { b.withView side ⟨alSet v.book price new_q, v.prices, agg2⟩ with
                   id_map := alPop b.id_map order_id })
        else
          (true, { b.withView side
                    ⟨alPop v.book price, removePrice v.prices price, alPop agg1 price⟩ with
                   id_map := alPop b.id_map order_id })

/-- The linear scan inside `modify` that locates the target order. -/
def findOrder : List Order → String → Option Order
  | [], _ => none
  | o :: rest, oid => if o.order_id = oid then some o else findOrder rest oid

/-- The in-place mutation `target.qty = new_qty` of the first order with
the given id. -/
def updateFirstOrder : List Order → String → Int → List Order
  | [], _, _ => []
  | o :: rest, oid, nq =>
      if o.order_id = oid then { o with qty := nq } :: rest
      else o :: updateFirstOrder rest oid nq

/-- The cancel-and-reinsert tail of `modify` (everything after the
in-place qty-reduction test).  Exposes, next to the boolean result and
the updated book, the fills that the internal `place_limit` call
produced and that `modify` itself discards. -/
def Book.modifyReinsert (b : Book) (order_id : String) (side : Side) (target : Order)
    (new_price : Option ℚ) (new_qty : Option Int) (ts : Int) :
    (Bool × Book) × List Fill :=
  let old_price := target.price
  let old_qty := target.qty
  let c := b.cancel order_id
  if c.1 = false then ((false, c.2), [])
  else
    let price2 := new_price.getD old_price
    let qty2 := new_qty.getD old_qty
    if qty2 ≤ 0 ∨ price2 ≤ 0 then ((false, c.2), [])
    else
      let r := c.2.place_limit ⟨order_id, side, price2, qty2, ts⟩
      ((true, r.2), r.1)

/-- `modify(order_id, new_price, new_qty, ts)`, instrumented to also
return the fills the internal `place_limit` produced (the Python method
drops them; `Book.modify` below is the exact signature). -/
def Book.modifyF (b : Book) (order_id : String) (new_price : Option ℚ)
    (new_qty : Option Int) (ts : Int) : (Bool × Book) × List Fill :=
  match alGet b.id_map order_id with
  | none => ((false, b), [])
  | some (side, price) =>
    let v := b.view side
    match alGet v.book price with
    | none => ((false, b), [])
    | some q =>
      match findOrder q order_id with
      | none => ((false, b), [])
      | some target =>
        match new_price, new_qty with
        | none, some nq =>
          if 0 < nq ∧ nq < target.qty then
            -- qty reduction only: keeps priority
            let delta := target.qty - nq
            ((true, b.withView side
                ⟨alSet v.book price (updateFirstOrder q order_id nq), v.prices,
                 alSet v.agg price ((alGet v.agg price).getD 0 - delta)⟩), [])
          else b.modifyReinsert order_id side target none (some nq) ts
        | np, nqo => b.modifyReinsert order_id side target np nqo ts

/-- `modify` as the source returns it: just the boolean and the book. -/
def Book.modify (b : Book) (order_id : String) (new_price : Option ℚ)
    (new_qty : Option Int) (ts : Int) : Bool × Book :=
  (b.modifyF order_id new_price new_qty ts).1

/-! ### The specification's greedy price-time matching

The spec describes matching as greedy consumption of the opposite side in
(price, ts) priority: walk the levels from the best price while the level
still crosses the aggressor's limit, consume each level's FIFO from the
head, each fill priced at the maker's resting price with quantity
`min(aggressor remaining, maker qty)`.  These definitions follow that
wording; the refinement theorems below prove the matching loops equal
them. -/

/-- Greedy FIFO consumption of one level at price `p`: returns the fills
and the aggressor's remaining quantity. -/
def greedyLevel (tid : String) (p : ℚ) : Int → List Order → List Fill × Int
  | qty, [] => ([], qty)
  | qty, m :: ms =>
    if 0 < qty then
      let traded := min qty m.qty
      if m.qty - traded = 0 then
        let r := greedyLevel tid p (qty - traded) ms
        (⟨tid, m.order_id, p, traded⟩ :: r.1, r.2)
      else ([⟨tid, m.order_id, p, traded⟩], qty - traded)
    else ([], qty)

/-- Greedy buy-side matching over the ask levels in best-first order:
consume whole levels while the level price does not exceed the limit. -/
def greedyBuy (tid : String) (limit : WithTop ℚ) : Int → List (ℚ × List Order) → List Fill
  | _, [] => []
  | qty, (p, q) :: rest =>
    if 0 < qty ∧ ¬ limit < (p : WithTop ℚ) then
      let r := greedyLevel tid p qty q
      r.1 ++ greedyBuy tid limit r.2 rest
    else []

/-- Greedy sell-side matching over the bid levels in best-first order. -/
def greedySell (tid : String) (limit : ℚ) : Int → List (ℚ × List Order) → List Fill
  | _, [] => []
  | qty, (p, q) :: rest =>
    if 0 < qty ∧ ¬ p < limit then
      let r := greedyLevel tid p qty q
      r.1 ++ greedySell tid limit r.2 rest
    else []

/-- The ask side as the ordered sequence of levels the price list
describes. -/
def askLevels (b : Book) : List (ℚ × List Order) :=
  b.ask_prices.map (fun p => (p, (alGet b.asks p).getD []))

/-- The bid side as the ordered sequence of levels. -/
def bidLevels (b : Book) : List (ℚ × List Order) :=
  b.bid_prices.map (fun p => (p, (alGet b.bids p).getD []))

/-! ### Well-formedness of one side of the book -/

/-- Well-formedness of one side of the book under the strict price order
`r` (`(· < ·)` for asks, `(· > ·)` on the values for bids): the price
sequence is strictly sorted, every listed price has a level, level keys
are unique, every level is a non-empty FIFO of positive-quantity orders
resting at the level's price, and the cached aggregate of every level
equals the sum of its orders' quantities. -/
def ViewInv (v : SideView) (r : ℚ → ℚ → Prop) : Prop :=
  v.prices.Pairwise r ∧
  (∀ p ∈ v.prices, (alGet v.book p).isSome) ∧
  (keysOf v.book).Nodup ∧
  (∀ kv ∈ v.book, kv.2 ≠ [] ∧ ∀ o ∈ kv.2, 0 < o.qty ∧ o.price = kv.1) ∧
  (∀ kv ∈ v.book, alGet v.agg kv.1 = some (sumQty kv.2))

instance (v : SideView) (r : ℚ → ℚ → Prop) [DecidableRel r] :
    Decidable (ViewInv v r) := by
  unfold ViewInv; infer_instance

/-- All bid prices sit strictly below all ask prices (with both sides
sorted this is the no-locked/no-crossed-book condition). -/
def CrossInv (b : Book) : Prop :=
  ∀ pb ∈ b.bid_prices, ∀ pa ∈ b.ask_prices, pb < pa

instance (b : Book) : Decidable (CrossInv b) := by
  unfold CrossInv; infer_instance

/-- Full well-formedness of the book. -/
def Inv (b : Book) : Prop :=
  ViewInv (b.view Side.BUY) (fun a c => c < a) ∧
  ViewInv (b.view Side.SELL) (fun a c => a < c) ∧
  CrossInv b

instance (b : Book) : Decidable (Inv b) := by
  unfold Inv; infer_instance

/-- Books reachable from a fresh `LimitOrderBook()` through the public
operations, with orders that passed the `Order` constructor's
validation. -/
inductive Reachable : Book → Prop
  | empty : Reachable Book.empty
  | place_limit {b o} : Reachable b → Order.valid o → Reachable (b.place_limit o).2
  | place_market {b o} : Reachable b → Order.valid o → Reachable (b.place_market o).2
  | cancel {b oid} : Reachable b → Reachable (b.cancel oid).2
  | modify {b oid np nq ts} : Reachable b → Reachable (b.modify oid np nq ts).2

/-! ### Association list lemmas -/

section AssocListLemmas

variable {K V : Type} [DecidableEq K]

theorem alGet_alSet_self (l : List (K × V)) (k : K) (v : V) :
    alGet (alSet l k v) k = some v := by
  induction l with
  | nil => simp [alSet, alGet]
  | cons kv rest ih =>
    by_cases h : kv.1 = k
    · simp [alSet, alGet, h]
    · simp [alSet, alGet, h, ih]

theorem alGet_alSet_ne (l : List (K × V)) {k k2 : K} (v : V) (h : k ≠ k2) :
    alGet (alSet l k v) k2 = alGet l k2 := by
  induction l with
  | nil => simp [alSet, alGet, h]
  | cons kv rest ih =>
    by_cases h1 : kv.1 = k
    · simp [alSet, alGet, h1, h]
    · simp only [alSet, h1, if_false]
      by_cases h2 : kv.1 = k2 <;> simp [alGet, h2, ih]

theorem alGet_alPop_ne (l : List (K × V)) {k k2 : K} (h : k ≠ k2) :
    alGet (alPop l k) k2 = alGet l k2 := by
  induction l with
  | nil => simp [alPop]
  | cons kv rest ih =>
    by_cases h1 : kv.1 = k
    · have h2 : ¬ kv.1 = k2 := by rw [h1]; exact h
      simp [alPop, alGet, h1, h2, h]
    · have h4 : ¬ k2 = k := fun h3 => h h3.symm
      by_cases h2 : kv.1 = k2 <;> simp [alPop, alGet, h1, h2, ih, h4]

theorem alPop_sublist (l : List (K × V)) (k : K) : (alPop l k).Sublist l := by
  induction l with
  | nil => simp [alPop]
  | cons kv rest ih =>
    by_cases h : kv.1 = k
    · simp only [alPop, h, if_true]
      exact List.sublist_cons_self kv rest
    · simpa [alPop, h] using ih.cons₂ kv

theorem alGet_mem {l : List (K × V)} {k : K} {v : V} (h : alGet l k = some v) :
    (k, v) ∈ l := by
  induction l with
  | nil => simp [alGet] at h
  | cons kv rest ih =>
    by_cases h1 : kv.1 = k
    · simp only [alGet, h1, if_true, Option.some.injEq] at h
      have hkv : kv = (k, v) := by
        calc kv = (kv.1, kv.2) := rfl
          _ = (k, v) := by rw [h1, h]
      rw [← hkv]
      exact List.mem_cons_self kv rest
    · simp only [alGet, h1, if_false] at h
      exact List.mem_cons_of_mem _ (ih h)

theorem mem_alSet_weak {l : List (K × V)} {k : K} {v : V} {kv2 : K × V}
    (h : kv2 ∈ alSet l k v) : kv2 = (k, v) ∨ kv2 ∈ l := by
  induction l with
  | nil => simpa [alSet] using h
  | cons kv rest ih =>
    by_cases h1 : kv.1 = k
    · simp only [alSet, h1, if_true, List.mem_cons] at h
      rcases h with h | h
      · exact Or.inl h
      · exact Or.inr (List.mem_cons_of_mem _ h)
    · simp only [alSet, h1, if_false, List.mem_cons] at h
      rcases h with h | h
      · exact Or.inr (by simp [h])
      · rcases ih h with h2 | h2
        · exact Or.inl h2
        · exact Or.inr (List.mem_cons_of_mem _ h2)

theorem keysOf_alSet_nodup {l : List (K × V)} (k : K) (v : V)
    (h : (keysOf l).Nodup) : (keysOf (alSet l k v)).Nodup := by
  induction l with
  | nil => simp [alSet, keysOf]
  | cons kv rest ih =>
    simp only [keysOf, List.map_cons, List.nodup_cons] at h
    by_cases h1 : kv.1 = k
    · simp only [alSet, h1, if_true, keysOf, List.map_cons, List.nodup_cons]
      exact ⟨by rw [← h1]; exact h.1, h.2⟩
    · simp only [alSet, h1, if_false, keysOf, List.map_cons, List.nodup_cons]
      constructor
      · intro hmem
        rcases List.mem_map.mp hmem with ⟨kv2, hkv2, hfst⟩
        rcases mem_alSet_weak hkv2 with h2 | h2
        · exact h1 (by rw [← hfst, h2])
        · exact h.1 (List.mem_map.mpr ⟨kv2, h2, hfst⟩)
      · exact ih h.2

theorem alGet_alPop_self {l : List (K × V)} {k : K}
    (h : (keysOf l).Nodup) : alGet (alPop l k) k = none := by
  induction l with
  | nil => simp [alPop, alGet]
  | cons kv rest ih =>
    simp only [keysOf, List.map_cons, List.nodup_cons] at h
    by_cases h1 : kv.1 = k
    · subst h1
      cases hres : alGet rest kv.1 with
      | none => simpa [alPop] using hres
      | some v =>
        exact absurd (List.mem_map.mpr ⟨(kv.1, v), alGet_mem hres, rfl⟩) h.1
    · simp [alPop, alGet, h1, ih h.2]

theorem alSet_not_mem (l : List (K × V)) {k : K} (v : V)
    (h : alGet l k = none) : alSet l k v = l ++ [(k, v)] := by
  induction l with
  | nil => simp [alSet]
  | cons kv rest ih =>
    by_cases h1 : kv.1 = k
    · simp [alGet, h1] at h
    · simp only [alGet, h1, if_false] at h
      simp [alSet, h1, ih h]

theorem alSet_self_of_get {l : List (K × V)} {k : K} {v : V}
    (h : alGet l k = some v) : alSet l k v = l := by
  induction l with
  | nil => simp [alGet] at h
  | cons kv rest ih =>
    by_cases h1 : kv.1 = k
    · simp only [alGet, h1, if_true, Option.some.injEq] at h
      simp only [alSet, h1, if_true]
      rw [← h1, ← h]
    · simp only [alGet, h1, if_false] at h
      simp [alSet, h1, ih h]

end AssocListLemmas

/-! ### Case analysis for the matching loops -/

/-- Total resting quantity count of a side's level dict. -/
def ordCount (l : List (ℚ × List Order)) : Nat := (l.map (fun kv => kv.2.length)).sum

theorem ordCount_alSet {l : List (ℚ × List Order)} {k : ℚ} {q : List Order}
    (h : alGet l k = some q) (q2 : List Order) :
    ordCount (alSet l k q2) + q.length = ordCount l + q2.length := by
  induction l with
  | nil => simp [alGet] at h
  | cons kv rest ih =>
    by_cases h1 : kv.1 = k
    · simp only [alGet, h1, if_true, Option.some.injEq] at h
      simp only [alSet, h1, if_true, ordCount, List.map_cons, List.sum_cons, ← h]
      omega
    · simp only [alGet, h1, if_false] at h
      have := ih h
      simp only [alSet, h1, if_false, ordCount, List.map_cons, List.sum_cons]
      simp only [ordCount] at this
      omega

theorem ordCount_alPop {l : List (ℚ × List Order)} {k : ℚ} {q : List Order}
    (h : alGet l k = some q) :
    ordCount (alPop l k) + q.length = ordCount l := by
  induction l with
  | nil => simp [alGet] at h
  | cons kv rest ih =>
    by_cases h1 : kv.1 = k
    · simp only [alGet, h1, if_true, Option.some.injEq] at h
      simp only [alPop, h1, if_true, ordCount, List.map_cons, List.sum_cons, ← h]
      omega
    · simp only [alGet, h1, if_false] at h
      have := ih h
      simp only [alPop, h1, if_false, ordCount, List.map_cons, List.sum_cons]
      simp only [ordCount] at this
      omega

theorem askOrderCount_eq (b : Book) : b.askOrderCount = ordCount b.asks := rfl

theorem bidOrderCount_eq (b : Book) : b.bidOrderCount = ordCount b.bids := rfl

theorem buyStepBook_count {b : Book} {best : ℚ} {maker : Order}
    {q_rest : List Order} (rest : List ℚ) (traded : Int)
    (hg : alGet b.asks best = some (maker :: q_rest))
    (h0 : maker.qty - traded = 0) :
    (buyStepBook b best rest maker q_rest traded).askOrderCount + 1 = b.askOrderCount := by
  unfold buyStepBook
  simp only [h0, if_true]
  rcases q_rest with _ | ⟨o, q2⟩
  · have := ordCount_alPop hg
    simp only [List.isEmpty_nil, if_true, askOrderCount_eq]
    simpa using this
  · have := ordCount_alSet hg (o :: q2)
    simp only [List.isEmpty_cons, Bool.false_eq_true, if_false, askOrderCount_eq]
    simp only [List.length_cons] at this
    omega

theorem sellStepBook_count {b : Book} {best : ℚ} {maker : Order}
    {q_rest : List Order} (rest : List ℚ) (traded : Int)
    (hg : alGet b.bids best = some (maker :: q_rest))
    (h0 : maker.qty - traded = 0) :
    (sellStepBook b best rest maker q_rest traded).bidOrderCount + 1 = b.bidOrderCount := by
  unfold sellStepBook
  simp only [h0, if_true]
  rcases q_rest with _ | ⟨o, q2⟩
  · have := ordCount_alPop hg
    simp only [List.isEmpty_nil, if_true, bidOrderCount_eq]
    simpa using this
  · have := ordCount_alSet hg (o :: q2)
    simp only [List.isEmpty_cons, Bool.false_eq_true, if_false, bidOrderCount_eq]
    simp only [List.length_cons] at this
    omega

theorem matchBuyF_not_pos {buy : Order} (h : ¬ 0 < buy.qty)
    (fuel : Nat) (b : Book) (limit : WithTop ℚ) :
    matchBuyF fuel b buy limit = ([], b, buy) := by
  cases fuel <;> simp [matchBuyF, h]

theorem matchSellF_not_pos {sell : Order} (h : ¬ 0 < sell.qty)
    (fuel : Nat) (b : Book) (limit : ℚ) :
    matchSellF fuel b sell limit = ([], b, sell) := by
  cases fuel <;> simp [matchSellF, h]

/-- One-step case analysis for `_match_buy`: the loop exits because the
aggressor is exhausted, the ask side is empty, the best ask does not
cross, or the best level is malformed (Python would raise); otherwise it
performs one iteration against the head maker of the best ask level and
continues. -/
theorem matchBuyF_succ_cases (fuel : Nat) (b : Book) (buy : Order) (limit : WithTop ℚ) :
    (¬ 0 < buy.qty ∧ matchBuyF (fuel + 1) b buy limit = ([], b, buy)) ∨
    (0 < buy.qty ∧ b.ask_prices = [] ∧ matchBuyF (fuel + 1) b buy limit = ([], b, buy)) ∨
    (∃ best rest, 0 < buy.qty ∧ b.ask_prices = best :: rest ∧ limit < (best : WithTop ℚ) ∧
      matchBuyF (fuel + 1) b buy limit = ([], b, buy)) ∨
    (∃ best rest, 0 < buy.qty ∧ b.ask_prices = best :: rest ∧ ¬ limit < (best : WithTop ℚ) ∧
      (alGet b.asks best = none ∨ alGet b.asks best = some []) ∧
      matchBuyF (fuel + 1) b buy limit = ([], b, buy)) ∨
    (∃ best rest maker q_rest,
      0 < buy.qty ∧ b.ask_prices = best :: rest ∧ ¬ limit < (best : WithTop ℚ) ∧
      alGet b.asks best = some (maker :: q_rest) ∧
      matchBuyF (fuel + 1) b buy limit =
        ((⟨buy.order_id, maker.order_id, best, min buy.qty maker.qty⟩ : Fill) ::
           (matchBuyF fuel (buyStepBook b best rest maker q_rest (min buy.qty maker.qty))
              { buy with qty := buy.qty - min buy.qty maker.qty } limit).1,
         (matchBuyF fuel (buyStepBook b best rest maker q_rest (min buy.qty maker.qty))
            { buy with qty := buy.qty - min buy.qty maker.qty } limit).2)) := by
  by_cases hq : 0 < buy.qty
  · rcases hp : b.ask_prices with _ | ⟨best, rest⟩
    · exact Or.inr (Or.inl ⟨hq, rfl, by simp [matchBuyF, hq, hp]⟩)
    · by_cases hl : limit < (best : WithTop ℚ)
      · exact Or.inr (Or.inr (Or.inl ⟨best, rest, hq, rfl, hl, by simp [matchBuyF, hq, hp, hl]⟩))
      · rcases hg : alGet b.asks best with _ | q
        · exact Or.inr (Or.inr (Or.inr (Or.inl
            ⟨best, rest, hq, rfl, hl, Or.inl hg, by simp [matchBuyF, hq, hp, hl, hg]⟩)))
        · rcases q with _ | ⟨maker, q_rest⟩
          · exact Or.inr (Or.inr (Or.inr (Or.inl
              ⟨best, rest, hq, rfl, hl, Or.inr hg, by simp [matchBuyF, hq, hp, hl, hg]⟩)))
          · refine Or.inr (Or.inr (Or.inr (Or.inr
              ⟨best, rest, maker, q_rest, hq, rfl, hl, hg, ?_⟩)))
            simp [matchBuyF, hq, hp, hl, hg]
  · exact Or.inl ⟨hq, matchBuyF_not_pos hq _ b limit⟩

/-- One-step case analysis for `_match_sell`, mirroring
`matchBuyF_succ_cases`. -/
theorem matchSellF_succ_cases (fuel : Nat) (b : Book) (sell : Order) (limit : ℚ) :
    (¬ 0 < sell.qty ∧ matchSellF (fuel + 1) b sell limit = ([], b, sell)) ∨
    (0 < sell.qty ∧ b.bid_prices = [] ∧ matchSellF (fuel + 1) b sell limit = ([], b, sell)) ∨
    (∃ best rest, 0 < sell.qty ∧ b.bid_prices = best :: rest ∧ best < limit ∧
      matchSellF (fuel + 1) b sell limit = ([], b, sell)) ∨
    (∃ best rest, 0 < sell.qty ∧ b.bid_prices = best :: rest ∧ ¬ best < limit ∧
      (alGet b.bids best = none ∨ alGet b.bids best = some []) ∧
      matchSellF (fuel + 1) b sell limit = ([], b, sell)) ∨
    (∃ best rest maker q_rest,
      0 < sell.qty ∧ b.bid_prices = best :: rest ∧ ¬ best < limit ∧
      alGet b.bids best = some (maker :: q_rest) ∧
      matchSellF (fuel + 1) b sell limit =
        ((⟨sell.order_id, maker.order_id, best, min sell.qty maker.qty⟩ : Fill) ::
           (matchSellF fuel (sellStepBook b best rest maker q_rest (min sell.qty maker.qty))
              { sell with qty := sell.qty - min sell.qty maker.qty } limit).1,
         (matchSellF fuel (sellStepBook b best rest maker q_rest (min sell.qty maker.qty))
            { sell with qty := sell.qty - min sell.qty maker.qty } limit).2)) := by
  by_cases hq : 0 < sell.qty
  · rcases hp : b.bid_prices with _ | ⟨best, rest⟩
    · exact Or.inr (Or.inl ⟨hq, rfl, by simp [matchSellF, hq, hp]⟩)
    · by_cases hl : best < limit
      · exact Or.inr (Or.inr (Or.inl ⟨best, rest, hq, rfl, hl, by simp [matchSellF, hq, hp, hl]⟩))
      · rcases hg : alGet b.bids best with _ | q
        · exact Or.inr (Or.inr (Or.inr (Or.inl
            ⟨best, rest, hq, rfl, hl, Or.inl hg, by simp [matchSellF, hq, hp, hl, hg]⟩)))
        · rcases q with _ | ⟨maker, q_rest⟩
          · exact Or.inr (Or.inr (Or.inr (Or.inl
              ⟨best, rest, hq, rfl, hl, Or.inr hg, by simp [matchSellF, hq, hp, hl, hg]⟩)))
          · refine Or.inr (Or.inr (Or.inr (Or.inr
              ⟨best, rest, maker, q_rest, hq, rfl, hl, hg, ?_⟩)))
            simp [matchSellF, hq, hp, hl, hg]
  · exact Or.inl ⟨hq, matchSellF_not_pos hq _ b limit⟩

/-! ### Further association list and greedy lemmas -/

section AssocListLemmas2

variable {K V : Type} [DecidableEq K]

theorem alGet_of_mem_nodup {l : List (K × V)}
    (h : (keysOf l).Nodup) {kv : K × V} (hm : kv ∈ l) : alGet l kv.1 = some kv.2 := by
  induction l with
  | nil => simp at hm
  | cons kv2 rest ih =>
    simp only [keysOf, List.map_cons, List.nodup_cons] at h
    rcases List.mem_cons.mp hm with h1 | h1
    · subst h1; simp [alGet]
    · have hne : ¬ kv2.1 = kv.1 := by
        intro he
        exact h.1 (List.mem_map.mpr ⟨kv, h1, he.symm⟩)
      simp [alGet, hne, ih h.2 h1]

theorem alGet_eq_none_iff {l : List (K × V)} {k : K} :
    alGet l k = none ↔ k ∉ keysOf l := by
  induction l with
  | nil => simp [alGet, keysOf]
  | cons kv rest ih =>
    by_cases h1 : kv.1 = k
    · simp [alGet, keysOf, h1]
    · simp only [alGet, h1, if_false, keysOf, List.map_cons, List.mem_cons]
      rw [ih]
      constructor
      · intro h2 h3
        rcases h3 with h3 | h3
        · exact h1 h3.symm
        · exact h2 h3
      · intro h2 h3
        exact h2 (Or.inr h3)

theorem alGet_none_of_sublist {l1 l2 : List (K × V)} (h : l1.Sublist l2) {k : K}
    (h2 : alGet l2 k = none) : alGet l1 k = none := by
  rw [alGet_eq_none_iff] at h2 ⊢
  exact fun hk => h2 ((h.map Prod.fst).subset hk)

end AssocListLemmas2

theorem keysOf_sublist_of_sublist {K V : Type} {l1 l2 : List (K × V)}
    (h : l1.Sublist l2) : (keysOf l1).Sublist (keysOf l2) := h.map Prod.fst

@[simp] theorem Book.view_buy (b : Book) :
    b.view Side.BUY = ⟨b.bids, b.bid_prices, b.bid_qty⟩ := rfl

@[simp] theorem Book.view_sell (b : Book) :
    b.view Side.SELL = ⟨b.asks, b.ask_prices, b.ask_qty⟩ := rfl

@[simp] theorem sumQty_nil : sumQty [] = 0 := rfl

@[simp] theorem sumQty_cons (o : Order) (q : List Order) :
    sumQty (o :: q) = o.qty + sumQty q := by simp [sumQty]

theorem sumQty_append (q1 q2 : List Order) :
    sumQty (q1 ++ q2) = sumQty q1 + sumQty q2 := by simp [sumQty]

theorem greedyLevel_not_pos {qty : Int} (h : ¬ 0 < qty) (tid : String) (p : ℚ)
    (q : List Order) : greedyLevel tid p qty q = ([], qty) := by
  cases q <;> simp [greedyLevel, h]

theorem greedyBuy_not_pos {qty : Int} (h : ¬ 0 < qty) (tid : String) (limit : WithTop ℚ)
    (levels : List (ℚ × List Order)) : greedyBuy tid limit qty levels = [] := by
  cases levels with
  | nil => rfl
  | cons pq rest => rcases pq with ⟨p, q⟩; simp [greedyBuy, h]

theorem greedySell_not_pos {qty : Int} (h : ¬ 0 < qty) (tid : String) (limit : ℚ)
    (levels : List (ℚ × List Order)) : greedySell tid limit qty levels = [] := by
  cases levels with
  | nil => rfl
  | cons pq rest => rcases pq with ⟨p, q⟩; simp [greedySell, h]

theorem greedyBuy_cons_nil {limit : WithTop ℚ} {p : ℚ} (hl : ¬ limit < (p : WithTop ℚ))
    (tid : String) (qty : Int) (L : List (ℚ × List Order)) :
    greedyBuy tid limit qty ((p, []) :: L) = greedyBuy tid limit qty L := by
  by_cases hq : 0 < qty
  · simp [greedyBuy, hq, hl, greedyLevel]
  · simp [greedyBuy, hq, greedyBuy_not_pos hq]

theorem greedySell_cons_nil {limit : ℚ} {p : ℚ} (hl : ¬ p < limit)
    (tid : String) (qty : Int) (L : List (ℚ × List Order)) :
    greedySell tid limit qty ((p, []) :: L) = greedySell tid limit qty L := by
  by_cases hq : 0 < qty
  · simp [greedySell, hq, hl, greedyLevel]
  · simp [greedySell, hq, greedySell_not_pos hq]

theorem greedyBuy_cons_consume {limit : WithTop ℚ} {p : ℚ} {qty : Int} {maker : Order}
    (hq : 0 < qty) (hl : ¬ limit < (p : WithTop ℚ))
    (h0 : maker.qty - min qty maker.qty = 0)
    (tid : String) (q_rest : List Order) (L : List (ℚ × List Order)) :
    greedyBuy tid limit qty ((p, maker :: q_rest) :: L) =
      ⟨tid, maker.order_id, p, min qty maker.qty⟩ ::
        greedyBuy tid limit (qty - min qty maker.qty) ((p, q_rest) :: L) := by
  by_cases hq2 : 0 < qty - min qty maker.qty
  · simp [greedyBuy, hq, hl, greedyLevel, h0, hq2]
  · rw [greedyBuy_not_pos hq2]
    simp [greedyBuy, hq, hl, greedyLevel, h0, greedyLevel_not_pos hq2,
          greedyBuy_not_pos hq2]

theorem greedySell_cons_consume {limit : ℚ} {p : ℚ} {qty : Int} {maker : Order}
    (hq : 0 < qty) (hl : ¬ p < limit)
    (h0 : maker.qty - min qty maker.qty = 0)
    (tid : String) (q_rest : List Order) (L : List (ℚ × List Order)) :
    greedySell tid limit qty ((p, maker :: q_rest) :: L) =
      ⟨tid, maker.order_id, p, min qty maker.qty⟩ ::
        greedySell tid limit (qty - min qty maker.qty) ((p, q_rest) :: L) := by
  by_cases hq2 : 0 < qty - min qty maker.qty
  · simp [greedySell, hq, hl, greedyLevel, h0, hq2]
  · rw [greedySell_not_pos hq2]
    simp [greedySell, hq, hl, greedyLevel, h0, greedyLevel_not_pos hq2,
          greedySell_not_pos hq2]

theorem greedyBuy_cons_part {limit : WithTop ℚ} {p : ℚ} {qty : Int} {maker : Order}
    (hq : 0 < qty) (hl : ¬ limit < (p : WithTop ℚ))
    (h0 : ¬ maker.qty - min qty maker.qty = 0)
    (tid : String) (q_rest : List Order) (L : List (ℚ × List Order)) :
    greedyBuy tid limit qty ((p, maker :: q_rest) :: L) =
      [⟨tid, maker.order_id, p, min qty maker.qty⟩] := by
  have hz : ¬ 0 < qty - min qty maker.qty := by omega
  simp [greedyBuy, hq, hl, greedyLevel, h0, greedyBuy_not_pos hz]

theorem greedySell_cons_part {limit : ℚ} {p : ℚ} {qty : Int} {maker : Order}
    (hq : 0 < qty) (hl : ¬ p < limit)
    (h0 : ¬ maker.qty - min qty maker.qty = 0)
    (tid : String) (q_rest : List Order) (L : List (ℚ × List Order)) :
    greedySell tid limit qty ((p, maker :: q_rest) :: L) =
      [⟨tid, maker.order_id, p, min qty maker.qty⟩] := by
  have hz : ¬ 0 < qty - min qty maker.qty := by omega
  simp [greedySell, hq, hl, greedyLevel, h0, greedySell_not_pos hz]

/-! ### Shapes of the per-iteration state mutation -/

theorem buyStepBook_eq_pop {b : Book} {best : ℚ} {rest : List ℚ} {maker : Order}
    {traded : Int} (h0 : maker.qty - traded = 0) :
    buyStepBook b best rest maker [] traded =
      { b with asks := alPop b.asks best, ask_prices := rest,
               ask_qty := alPop (alSet b.ask_qty best
                  ((alGet b.ask_qty best).getD 0 - traded)) best,
               id_map := alPop b.id_map maker.order_id } := by
  simp [buyStepBook, h0]

theorem buyStepBook_eq_shift {b : Book} {best : ℚ} {rest : List ℚ} {maker o1 : Order}
    {q2 : List Order} {traded : Int} (h0 : maker.qty - traded = 0) :
    buyStepBook b best rest maker (o1 :: q2) traded =
      { b with asks := alSet b.asks best (o1 :: q2),
               ask_qty := alSet b.ask_qty best ((alGet b.ask_qty best).getD 0 - traded),
               id_map := alPop b.id_map maker.order_id } := by
  simp [buyStepBook, h0]

theorem buyStepBook_eq_part {b : Book} {best : ℚ} {rest : List ℚ} {maker : Order}
    {q_rest : List Order} {traded : Int} (h0 : ¬ maker.qty - traded = 0) :
    buyStepBook b best rest maker q_rest traded =
      { b with asks := alSet b.asks best
                  ({ maker with qty := maker.qty - traded } :: q_rest),
               ask_qty := alSet b.ask_qty best
                  ((alGet b.ask_qty best).getD 0 - traded) } := by
  simp [buyStepBook, h0]

theorem sellStepBook_eq_pop {b : Book} {best : ℚ} {rest : List ℚ} {maker : Order}
    {traded : Int} (h0 : maker.qty - traded = 0) :
    sellStepBook b best rest maker [] traded =
      { b with bids := alPop b.bids best, bid_prices := rest,
               bid_qty := alPop (alSet b.bid_qty best
                  ((alGet b.bid_qty best).getD 0 - traded)) best,
               id_map := alPop b.id_map maker.order_id } := by
  simp [sellStepBook, h0]

theorem sellStepBook_eq_shift {b : Book} {best : ℚ} {rest : List ℚ} {maker o1 : Order}
    {q2 : List Order} {traded : Int} (h0 : maker.qty - traded = 0) :
    sellStepBook b best rest maker (o1 :: q2) traded =
      { b with bids := alSet b.bids best (o1 :: q2),
               bid_qty := alSet b.bid_qty best ((alGet b.bid_qty best).getD 0 - traded),
               id_map := alPop b.id_map maker.order_id } := by
  simp [sellStepBook, h0]

theorem sellStepBook_eq_part {b : Book} {best : ℚ} {rest : List ℚ} {maker : Order}
    {q_rest : List Order} {traded : Int} (h0 : ¬ maker.qty - traded = 0) :
    sellStepBook b best rest maker q_rest traded =
      { b with bids := alSet b.bids best
                  ({ maker with qty := maker.qty - traded } :: q_rest),
               bid_qty := alSet b.bid_qty best
                  ((alGet b.bid_qty best).getD 0 - traded) } := by
  simp [sellStepBook, h0]

/-- One `_match_buy` iteration preserves ask-side well-formedness. -/
theorem viewInv_buyStep {b : Book} {best : ℚ} {rest : List ℚ} {maker : Order}
    {q_rest : List Order} {traded : Int}
    (hinv : ViewInv (b.view Side.SELL) (fun a c => a < c))
    (hp : b.ask_prices = best :: rest)
    (hg : alGet b.asks best = some (maker :: q_rest))
    (htr : traded ≤ maker.qty) :
    ViewInv ((buyStepBook b best rest maker q_rest traded).view Side.SELL)
      (fun a c => a < c) := by
  obtain ⟨hsort, hsome, hnodup, hq, hagg⟩ := hinv
  simp only [Book.view_sell] at hsort hsome hnodup hq hagg ⊢
  have hforall : ∀ p ∈ rest, best < p := by
    rw [hp] at hsort
    exact (List.pairwise_cons.mp hsort).1
  have hsort1 : rest.Pairwise (fun a c => a < c) := by
    rw [hp] at hsort
    exact (List.pairwise_cons.mp hsort).2
  have hbest_notin : best ∉ rest := fun hm => lt_irrefl best (hforall best hm)
  have hmem : (best, maker :: q_rest) ∈ b.asks := alGet_mem hg
  have haggbest : alGet b.ask_qty best = some (sumQty (maker :: q_rest)) := hagg _ hmem
  by_cases h0 : maker.qty - traded = 0
  · rcases q_rest with _ | ⟨o1, q2⟩
    · -- the maker was alone at its level: pop level, price, and aggregate
      rw [buyStepBook_eq_pop h0]
      dsimp only
      have hnodup2 : (keysOf (alPop b.asks best)).Nodup :=
        List.Nodup.sublist (keysOf_sublist_of_sublist (alPop_sublist b.asks best)) hnodup
      refine ⟨hsort1, ?_, hnodup2, ?_, ?_⟩
      · intro p hpm
        have hne : ¬ best = p := fun he => hbest_notin (he ▸ hpm)
        rw [alGet_alPop_ne _ hne]
        exact hsome p (by rw [hp]; exact List.mem_cons_of_mem _ hpm)
      · intro kv hkv
        exact hq kv ((alPop_sublist b.asks best).subset hkv)
      · intro kv hkv
        have hkv2 : kv ∈ b.asks := (alPop_sublist b.asks best).subset hkv
        have hne : ¬ best = kv.1 := by
          intro he
          have hgot := alGet_of_mem_nodup hnodup2 hkv
          rw [← he, alGet_alPop_self hnodup] at hgot
          exact Option.noConfusion hgot
        rw [alGet_alPop_ne _ hne, alGet_alSet_ne _ _ hne]
        exact hagg kv hkv2
    · -- the maker is popped but the level stays
      rw [buyStepBook_eq_shift h0]
      dsimp only
      have hnodup2 : (keysOf (alSet b.asks best (o1 :: q2))).Nodup :=
        keysOf_alSet_nodup best (o1 :: q2) hnodup
      refine ⟨hsort, ?_, hnodup2, ?_, ?_⟩
      · intro p hpm
        rw [hp] at hpm
        rcases List.mem_cons.mp hpm with rfl | hpm2
        · rw [alGet_alSet_self]; rfl
        · have hne : ¬ best = p := fun he => hbest_notin (he ▸ hpm2)
          rw [alGet_alSet_ne _ _ hne]
          exact hsome p (by rw [hp]; exact List.mem_cons_of_mem _ hpm2)
      · intro kv hkv
        rcases mem_alSet_weak hkv with heq | hkv2
        · subst heq
          refine ⟨List.cons_ne_nil _ _, ?_⟩
          intro o ho
          exact hq _ hmem |>.2 o (List.mem_cons_of_mem _ ho)
        · exact hq kv hkv2
      · intro kv hkv
        have hgot := alGet_of_mem_nodup hnodup2 hkv
        by_cases he : kv.1 = best
        · rw [he, alGet_alSet_self] at hgot
          rw [he, alGet_alSet_self]
          have hsum : (alGet b.ask_qty best).getD 0 - traded = sumQty (o1 :: q2) := by
            rw [haggbest]
            simp only [Option.getD_some, sumQty_cons]
            omega
          rw [hsum]
          exact congrArg some (congrArg sumQty (Option.some.inj hgot))
        · have hne : ¬ best = kv.1 := fun hh => he hh.symm
          rw [alGet_alSet_ne _ _ hne] at hgot
          rw [alGet_alSet_ne _ _ hne]
          have hkv2 : (kv.1, kv.2) ∈ b.asks := alGet_mem hgot
          have := hagg _ hkv2
          simpa using this
  · -- partial fill: the head maker stays with reduced quantity
    rw [buyStepBook_eq_part h0]
    dsimp only
    have hnodup2 : (keysOf (alSet b.asks best
        ({ maker with qty := maker.qty - traded } :: q_rest))).Nodup :=
      keysOf_alSet_nodup _ _ hnodup
    refine ⟨hsort, ?_, hnodup2, ?_, ?_⟩
    · intro p hpm
      rw [hp] at hpm
      rcases List.mem_cons.mp hpm with rfl | hpm2
      · rw [alGet_alSet_self]; rfl
      · have hne : ¬ best = p := fun he => hbest_notin (he ▸ hpm2)
        rw [alGet_alSet_ne _ _ hne]
        exact hsome p (by rw [hp]; exact List.mem_cons_of_mem _ hpm2)
    · intro kv hkv
      rcases mem_alSet_weak hkv with heq | hkv2
      · subst heq
        refine ⟨List.cons_ne_nil _ _, ?_⟩
        intro o ho
        rcases List.mem_cons.mp ho with rfl | ho2
        · constructor
          · simp only []
            omega
          · have := hq _ hmem |>.2 maker (List.mem_cons_self _ _)
            simpa using this.2
        · exact hq _ hmem |>.2 o (List.mem_cons_of_mem _ ho2)
      · exact hq kv hkv2
    · intro kv hkv
      have hgot := alGet_of_mem_nodup hnodup2 hkv
      by_cases he : kv.1 = best
      · rw [he, alGet_alSet_self] at hgot
        rw [he, alGet_alSet_self]
        have hsum : (alGet b.ask_qty best).getD 0 - traded =
            sumQty ({ maker with qty := maker.qty - traded } :: q_rest) := by
          rw [haggbest]
          simp only [Option.getD_some, sumQty_cons]
          omega
        rw [hsum]
        exact congrArg some (congrArg sumQty (Option.some.inj hgot))
      · have hne : ¬ best = kv.1 := fun hh => he hh.symm
        rw [alGet_alSet_ne _ _ hne] at hgot
        rw [alGet_alSet_ne _ _ hne]
        have hkv2 : (kv.1, kv.2) ∈ b.asks := alGet_mem hgot
        have := hagg _ hkv2
        simpa using this

/-- One `_match_sell` iteration preserves bid-side well-formedness. -/
theorem viewInv_sellStep {b : Book} {best : ℚ} {rest : List ℚ} {maker : Order}
    {q_rest : List Order} {traded : Int}
    (hinv : ViewInv (b.view Side.BUY) (fun a c => c < a))
    (hp : b.bid_prices = best :: rest)
    (hg : alGet b.bids best = some (maker :: q_rest))
    (htr : traded ≤ maker.qty) :
    ViewInv ((sellStepBook b best rest maker q_rest traded).view Side.BUY)
      (fun a c => c < a) := by
  obtain ⟨hsort, hsome, hnodup, hq, hagg⟩ := hinv
  simp only [Book.view_buy] at hsort hsome hnodup hq hagg ⊢
  have hforall : ∀ p ∈ rest, p < best := by
    rw [hp] at hsort
    exact (List.pairwise_cons.mp hsort).1
  have hsort1 : rest.Pairwise (fun a c => c < a) := by
    rw [hp] at hsort
    exact (List.pairwise_cons.mp hsort).2
  have hbest_notin : best ∉ rest := fun hm => lt_irrefl best (hforall best hm)
  have hmem : (best, maker :: q_rest) ∈ b.bids := alGet_mem hg
  have haggbest : alGet b.bid_qty best = some (sumQty (maker :: q_rest)) := hagg _ hmem
  by_cases h0 : maker.qty - traded = 0
  · rcases q_rest with _ | ⟨o1, q2⟩
    · -- the maker was alone at its level: pop level, price, and aggregate
      rw [sellStepBook_eq_pop h0]
      dsimp only
      have hnodup2 : (keysOf (alPop b.bids best)).Nodup :=
        List.Nodup.sublist (keysOf_sublist_of_sublist (alPop_sublist b.bids best)) hnodup
      refine ⟨hsort1, ?_, hnodup2, ?_, ?_⟩
      · intro p hpm
        have hne : ¬ best = p := fun he => hbest_notin (he ▸ hpm)
        rw [alGet_alPop_ne _ hne]
        exact hsome p (by rw [hp]; exact List.mem_cons_of_mem _ hpm)
      · intro kv hkv
        exact hq kv ((alPop_sublist b.bids best).subset hkv)
      · intro kv hkv
        have hkv2 : kv ∈ b.bids := (alPop_sublist b.bids best).subset hkv
        have hne : ¬ best = kv.1 := by
          intro he
          have hgot := alGet_of_mem_nodup hnodup2 hkv
          rw [← he, alGet_alPop_self hnodup] at hgot
          exact Option.noConfusion hgot
        rw [alGet_alPop_ne _ hne, alGet_alSet_ne _ _ hne]
        exact hagg kv hkv2
    · -- the maker is popped but the level stays
      rw [sellStepBook_eq_shift h0]
      dsimp only
      have hnodup2 : (keysOf (alSet b.bids best (o1 :: q2))).Nodup :=
        keysOf_alSet_nodup best (o1 :: q2) hnodup
      refine ⟨hsort, ?_, hnodup2, ?_, ?_⟩
      · intro p hpm
        rw [hp] at hpm
        rcases List.mem_cons.mp hpm with rfl | hpm2
        · rw [alGet_alSet_self]; rfl
        · have hne : ¬ best = p := fun he => hbest_notin (he ▸ hpm2)
          rw [alGet_alSet_ne _ _ hne]
          exact hsome p (by rw [hp]; exact List.mem_cons_of_mem _ hpm2)
      · intro kv hkv
        rcases mem_alSet_weak hkv with heq | hkv2
        · subst heq
          refine ⟨List.cons_ne_nil _ _, ?_⟩
          intro o ho
          exact hq _ hmem |>.2 o (List.mem_cons_of_mem _ ho)
        · exact hq kv hkv2
      · intro kv hkv
        have hgot := alGet_of_mem_nodup hnodup2 hkv
        by_cases he : kv.1 = best
        · rw [he, alGet_alSet_self] at hgot
          rw [he, alGet_alSet_self]
          have hsum : (alGet b.bid_qty best).getD 0 - traded = sumQty (o1 :: q2) := by
            rw [haggbest]
            simp only [Option.getD_some, sumQty_cons]
            omega
          rw [hsum]
          exact congrArg some (congrArg sumQty (Option.some.inj hgot))
        · have hne : ¬ best = kv.1 := fun hh => he hh.symm
          rw [alGet_alSet_ne _ _ hne] at hgot
          rw [alGet_alSet_ne _ _ hne]
          have hkv2 : (kv.1, kv.2) ∈ b.bids := alGet_mem hgot
          have := hagg _ hkv2
          simpa using this
  · -- partial fill: the head maker stays with reduced quantity
    rw [sellStepBook_eq_part h0]
    dsimp only
    have hnodup2 : (keysOf (alSet b.bids best
        ({ maker with qty := maker.qty - traded } :: q_rest))).Nodup :=
      keysOf_alSet_nodup _ _ hnodup
    refine ⟨hsort, ?_, hnodup2, ?_, ?_⟩
    · intro p hpm
      rw [hp] at hpm
      rcases List.mem_cons.mp hpm with rfl | hpm2
      · rw [alGet_alSet_self]; rfl
      · have hne : ¬ best = p := fun he => hbest_notin (he ▸ hpm2)
        rw [alGet_alSet_ne _ _ hne]
        exact hsome p (by rw [hp]; exact List.mem_cons_of_mem _ hpm2)
    · intro kv hkv
      rcases mem_alSet_weak hkv with heq | hkv2
      · subst heq
        refine ⟨List.cons_ne_nil _ _, ?_⟩
        intro o ho
        rcases List.mem_cons.mp ho with rfl | ho2
        · constructor
          · simp only []
            omega
          · have := hq _ hmem |>.2 maker (List.mem_cons_self _ _)
            simpa using this.2
        · exact hq _ hmem |>.2 o (List.mem_cons_of_mem _ ho2)
      · exact hq kv hkv2
    · intro kv hkv
      have hgot := alGet_of_mem_nodup hnodup2 hkv
      by_cases he : kv.1 = best
      · rw [he, alGet_alSet_self] at hgot
        rw [he, alGet_alSet_self]
        have hsum : (alGet b.bid_qty best).getD 0 - traded =
            sumQty ({ maker with qty := maker.qty - traded } :: q_rest) := by
          rw [haggbest]
          simp only [Option.getD_some, sumQty_cons]
          omega
        rw [hsum]
        exact congrArg some (congrArg sumQty (Option.some.inj hgot))
      · have hne : ¬ best = kv.1 := fun hh => he hh.symm
        rw [alGet_alSet_ne _ _ hne] at hgot
        rw [alGet_alSet_ne _ _ hne]
        have hkv2 : (kv.1, kv.2) ∈ b.bids := alGet_mem hgot
        have := hagg _ hkv2
        simpa using this

/-! ### The matching loops refine greedy price-time matching -/

/-- `_match_buy` produces exactly the fills of greedy price-time
matching over the ask levels, on any well-formed ask side and with
sufficient fuel (the public entry points always pass sufficient fuel). -/
theorem matchBuyF_refines : ∀ (fuel : Nat) (b : Book) (buy : Order) (limit : WithTop ℚ),
    ViewInv (b.view Side.SELL) (fun a c => a < c) →
    b.askOrderCount < fuel →
    (matchBuyF fuel b buy limit).1 = greedyBuy buy.order_id limit buy.qty (askLevels b) := by
  intro fuel
  induction fuel with
  | zero => intro b buy limit hinv hcount; omega
  | succ n ih =>
    intro b buy limit hinv hcount
    rcases matchBuyF_succ_cases n b buy limit with
      ⟨hq, heq⟩ | ⟨hq, hp, heq⟩ | ⟨best, rest, hq, hp, hl, heq⟩ |
      ⟨best, rest, hq, hp, hl, hmal, heq⟩ |
      ⟨best, rest, maker, q_rest, hq, hp, hl, hg, heq⟩
    · rw [heq]; exact (greedyBuy_not_pos hq _ _ _).symm
    · rw [heq]; simp [askLevels, hp, greedyBuy]
    · rw [heq]
      rw [askLevels, hp]
      simp [greedyBuy, hl]
    · exfalso
      obtain ⟨hsort, hsome, hnodup, hqv, hagg⟩ := hinv
      simp only [Book.view_sell] at hsome hqv
      rcases hmal with hmal | hmal
      · have h1 := hsome best (by rw [hp]; exact List.mem_cons_self _ _)
        rw [hmal] at h1
        exact Bool.noConfusion h1
      · exact (hqv _ (alGet_mem hmal)).1 rfl
    · rw [heq]
      have hsort := hinv.1
      simp only [Book.view_sell] at hsort
      rw [hp] at hsort
      have hbest_notin : best ∉ rest :=
        fun hm => lt_irrefl best ((List.pairwise_cons.mp hsort).1 best hm)
      have htraded_le : min buy.qty maker.qty ≤ maker.qty := min_le_right _ _
      have hlev : askLevels b = (best, maker :: q_rest) ::
          rest.map (fun p => (p, (alGet b.asks p).getD [])) := by
        rw [askLevels, hp]
        simp [hg]
      have hb2inv := viewInv_buyStep hinv hp hg htraded_le
      by_cases h0 : maker.qty - min buy.qty maker.qty = 0
      · have hcount2 :=
          buyStepBook_count rest (min buy.qty maker.qty) hg h0
        have hcount3 :
            (buyStepBook b best rest maker q_rest (min buy.qty maker.qty)).askOrderCount < n := by
          omega
        have hih := ih _ { buy with qty := buy.qty - min buy.qty maker.qty } limit hb2inv hcount3
        rcases q_rest with _ | ⟨o1, q2⟩
        · -- level emptied: the greedy spec drops the now-empty level
          rw [hih, hlev, greedyBuy_cons_consume hq hl h0]
          rw [buyStepBook_eq_pop h0]
          have hmapeq : rest.map
              (fun p => (p, (alGet (alPop b.asks best) p).getD [])) =
              rest.map (fun p => (p, (alGet b.asks p).getD [])) := by
            apply List.map_congr_left
            intro p hpm
            have hne : ¬ best = p := fun he => hbest_notin (he ▸ hpm)
            rw [alGet_alPop_ne _ hne]
          rw [askLevels]
          dsimp only
          rw [hmapeq, greedyBuy_cons_nil hl]
        · rw [hih, hlev, greedyBuy_cons_consume hq hl h0]
          rw [buyStepBook_eq_shift h0]
          have hmapeq : rest.map
              (fun p => (p, (alGet (alSet b.asks best (o1 :: q2)) p).getD [])) =
              rest.map (fun p => (p, (alGet b.asks p).getD [])) := by
            apply List.map_congr_left
            intro p hpm
            have hne : ¬ best = p := fun he => hbest_notin (he ▸ hpm)
            rw [alGet_alSet_ne _ _ hne]
          rw [askLevels]
          dsimp only
          rw [hp, List.map_cons, alGet_alSet_self, hmapeq]
          rfl
      · -- partial fill: the aggressor is exhausted by this fill
        have hz : buy.qty - min buy.qty maker.qty = 0 := by omega
        rw [matchBuyF_not_pos (by simp [hz]) n _ limit]
        rw [hlev, greedyBuy_cons_part hq hl h0]

/-- `_match_sell` produces exactly the fills of greedy price-time
matching over the bid levels. -/
theorem matchSellF_refines : ∀ (fuel : Nat) (b : Book) (sell : Order) (limit : ℚ),
    ViewInv (b.view Side.BUY) (fun a c => c < a) →
    b.bidOrderCount < fuel →
    (matchSellF fuel b sell limit).1 = greedySell sell.order_id limit sell.qty (bidLevels b) := by
  intro fuel
  induction fuel with
  | zero => intro b sell limit hinv hcount; omega
  | succ n ih =>
    intro b sell limit hinv hcount
    rcases matchSellF_succ_cases n b sell limit with
      ⟨hq, heq⟩ | ⟨hq, hp, heq⟩ | ⟨best, rest, hq, hp, hl, heq⟩ |
      ⟨best, rest, hq, hp, hl, hmal, heq⟩ |
      ⟨best, rest, maker, q_rest, hq, hp, hl, hg, heq⟩
    · rw [heq]; exact (greedySell_not_pos hq _ _ _).symm
    · rw [heq]; simp [bidLevels, hp, greedySell]
    · rw [heq]
      rw [bidLevels, hp]
      simp [greedySell, hl]
    · exfalso
      obtain ⟨hsort, hsome, hnodup, hqv, hagg⟩ := hinv
      simp only [Book.view_buy] at hsome hqv
      rcases hmal with hmal | hmal
      · have h1 := hsome best (by rw [hp]; exact List.mem_cons_self _ _)
        rw [hmal] at h1
        exact Bool.noConfusion h1
      · exact (hqv _ (alGet_mem hmal)).1 rfl
    · rw [heq]
      have hsort := hinv.1
      simp only [Book.view_buy] at hsort
      rw [hp] at hsort
      have hbest_notin : best ∉ rest :=
        fun hm => lt_irrefl best ((List.pairwise_cons.mp hsort).1 best hm)
      have htraded_le : min sell.qty maker.qty ≤ maker.qty := min_le_right _ _
      have hlev : bidLevels b = (best, maker :: q_rest) ::
          rest.map (fun p => (p, (alGet b.bids p).getD [])) := by
        rw [bidLevels, hp]
        simp [hg]
      have hb2inv := viewInv_sellStep hinv hp hg htraded_le
      by_cases h0 : maker.qty - min sell.qty maker.qty = 0
      · have hcount2 :=
          sellStepBook_count rest (min sell.qty maker.qty) hg h0
        have hcount3 :
            (sellStepBook b best rest maker q_rest (min sell.qty maker.qty)).bidOrderCount < n := by
          omega
        have hih := ih _ { sell with qty := sell.qty - min sell.qty maker.qty } limit hb2inv hcount3
        rcases q_rest with _ | ⟨o1, q2⟩
        · rw [hih, hlev, greedySell_cons_consume hq hl h0]
          rw [sellStepBook_eq_pop h0]
          have hmapeq : rest.map
              (fun p => (p, (alGet (alPop b.bids best) p).getD [])) =
              rest.map (fun p => (p, (alGet b.bids p).getD [])) := by
            apply List.map_congr_left
            intro p hpm
            have hne : ¬ best = p := fun he => hbest_notin (he ▸ hpm)
            rw [alGet_alPop_ne _ hne]
          rw [bidLevels]
          dsimp only
          rw [hmapeq, greedySell_cons_nil hl]
        · rw [hih, hlev, greedySell_cons_consume hq hl h0]
          rw [sellStepBook_eq_shift h0]
          have hmapeq : rest.map
              (fun p => (p, (alGet (alSet b.bids best (o1 :: q2)) p).getD [])) =
              rest.map (fun p => (p, (alGet b.bids p).getD [])) := by
            apply List.map_congr_left
            intro p hpm
            have hne : ¬ best = p := fun he => hbest_notin (he ▸ hpm)
            rw [alGet_alSet_ne _ _ hne]
          rw [bidLevels]
          dsimp only
          rw [hp, List.map_cons, alGet_alSet_self, hmapeq]
          rfl
      · have hz : sell.qty - min sell.qty maker.qty = 0 := by omega
        rw [matchSellF_not_pos (by simp [hz]) n _ limit]
        rw [hlev, greedySell_cons_part hq hl h0]

/-! ### Frame and monotonicity properties of the matching loops -/

theorem buyStepBook_other (b : Book) (best : ℚ) (rest : List ℚ) (maker : Order)
    (q_rest : List Order) (traded : Int) :
    (buyStepBook b best rest maker q_rest traded).bids = b.bids ∧
    (buyStepBook b best rest maker q_rest traded).bid_prices = b.bid_prices ∧
    (buyStepBook b best rest maker q_rest traded).bid_qty = b.bid_qty := by
  unfold buyStepBook
  split_ifs <;> exact ⟨rfl, rfl, rfl⟩

theorem sellStepBook_other (b : Book) (best : ℚ) (rest : List ℚ) (maker : Order)
    (q_rest : List Order) (traded : Int) :
    (sellStepBook b best rest maker q_rest traded).asks = b.asks ∧
    (sellStepBook b best rest maker q_rest traded).ask_prices = b.ask_prices ∧
    (sellStepBook b best rest maker q_rest traded).ask_qty = b.ask_qty := by
  unfold sellStepBook
  split_ifs <;> exact ⟨rfl, rfl, rfl⟩

theorem buyStepBook_idmap (b : Book) (best : ℚ) (rest : List ℚ) (maker : Order)
    (q_rest : List Order) (traded : Int) :
    ((buyStepBook b best rest maker q_rest traded).id_map).Sublist b.id_map := by
  unfold buyStepBook
  split_ifs
  · exact alPop_sublist _ _
  · exact alPop_sublist _ _
  · exact List.Sublist.refl _

theorem sellStepBook_idmap (b : Book) (best : ℚ) (rest : List ℚ) (maker : Order)
    (q_rest : List Order) (traded : Int) :
    ((sellStepBook b best rest maker q_rest traded).id_map).Sublist b.id_map := by
  unfold sellStepBook
  split_ifs
  · exact alPop_sublist _ _
  · exact alPop_sublist _ _
  · exact List.Sublist.refl _

theorem buyStepBook_prices {b : Book} {best : ℚ} {rest : List ℚ}
    (hp : b.ask_prices = best :: rest) (maker : Order)
    (q_rest : List Order) (traded : Int) :
    ((buyStepBook b best rest maker q_rest traded).ask_prices).Sublist b.ask_prices := by
  unfold buyStepBook
  split_ifs
  · rw [hp]
    exact List.sublist_cons_self _ _
  · exact List.Sublist.refl _
  · exact List.Sublist.refl _

theorem sellStepBook_prices {b : Book} {best : ℚ} {rest : List ℚ}
    (hp : b.bid_prices = best :: rest) (maker : Order)
    (q_rest : List Order) (traded : Int) :
    ((sellStepBook b best rest maker q_rest traded).bid_prices).Sublist b.bid_prices := by
  unfold sellStepBook
  split_ifs
  · rw [hp]
    exact List.sublist_cons_self _ _
  · exact List.Sublist.refl _
  · exact List.Sublist.refl _

/-- `_match_buy` never touches the bid side. -/
theorem matchBuyF_other : ∀ (fuel : Nat) (b : Book) (buy : Order) (limit : WithTop ℚ),
    (matchBuyF fuel b buy limit).2.1.bids = b.bids ∧
    (matchBuyF fuel b buy limit).2.1.bid_prices = b.bid_prices ∧
    (matchBuyF fuel b buy limit).2.1.bid_qty = b.bid_qty := by
  intro fuel
  induction fuel with
  | zero => exact fun b buy limit => ⟨rfl, rfl, rfl⟩
  | succ n ih =>
    intro b buy limit
    rcases matchBuyF_succ_cases n b buy limit with
      ⟨_, heq⟩ | ⟨_, _, heq⟩ | ⟨_, _, _, _, _, heq⟩ | ⟨_, _, _, _, _, _, heq⟩ |
      ⟨best, rest, maker, q_rest, hq, hp, hl, hg, heq⟩ <;> rw [heq]
    · exact ⟨rfl, rfl, rfl⟩
    · exact ⟨rfl, rfl, rfl⟩
    · exact ⟨rfl, rfl, rfl⟩
    · exact ⟨rfl, rfl, rfl⟩
    · obtain ⟨h1, h2, h3⟩ := ih (buyStepBook b best rest maker q_rest (min buy.qty maker.qty))
        { buy with qty := buy.qty - min buy.qty maker.qty } limit
      obtain ⟨g1, g2, g3⟩ := buyStepBook_other b best rest maker q_rest (min buy.qty maker.qty)
      exact ⟨h1.trans g1, h2.trans g2, h3.trans g3⟩

/-- `_match_sell` never touches the ask side. -/
theorem matchSellF_other : ∀ (fuel : Nat) (b : Book) (sell : Order) (limit : ℚ),
    (matchSellF fuel b sell limit).2.1.asks = b.asks ∧
    (matchSellF fuel b sell limit).2.1.ask_prices = b.ask_prices ∧
    (matchSellF fuel b sell limit).2.1.ask_qty = b.ask_qty := by
  intro fuel
  induction fuel with
  | zero => exact fun b sell limit => ⟨rfl, rfl, rfl⟩
  | succ n ih =>
    intro b sell limit
    rcases matchSellF_succ_cases n b sell limit with
      ⟨_, heq⟩ | ⟨_, _, heq⟩ | ⟨_, _, _, _, _, heq⟩ | ⟨_, _, _, _, _, _, heq⟩ |
      ⟨best, rest, maker, q_rest, hq, hp, hl, hg, heq⟩ <;> rw [heq]
    · exact ⟨rfl, rfl, rfl⟩
    · exact ⟨rfl, rfl, rfl⟩
    · exact ⟨rfl, rfl, rfl⟩
    · exact ⟨rfl, rfl, rfl⟩
    · obtain ⟨h1, h2, h3⟩ := ih (sellStepBook b best rest maker q_rest (min sell.qty maker.qty))
        { sell with qty := sell.qty - min sell.qty maker.qty } limit
      obtain ⟨g1, g2, g3⟩ := sellStepBook_other b best rest maker q_rest (min sell.qty maker.qty)
      exact ⟨h1.trans g1, h2.trans g2, h3.trans g3⟩

/-- Matching only removes entries from the order index. -/
theorem matchBuyF_idmap : ∀ (fuel : Nat) (b : Book) (buy : Order) (limit : WithTop ℚ),
    ((matchBuyF fuel b buy limit).2.1.id_map).Sublist b.id_map := by
  intro fuel
  induction fuel with
  | zero => exact fun b buy limit => List.Sublist.refl _
  | succ n ih =>
    intro b buy limit
    rcases matchBuyF_succ_cases n b buy limit with
      ⟨_, heq⟩ | ⟨_, _, heq⟩ | ⟨_, _, _, _, _, heq⟩ | ⟨_, _, _, _, _, _, heq⟩ |
      ⟨best, rest, maker, q_rest, hq, hp, hl, hg, heq⟩
    all_goals rw [heq]
    exact (ih _ _ _).trans (buyStepBook_idmap b best rest maker q_rest (min buy.qty maker.qty))

theorem matchSellF_idmap : ∀ (fuel : Nat) (b : Book) (sell : Order) (limit : ℚ),
    ((matchSellF fuel b sell limit).2.1.id_map).Sublist b.id_map := by
  intro fuel
  induction fuel with
  | zero => exact fun b sell limit => List.Sublist.refl _
  | succ n ih =>
    intro b sell limit
    rcases matchSellF_succ_cases n b sell limit with
      ⟨_, heq⟩ | ⟨_, _, heq⟩ | ⟨_, _, _, _, _, heq⟩ | ⟨_, _, _, _, _, _, heq⟩ |
      ⟨best, rest, maker, q_rest, hq, hp, hl, hg, heq⟩
    all_goals rw [heq]
    exact (ih _ _ _).trans (sellStepBook_idmap b best rest maker q_rest (min sell.qty maker.qty))

/-- Matching only removes prices from the opposite price sequence. -/
theorem matchBuyF_prices : ∀ (fuel : Nat) (b : Book) (buy : Order) (limit : WithTop ℚ),
    ((matchBuyF fuel b buy limit).2.1.ask_prices).Sublist b.ask_prices := by
  intro fuel
  induction fuel with
  | zero => exact fun b buy limit => List.Sublist.refl _
  | succ n ih =>
    intro b buy limit
    rcases matchBuyF_succ_cases n b buy limit with
      ⟨_, heq⟩ | ⟨_, _, heq⟩ | ⟨_, _, _, _, _, heq⟩ | ⟨_, _, _, _, _, _, heq⟩ |
      ⟨best, rest, maker, q_rest, hq, hp, hl, hg, heq⟩
    all_goals rw [heq]
    exact (ih _ _ _).trans (buyStepBook_prices hp maker q_rest (min buy.qty maker.qty))

theorem matchSellF_prices : ∀ (fuel : Nat) (b : Book) (sell : Order) (limit : ℚ),
    ((matchSellF fuel b sell limit).2.1.bid_prices).Sublist b.bid_prices := by
  intro fuel
  induction fuel with
  | zero => exact fun b sell limit => List.Sublist.refl _
  | succ n ih =>
    intro b sell limit
    rcases matchSellF_succ_cases n b sell limit with
      ⟨_, heq⟩ | ⟨_, _, heq⟩ | ⟨_, _, _, _, _, heq⟩ | ⟨_, _, _, _, _, _, heq⟩ |
      ⟨best, rest, maker, q_rest, hq, hp, hl, hg, heq⟩
    all_goals rw [heq]
    exact (ih _ _ _).trans (sellStepBook_prices hp maker q_rest (min sell.qty maker.qty))

/-- The aggressor keeps its identity, side, price and timestamp through
the matching loop; only its quantity is mutated. -/
theorem matchBuyF_taker : ∀ (fuel : Nat) (b : Book) (buy : Order) (limit : WithTop ℚ),
    (matchBuyF fuel b buy limit).2.2 =
      { buy with qty := (matchBuyF fuel b buy limit).2.2.qty } := by
  intro fuel
  induction fuel with
  | zero => exact fun b buy limit => rfl
  | succ n ih =>
    intro b buy limit
    rcases matchBuyF_succ_cases n b buy limit with
      ⟨_, heq⟩ | ⟨_, _, heq⟩ | ⟨_, _, _, _, _, heq⟩ | ⟨_, _, _, _, _, _, heq⟩ |
      ⟨best, rest, maker, q_rest, hq, hp, hl, hg, heq⟩
    all_goals rw [heq]
    exact ih (buyStepBook b best rest maker q_rest (min buy.qty maker.qty))
      { buy with qty := buy.qty - min buy.qty maker.qty } limit

theorem matchSellF_taker : ∀ (fuel : Nat) (b : Book) (sell : Order) (limit : ℚ),
    (matchSellF fuel b sell limit).2.2 =
      { sell with qty := (matchSellF fuel b sell limit).2.2.qty } := by
  intro fuel
  induction fuel with
  | zero => exact fun b sell limit => rfl
  | succ n ih =>
    intro b sell limit
    rcases matchSellF_succ_cases n b sell limit with
      ⟨_, heq⟩ | ⟨_, _, heq⟩ | ⟨_, _, _, _, _, heq⟩ | ⟨_, _, _, _, _, _, heq⟩ |
      ⟨best, rest, maker, q_rest, hq, hp, hl, hg, heq⟩
    all_goals rw [heq]
    exact ih (sellStepBook b best rest maker q_rest (min sell.qty maker.qty))
      { sell with qty := sell.qty - min sell.qty maker.qty } limit

/-- If a buy aggressor exits the matching loop with remaining quantity,
every ask price left on the book is strictly above its limit. -/
theorem matchBuyF_no_cross : ∀ (fuel : Nat) (b : Book) (buy : Order) (limit : WithTop ℚ),
    ViewInv (b.view Side.SELL) (fun a c => a < c) →
    b.askOrderCount < fuel →
    0 < (matchBuyF fuel b buy limit).2.2.qty →
    ∀ p ∈ (matchBuyF fuel b buy limit).2.1.ask_prices, limit < (p : WithTop ℚ) := by
  intro fuel
  induction fuel with
  | zero => intro b buy limit hinv hcount; omega
  | succ n ih =>
    intro b buy limit hinv hcount hrem
    rcases matchBuyF_succ_cases n b buy limit with
      ⟨hq, heq⟩ | ⟨hq, hp, heq⟩ | ⟨best, rest, hq, hp, hl, heq⟩ |
      ⟨best, rest, hq, hp, hl, hmal, heq⟩ |
      ⟨best, rest, maker, q_rest, hq, hp, hl, hg, heq⟩
    · rw [heq] at hrem
      exact absurd hrem hq
    · rw [heq]
      intro p hpm
      rw [hp] at hpm
      simp at hpm
    · rw [heq]
      intro p hpm
      rw [hp] at hpm
      have hsort := hinv.1
      simp only [Book.view_sell] at hsort
      rw [hp] at hsort
      rcases List.mem_cons.mp hpm with rfl | hpm2
      · exact hl
      · have hbp : best < p := (List.pairwise_cons.mp hsort).1 p hpm2
        exact hl.trans (WithTop.coe_lt_coe.mpr hbp)
    · exfalso
      obtain ⟨hsort, hsome, hnodup, hqv, hagg⟩ := hinv
      simp only [Book.view_sell] at hsome hqv
      rcases hmal with hmal | hmal
      · have h1 := hsome best (by rw [hp]; exact List.mem_cons_self _ _)
        rw [hmal] at h1
        exact Bool.noConfusion h1
      · exact (hqv _ (alGet_mem hmal)).1 rfl
    · have htraded_le : min buy.qty maker.qty ≤ maker.qty := min_le_right _ _
      by_cases h0 : maker.qty - min buy.qty maker.qty = 0
      · have hb2inv := viewInv_buyStep hinv hp hg htraded_le
        have hcount2 :=
          buyStepBook_count rest (min buy.qty maker.qty) hg h0
        rw [heq] at hrem ⊢
        exact ih _ _ limit hb2inv (by omega) hrem
      · have hz : buy.qty - min buy.qty maker.qty = 0 := by omega
        rw [heq, matchBuyF_not_pos (by simp [hz]) n _ limit] at hrem
        simp [hz] at hrem

/-- If a sell aggressor exits the matching loop with remaining quantity,
every bid price left on the book is strictly below its limit. -/
theorem matchSellF_no_cross : ∀ (fuel : Nat) (b : Book) (sell : Order) (limit : ℚ),
    ViewInv (b.view Side.BUY) (fun a c => c < a) →
    b.bidOrderCount < fuel →
    0 < (matchSellF fuel b sell limit).2.2.qty →
    ∀ p ∈ (matchSellF fuel b sell limit).2.1.bid_prices, p < limit := by
  intro fuel
  induction fuel with
  | zero => intro b sell limit hinv hcount; omega
  | succ n ih =>
    intro b sell limit hinv hcount hrem
    rcases matchSellF_succ_cases n b sell limit with
      ⟨hq, heq⟩ | ⟨hq, hp, heq⟩ | ⟨best, rest, hq, hp, hl, heq⟩ |
      ⟨best, rest, hq, hp, hl, hmal, heq⟩ |
      ⟨best, rest, maker, q_rest, hq, hp, hl, hg, heq⟩
    · rw [heq] at hrem
      exact absurd hrem hq
    · rw [heq]
      intro p hpm
      rw [hp] at hpm
      simp at hpm
    · rw [heq]
      intro p hpm
      rw [hp] at hpm
      have hsort := hinv.1
      simp only [Book.view_buy] at hsort
      rw [hp] at hsort
      rcases List.mem_cons.mp hpm with rfl | hpm2
      · exact hl
      · have hbp : p < best := (List.pairwise_cons.mp hsort).1 p hpm2
        exact hbp.trans hl
    · exfalso
      obtain ⟨hsort, hsome, hnodup, hqv, hagg⟩ := hinv
      simp only [Book.view_buy] at hsome hqv
      rcases hmal with hmal | hmal
      · have h1 := hsome best (by rw [hp]; exact List.mem_cons_self _ _)
        rw [hmal] at h1
        exact Bool.noConfusion h1
      · exact (hqv _ (alGet_mem hmal)).1 rfl
    · have htraded_le : min sell.qty maker.qty ≤ maker.qty := min_le_right _ _
      by_cases h0 : maker.qty - min sell.qty maker.qty = 0
      · have hb2inv := viewInv_sellStep hinv hp hg htraded_le
        have hcount2 :=
          sellStepBook_count rest (min sell.qty maker.qty) hg h0
        rw [heq] at hrem ⊢
        exact ih _ _ limit hb2inv (by omega) hrem
      · have hz : sell.qty - min sell.qty maker.qty = 0 := by omega
        rw [heq, matchSellF_not_pos (by simp [hz]) n _ limit] at hrem
        simp [hz] at hrem

/-! ### Lemmas about resting, price insertion and removal -/

theorem alSet_alSet {K V : Type} [DecidableEq K] (l : List (K × V)) (k : K) (v v2 : V) :
    alSet (alSet l k v) k v2 = alSet l k v2 := by
  induction l with
  | nil => simp [alSet]
  | cons kv rest ih =>
    by_cases h : kv.1 = k
    · simp [alSet, h]
    · simp [alSet, h, ih]

theorem mem_insertPrice {prices : List ℚ} {price x : ℚ} {d : Bool} :
    x ∈ insertPrice prices price d ↔ x = price ∨ x ∈ prices := by
  induction prices with
  | nil => simp [insertPrice]
  | cons p rest ih =>
    by_cases h : (if d then price < p else p < price)
    · simp only [insertPrice, h, if_true, List.mem_cons, ih]
      tauto
    · simp only [insertPrice, h, if_false, List.mem_cons]

theorem insertPrice_pairwise_asc {prices : List ℚ} {price : ℚ}
    (hs : prices.Pairwise (fun a c => a < c)) (hn : price ∉ prices) :
    (insertPrice prices price false).Pairwise (fun a c => a < c) := by
  induction prices with
  | nil => simp [insertPrice]
  | cons p rest ih =>
    obtain ⟨hall, hrest⟩ := List.pairwise_cons.mp hs
    simp only [List.mem_cons] at hn
    push_neg at hn
    by_cases h : p < price
    · have hcond : (if false then price < p else p < price) := by simpa using h
      simp only [insertPrice, hcond, if_true]
      refine List.pairwise_cons.mpr ⟨?_, ih hrest hn.2⟩
      intro y hy
      rcases mem_insertPrice.mp hy with rfl | hy2
      · exact h
      · exact hall y hy2
    · have hcond : ¬ (if false then price < p else p < price) := by simpa using h
      have hlt : price < p := lt_of_le_of_ne (not_lt.mp h) hn.1
      simp only [insertPrice, hcond, if_false]
      refine List.pairwise_cons.mpr ⟨?_, hs⟩
      intro y hy
      rcases List.mem_cons.mp hy with rfl | hy2
      · exact hlt
      · exact hlt.trans (hall y hy2)

theorem insertPrice_pairwise_desc {prices : List ℚ} {price : ℚ}
    (hs : prices.Pairwise (fun a c => c < a)) (hn : price ∉ prices) :
    (insertPrice prices price true).Pairwise (fun a c => c < a) := by
  induction prices with
  | nil => simp [insertPrice]
  | cons p rest ih =>
    obtain ⟨hall, hrest⟩ := List.pairwise_cons.mp hs
    simp only [List.mem_cons] at hn
    push_neg at hn
    by_cases h : price < p
    · rw [show insertPrice (p :: rest) price true = p :: insertPrice rest price true from by
        simp [insertPrice, h]]
      refine List.pairwise_cons.mpr ⟨?_, ih hrest hn.2⟩
      intro y hy
      rcases mem_insertPrice.mp hy with rfl | hy2
      · exact h
      · exact hall y hy2
    · have hlt : p < price := lt_of_le_of_ne (not_lt.mp h) (fun he => hn.1 he.symm)
      rw [show insertPrice (p :: rest) price true = price :: p :: rest from by
        simp [insertPrice, h]]
      refine List.pairwise_cons.mpr ⟨?_, hs⟩
      intro y hy
      rcases List.mem_cons.mp hy with rfl | hy2
      · exact hlt
      · exact (hall y hy2).trans hlt

theorem removePrice_sublist (l : List ℚ) (p : ℚ) : (removePrice l p).Sublist l := by
  induction l with
  | nil => simp [removePrice]
  | cons x rest ih =>
    by_cases h : x = p
    · simp only [removePrice, h, if_true]
      exact List.sublist_cons_self _ _
    · simp only [removePrice, h, if_false]
      exact ih.cons₂ x

theorem mem_removePrice_ne {l : List ℚ} (hnd : l.Nodup) {p x : ℚ}
    (hm : x ∈ removePrice l p) : x ∈ l ∧ x ≠ p := by
  induction l with
  | nil => simp [removePrice] at hm
  | cons y rest ih =>
    rcases List.nodup_cons.mp hnd with ⟨hy, hrest⟩
    by_cases h : y = p
    · subst h
      simp only [removePrice, if_true] at hm
      exact ⟨List.mem_cons_of_mem _ hm, fun he => hy (he ▸ hm)⟩
    · simp only [removePrice, h, if_false, List.mem_cons] at hm
      rcases hm with rfl | hm2
      · exact ⟨List.mem_cons_self _ _, h⟩
      · obtain ⟨h1, h2⟩ := ih hrest hm2
        exact ⟨List.mem_cons_of_mem _ h1, h2⟩

theorem removeFirstOrder_not_removed {q : List Order} {oid : String}
    (h : (removeFirstOrder q oid).2.1 = false) : (removeFirstOrder q oid).1 = q := by
  induction q with
  | nil => rfl
  | cons o rest ih =>
    by_cases ho : o.order_id = oid
    · simp [removeFirstOrder, ho] at h
    · simp only [removeFirstOrder, ho, if_false] at h ⊢
      rw [ih h]

theorem removeFirstOrder_removed {q : List Order} {oid : String}
    (h : (removeFirstOrder q oid).2.1 = true) :
    sumQty (removeFirstOrder q oid).1 + (removeFirstOrder q oid).2.2 = sumQty q ∧
    ((removeFirstOrder q oid).1).Sublist q := by
  induction q with
  | nil => simp [removeFirstOrder] at h
  | cons o rest ih =>
    by_cases ho : o.order_id = oid
    · simp only [removeFirstOrder, ho, if_true]
      exact ⟨by simp only [sumQty_cons]; omega, List.sublist_cons_self _ _⟩
    · simp only [removeFirstOrder, ho, if_false] at h ⊢
      obtain ⟨h1, h2⟩ := ih h
      refine ⟨?_, h2.cons₂ o⟩
      simp only [sumQty_cons]
      omega

theorem removeFirstOrder_of_findOrder {q : List Order} {oid : String} {t : Order}
    (h : findOrder q oid = some t) :
    (removeFirstOrder q oid).2.1 = true ∧ (removeFirstOrder q oid).2.2 = t.qty := by
  induction q with
  | nil => simp [findOrder] at h
  | cons o rest ih =>
    by_cases ho : o.order_id = oid
    · simp only [findOrder, ho, if_true, Option.some.injEq] at h
      simp [removeFirstOrder, ho, ← h]
    · simp only [findOrder, ho, if_false] at h
      simp only [removeFirstOrder, ho, if_false]
      exact ih h

theorem withView_view (b : Book) (s : Side) : b.withView s (b.view s) = b := by
  cases s <;> rfl

/-! ### Well-formedness preservation of `_rest` -/

/-- Appending a valid order to an existing level preserves side
well-formedness. -/
theorem viewInv_insert_existing {book : List (ℚ × List Order)} {prices : List ℚ}
    {agg : List (ℚ × Int)} {r : ℚ → ℚ → Prop} {q : List Order} {o : Order}
    (hinv : ViewInv ⟨book, prices, agg⟩ r) (hv : o.valid)
    (hq : alGet book o.price = some q) :
    ViewInv ⟨alSet book o.price (q ++ [o]), prices,
             alSet agg o.price ((alGet agg o.price).getD 0 + o.qty)⟩ r := by
  obtain ⟨hsort, hsome, hnodup, hlev, hagg⟩ := hinv
  have hmem : (o.price, q) ∈ book := alGet_mem hq
  have hnodup2 : (keysOf (alSet book o.price (q ++ [o]))).Nodup :=
    keysOf_alSet_nodup _ _ hnodup
  refine ⟨hsort, ?_, hnodup2, ?_, ?_⟩
  · intro p hpm
    by_cases he : o.price = p
    · rw [← he, alGet_alSet_self]; rfl
    · rw [alGet_alSet_ne _ _ he]
      exact hsome p hpm
  · intro kv hkv
    rcases mem_alSet_weak hkv with heq | hkv2
    · subst heq
      refine ⟨by simp, ?_⟩
      intro o2 ho2
      rcases List.mem_append.mp ho2 with ho2 | ho2
      · exact hlev _ hmem |>.2 o2 ho2
      · rcases List.mem_singleton.mp ho2 with rfl
        exact ⟨hv.1, rfl⟩
    · exact hlev kv hkv2
  · intro kv hkv
    have hgot := alGet_of_mem_nodup hnodup2 hkv
    by_cases he : kv.1 = o.price
    · rw [he, alGet_alSet_self] at hgot
      rw [he, alGet_alSet_self]
      have hval : (alGet agg o.price).getD 0 + o.qty = sumQty (q ++ [o]) := by
        rw [hagg _ hmem]
        simp [sumQty_append]
      rw [hval]
      exact congrArg some (congrArg sumQty (Option.some.inj hgot))
    · have hne : ¬ o.price = kv.1 := fun hh => he hh.symm
      rw [alGet_alSet_ne _ _ hne] at hgot
      rw [alGet_alSet_ne _ _ hne]
      exact hagg _ (alGet_mem hgot)

/-- Creating a fresh one-order level (with its price inserted in the
sorted sequence) preserves side well-formedness. -/
theorem viewInv_insert_new {book : List (ℚ × List Order)} {prices : List ℚ}
    {agg : List (ℚ × Int)} {r : ℚ → ℚ → Prop} {o : Order} (d : Bool)
    (hinv : ViewInv ⟨book, prices, agg⟩ r) (hv : o.valid)
    (hq : alGet book o.price = none)
    (hins : (insertPrice prices o.price d).Pairwise r) :
    ViewInv ⟨alSet book o.price [o], insertPrice prices o.price d,
             alSet agg o.price (0 + o.qty)⟩ r := by
  obtain ⟨hsort, hsome, hnodup, hlev, hagg⟩ := hinv
  have hnotin : o.price ∉ prices := by
    intro hmem
    have := hsome _ hmem
    rw [hq] at this
    exact Bool.noConfusion this
  have hnodup2 : (keysOf (alSet book o.price [o])).Nodup :=
    keysOf_alSet_nodup _ _ hnodup
  refine ⟨hins, ?_, hnodup2, ?_, ?_⟩
  · intro p hpm
    rcases mem_insertPrice.mp hpm with rfl | hpm2
    · rw [alGet_alSet_self]; rfl
    · have hne : ¬ o.price = p := fun he => hnotin (he ▸ hpm2)
      rw [alGet_alSet_ne _ _ hne]
      exact hsome p hpm2
  · intro kv hkv
    rcases mem_alSet_weak hkv with heq | hkv2
    · subst heq
      refine ⟨by simp, ?_⟩
      intro o2 ho2
      rcases List.mem_singleton.mp ho2 with rfl
      exact ⟨hv.1, rfl⟩
    · exact hlev kv hkv2
  · intro kv hkv
    have hgot := alGet_of_mem_nodup hnodup2 hkv
    by_cases he : kv.1 = o.price
    · rw [he, alGet_alSet_self] at hgot
      rw [he, alGet_alSet_self]
      have hval : (0 : Int) + o.qty = sumQty [o] := by simp
      rw [hval]
      exact congrArg some (congrArg sumQty (Option.some.inj hgot))
    · have hne : ¬ o.price = kv.1 := fun hh => he hh.symm
      rw [alGet_alSet_ne _ _ hne] at hgot
      rw [alGet_alSet_ne _ _ hne]
      exact hagg _ (alGet_mem hgot)

@[simp] theorem side_beq_sell_buy : (Side.SELL == Side.BUY) = false := rfl

@[simp] theorem side_beq_buy_buy : (Side.BUY == Side.BUY) = true := rfl

/-- `_rest` on a BUY order whose price has an existing level. -/
theorem rest_eq_buy_existing {b : Book} {o : Order} {q : List Order}
    (hs : o.side = Side.BUY) (hq : alGet b.bids o.price = some q) :
    b.rest o = { b with
      bids := alSet b.bids o.price (q ++ [o]),
      bid_qty := alSet b.bid_qty o.price ((alGet b.bid_qty o.price).getD 0 + o.qty),
      id_map := alSet b.id_map o.order_id (o.side, o.price) } := by
  simp [Book.rest, Book.withView, hs, hq]

/-- `_rest` on a BUY order whose price has no level yet. -/
theorem rest_eq_buy_new {b : Book} {o : Order}
    (hs : o.side = Side.BUY) (hq : alGet b.bids o.price = none) :
    b.rest o = { b with
      bids := alSet b.bids o.price [o],
      bid_prices := insertPrice b.bid_prices o.price true,
      bid_qty := alSet b.bid_qty o.price (0 + o.qty),
      id_map := alSet b.id_map o.order_id (o.side, o.price) } := by
  simp [Book.rest, Book.withView, hs, hq, alSet_alSet, alGet_alSet_self]

/-- `_rest` on a SELL order whose price has an existing level. -/
theorem rest_eq_sell_existing {b : Book} {o : Order} {q : List Order}
    (hs : o.side = Side.SELL) (hq : alGet b.asks o.price = some q) :
    b.rest o = { b with
      asks := alSet b.asks o.price (q ++ [o]),
      ask_qty := alSet b.ask_qty o.price ((alGet b.ask_qty o.price).getD 0 + o.qty),
      id_map := alSet b.id_map o.order_id (o.side, o.price) } := by
  simp [Book.rest, Book.withView, hs, hq]

/-- `_rest` on a SELL order whose price has no level yet. -/
theorem rest_eq_sell_new {b : Book} {o : Order}
    (hs : o.side = Side.SELL) (hq : alGet b.asks o.price = none) :
    b.rest o = { b with
      asks := alSet b.asks o.price [o],
      ask_prices := insertPrice b.ask_prices o.price false,
      ask_qty := alSet b.ask_qty o.price (0 + o.qty),
      id_map := alSet b.id_map o.order_id (o.side, o.price) } := by
  simp [Book.rest, Book.withView, hs, hq, alSet_alSet, alGet_alSet_self]

/-- Resting a valid order that does not cross the opposite side
preserves the full book invariant. -/
theorem rest_inv {b : Book} {o : Order} (hv : o.valid) (hinv : Inv b)
    (hcb : o.side = Side.BUY → ∀ pa ∈ b.ask_prices, o.price < pa)
    (hcs : o.side = Side.SELL → ∀ pb ∈ b.bid_prices, pb < o.price) :
    Inv (b.rest o) := by
  obtain ⟨hbuy, hsell, hcross⟩ := hinv
  rcases hside : o.side with _ | _
  · -- BUY: the bid side gains the order
    have hnotin : alGet b.bids o.price = none → o.price ∉ b.bid_prices := by
      intro hq hmem
      have := hbuy.2.1 _ hmem
      simp only [Book.view_buy] at this
      rw [hq] at this
      exact Bool.noConfusion this
    rcases hq : alGet b.bids o.price with _ | q
    · rw [rest_eq_buy_new hside hq]
      refine ⟨?_, hsell, ?_⟩
      · exact viewInv_insert_new true hbuy hv hq
          (insertPrice_pairwise_desc hbuy.1 (hnotin hq))
      · intro pb hpb pa hpa
        rcases mem_insertPrice.mp hpb with rfl | hpb2
        · exact hcb hside pa hpa
        · exact hcross pb hpb2 pa hpa
    · rw [rest_eq_buy_existing hside hq]
      refine ⟨viewInv_insert_existing hbuy hv hq, hsell, ?_⟩
      intro pb hpb pa hpa
      exact hcross pb hpb pa hpa
  · -- SELL: the ask side gains the order
    have hnotin : alGet b.asks o.price = none → o.price ∉ b.ask_prices := by
      intro hq hmem
      have := hsell.2.1 _ hmem
      simp only [Book.view_sell] at this
      rw [hq] at this
      exact Bool.noConfusion this
    rcases hq : alGet b.asks o.price with _ | q
    · rw [rest_eq_sell_new hside hq]
      refine ⟨hbuy, ?_, ?_⟩
      · exact viewInv_insert_new false hsell hv hq
          (insertPrice_pairwise_asc hsell.1 (hnotin hq))
      · intro pb hpb pa hpa
        rcases mem_insertPrice.mp hpa with rfl | hpa2
        · exact hcs hside pb hpb
        · exact hcross pb hpb pa hpa2
    · rw [rest_eq_sell_existing hside hq]
      refine ⟨hbuy, viewInv_insert_existing hsell hv hq, ?_⟩
      intro pb hpb pa hpa
      exact hcross pb hpb pa hpa

/-! ### Well-formedness preservation of `cancel` -/

/-- The decremented (and defensively clamped) aggregate of `cancel`, at
every key. -/
theorem cancel_agg_spec {agg : List (ℚ × Int)} {price : ℚ} {sq : Int} (rq ns : Int)
    (hget : alGet agg price = some sq) (hsum : sq - rq = ns) (k : ℚ) :
    alGet (if (alGet (alSet agg price ((alGet agg price).getD 0 - rq)) price).getD 0 ≤ 0
           then alSet (alSet agg price ((alGet agg price).getD 0 - rq)) price ns
           else alSet agg price ((alGet agg price).getD 0 - rq)) k =
      if k = price then some ns else alGet agg k := by
  rw [hget]
  simp only [Option.getD_some, alGet_alSet_self]
  by_cases hc : sq - rq ≤ 0
  · rw [if_pos hc, alSet_alSet]
    by_cases hk : k = price
    · rw [hk, alGet_alSet_self, if_pos rfl]
    · rw [alGet_alSet_ne _ _ (fun hh => hk hh.symm), if_neg hk]
  · rw [if_neg hc]
    by_cases hk : k = price
    · rw [hk, alGet_alSet_self, hsum, if_pos rfl]
    · rw [alGet_alSet_ne _ _ (fun hh => hk hh.symm), if_neg hk]

/-- Removing an order from a level that stays non-empty preserves side
well-formedness. -/
theorem viewInv_cancel_keep {book : List (ℚ × List Order)} {prices : List ℚ}
    {agg : List (ℚ × Int)} {r : ℚ → ℚ → Prop} {price : ℚ} {oid : String} {q : List Order}
    (hinv : ViewInv ⟨book, prices, agg⟩ r)
    (hq : alGet book price = some q)
    (hrem : (removeFirstOrder q oid).2.1 = true)
    (hne : (removeFirstOrder q oid).1 ≠ []) :
    ViewInv ⟨alSet book price (removeFirstOrder q oid).1, prices,
      if (alGet (alSet agg price ((alGet agg price).getD 0 - (removeFirstOrder q oid).2.2))
            price).getD 0 ≤ 0 then
        alSet (alSet agg price ((alGet agg price).getD 0 - (removeFirstOrder q oid).2.2))
          price (sumQty (removeFirstOrder q oid).1)
      else alSet agg price ((alGet agg price).getD 0 - (removeFirstOrder q oid).2.2)⟩ r := by
  obtain ⟨hsort, hsome, hnodup, hlev, hagg⟩ := hinv
  obtain ⟨hsum, hsub⟩ := removeFirstOrder_removed hrem
  have hmem : (price, q) ∈ book := alGet_mem hq
  have hgetagg : alGet agg price = some (sumQty q) := hagg _ hmem
  have hnodup2 := keysOf_alSet_nodup price (removeFirstOrder q oid).1 hnodup
  have hspec := fun k => cancel_agg_spec (removeFirstOrder q oid).2.2
    (sumQty (removeFirstOrder q oid).1) hgetagg (by omega) k
  refine ⟨hsort, ?_, hnodup2, ?_, ?_⟩
  · intro p hpm
    by_cases he : price = p
    · rw [← he, alGet_alSet_self]; rfl
    · rw [alGet_alSet_ne _ _ he]
      exact hsome p hpm
  · intro kv hkv
    rcases mem_alSet_weak hkv with heq | hkv2
    · subst heq
      refine ⟨hne, ?_⟩
      intro o ho
      exact hlev _ hmem |>.2 o (hsub.subset ho)
    · exact hlev kv hkv2
  · intro kv hkv
    have hgot := alGet_of_mem_nodup hnodup2 hkv
    rw [hspec kv.1]
    by_cases he : kv.1 = price
    · rw [he, alGet_alSet_self] at hgot
      rw [if_pos he]
      exact congrArg some (congrArg sumQty (Option.some.inj hgot))
    · rw [alGet_alSet_ne _ _ (fun hh => he hh.symm)] at hgot
      rw [if_neg he]
      exact hagg _ (alGet_mem hgot)

/-- Dropping an emptied level (book entry, price and aggregate)
preserves side well-formedness. -/
theorem viewInv_cancel_drop {book : List (ℚ × List Order)} {prices : List ℚ}
    {agg : List (ℚ × Int)} {r : ℚ → ℚ → Prop} {price : ℚ}
    (hinv : ViewInv ⟨book, prices, agg⟩ r)
    (hirr : ∀ x : ℚ, ¬ r x x) (rq : Int) :
    ViewInv ⟨alPop book price, removePrice prices price,
      alPop (alSet agg price ((alGet agg price).getD 0 - rq)) price⟩ r := by
  obtain ⟨hsort, hsome, hnodup, hlev, hagg⟩ := hinv
  have hnd : prices.Nodup := by
    have himp : ∀ a c : ℚ, r a c → a ≠ c := fun a c hac he => hirr c (he ▸ hac)
    exact List.Pairwise.imp (fun h => himp _ _ h) hsort
  have hnodup2 : (keysOf (alPop book price)).Nodup :=
    List.Nodup.sublist (keysOf_sublist_of_sublist (alPop_sublist book price)) hnodup
  refine ⟨List.Pairwise.sublist (removePrice_sublist prices price) hsort, ?_, hnodup2, ?_, ?_⟩
  · intro p hpm
    obtain ⟨hp1, hp2⟩ := mem_removePrice_ne hnd hpm
    rw [alGet_alPop_ne _ (fun hh => hp2 hh.symm)]
    exact hsome p hp1
  · intro kv hkv
    exact hlev kv ((alPop_sublist book price).subset hkv)
  · intro kv hkv
    have hne : ¬ price = kv.1 := by
      intro he
      have hgot := alGet_of_mem_nodup hnodup2 hkv
      rw [← he, alGet_alPop_self hnodup] at hgot
      exact Option.noConfusion hgot
    rw [alGet_alPop_ne _ hne, alGet_alSet_ne _ _ hne]
    exact hagg kv ((alPop_sublist book price).subset hkv)

/-- Cancel branch equations. -/
theorem cancel_eq_none {b : Book} {oid : String} (hid : alGet b.id_map oid = none) :
    b.cancel oid = (false, b) := by
  simp [Book.cancel, hid]

theorem cancel_eq_stale {b : Book} {oid : String} {side : Side} {price : ℚ}
    (hid : alGet b.id_map oid = some (side, price))
    (hbk : alGet (b.view side).book price = none) :
    b.cancel oid = (false, { b with id_map := alPop b.id_map oid }) := by
  simp [Book.cancel, hid, hbk]

theorem cancel_eq_notfound {b : Book} {oid : String} {side : Side} {price : ℚ}
    {q : List Order} (hid : alGet b.id_map oid = some (side, price))
    (hbk : alGet (b.view side).book price = some q)
    (hrem : (removeFirstOrder q oid).2.1 = false) :
    b.cancel oid = (false, b.withView side
      ⟨alSet (b.view side).book price (removeFirstOrder q oid).1,
       (b.view side).prices, (b.view side).agg⟩) := by
  simp [Book.cancel, hid, hbk, hrem]

theorem cancel_eq_keep {b : Book} {oid : String} {side : Side} {price : ℚ}
    {q : List Order} (hid : alGet b.id_map oid = some (side, price))
    (hbk : alGet (b.view side).book price = some q)
    (hrem : (removeFirstOrder q oid).2.1 = true)
    (hne : (removeFirstOrder q oid).1.isEmpty = false) :
    b.cancel oid = (true, { b.withView side
      ⟨alSet (b.view side).book price (removeFirstOrder q oid).1, (b.view side).prices,
       if (alGet (alSet (b.view side).agg price
             ((alGet (b.view side).agg price).getD 0 - (removeFirstOrder q oid).2.2))
             price).getD 0 ≤ 0 then
         alSet (alSet (b.view side).agg price
             ((alGet (b.view side).agg price).getD 0 - (removeFirstOrder q oid).2.2))
           price (sumQty (removeFirstOrder q oid).1)
       else alSet (b.view side).agg price
             ((alGet (b.view side).agg price).getD 0 - (removeFirstOrder q oid).2.2)⟩ with
      id_map := alPop b.id_map oid }) := by
  simp [Book.cancel, hid, hbk, hrem, hne]

theorem cancel_eq_drop {b : Book} {oid : String} {side : Side} {price : ℚ}
    {q : List Order} (hid : alGet b.id_map oid = some (side, price))
    (hbk : alGet (b.view side).book price = some q)
    (hrem : (removeFirstOrder q oid).2.1 = true)
    (hne : (removeFirstOrder q oid).1.isEmpty = true) :
    b.cancel oid = (true, { b.withView side
      ⟨alPop (b.view side).book price, removePrice (b.view side).prices price,
       alPop (alSet (b.view side).agg price
         ((alGet (b.view side).agg price).getD 0 - (removeFirstOrder q oid).2.2)) price⟩ with
      id_map := alPop b.id_map oid }) := by
  simp [Book.cancel, hid, hbk, hrem, hne]

/-- Rebuilding the bid side of a book (with any index) keeps the
invariant if the new view is well formed and stays below the asks. -/
theorem inv_withView_buy {b : Book} {v2 : SideView} {im : List (String × Side × ℚ)}
    (h1 : ViewInv v2 (fun a c => c < a))
    (h2 : ViewInv (b.view Side.SELL) (fun a c => a < c))
    (h3 : ∀ pb ∈ v2.prices, ∀ pa ∈ b.ask_prices, pb < pa) :
    Inv { b.withView Side.BUY v2 with id_map := im } :=
  ⟨h1, h2, h3⟩

/-- Rebuilding the ask side of a book (with any index) keeps the
invariant if the new view is well formed and stays above the bids. -/
theorem inv_withView_sell {b : Book} {v2 : SideView} {im : List (String × Side × ℚ)}
    (h1 : ViewInv (b.view Side.BUY) (fun a c => c < a))
    (h2 : ViewInv v2 (fun a c => a < c))
    (h3 : ∀ pb ∈ b.bid_prices, ∀ pa ∈ v2.prices, pb < pa) :
    Inv { b.withView Side.SELL v2 with id_map := im } :=
  ⟨h1, h2, h3⟩

/-- `cancel` preserves the full book invariant. -/
theorem cancel_inv (b : Book) (oid : String) (hinv : Inv b) : Inv (b.cancel oid).2 := by
  rcases hid : alGet b.id_map oid with _ | ⟨side, price⟩
  · rw [cancel_eq_none hid]
    exact hinv
  · rcases hbk : alGet (b.view side).book price with _ | q
    · rw [cancel_eq_stale hid hbk]
      exact ⟨hinv.1, hinv.2.1, hinv.2.2⟩
    · rcases hrem : (removeFirstOrder q oid).2.1 with _ | _
      · -- not removed: the queue is written back unchanged
        rw [cancel_eq_notfound hid hbk hrem]
        have hq2 : (removeFirstOrder q oid).1 = q := removeFirstOrder_not_removed hrem
        rw [hq2, alSet_self_of_get hbk]
        rw [show (⟨(b.view side).book, (b.view side).prices, (b.view side).agg⟩ : SideView) =
          b.view side from rfl]
        rw [withView_view]
        exact hinv
      · rcases hne : (removeFirstOrder q oid).1.isEmpty with _ | _
        · -- level stays
          rw [cancel_eq_keep hid hbk hrem hne]
          have hne2 : (removeFirstOrder q oid).1 ≠ [] := by
            intro hz
            rw [hz] at hne
            exact Bool.noConfusion hne
          cases side
          · exact inv_withView_buy (viewInv_cancel_keep hinv.1 hbk hrem hne2)
              hinv.2.1 hinv.2.2
          · exact inv_withView_sell hinv.1 (viewInv_cancel_keep hinv.2.1 hbk hrem hne2)
              hinv.2.2
        · -- level emptied
          rw [cancel_eq_drop hid hbk hrem hne]
          cases side
          · refine inv_withView_buy
              (viewInv_cancel_drop hinv.1 (fun x => lt_irrefl x) _) hinv.2.1 ?_
            intro pb hpb pa hpa
            have hnd : b.bid_prices.Nodup :=
              List.Pairwise.imp (fun h => ne_of_gt h) hinv.1.1
            obtain ⟨hp1, _⟩ := mem_removePrice_ne hnd hpb
            exact hinv.2.2 pb hp1 pa hpa
          · refine inv_withView_sell hinv.1
              (viewInv_cancel_drop hinv.2.1 (fun x => lt_irrefl x) _) ?_
            intro pb hpb pa hpa
            have hnd : b.ask_prices.Nodup :=
              List.Pairwise.imp (fun h => ne_of_lt h) hinv.2.1.1
            obtain ⟨hp1, _⟩ := mem_removePrice_ne hnd hpa
            exact hinv.2.2 pb hpb pa hp1

/-! ### Well-formedness preservation of the matching loops and the
public operations -/

theorem matchBuyF_viewInv : ∀ (fuel : Nat) (b : Book) (buy : Order) (limit : WithTop ℚ),
    ViewInv (b.view Side.SELL) (fun a c => a < c) →
    b.askOrderCount < fuel →
    ViewInv ((matchBuyF fuel b buy limit).2.1.view Side.SELL) (fun a c => a < c) := by
  intro fuel
  induction fuel with
  | zero => intro b buy limit hinv hcount; omega
  | succ n ih =>
    intro b buy limit hinv hcount
    rcases matchBuyF_succ_cases n b buy limit with
      ⟨hq, heq⟩ | ⟨hq, hp, heq⟩ | ⟨best, rest, hq, hp, hl, heq⟩ |
      ⟨best, rest, hq, hp, hl, hmal, heq⟩ |
      ⟨best, rest, maker, q_rest, hq, hp, hl, hg, heq⟩
    · rw [heq]; exact hinv
    · rw [heq]; exact hinv
    · rw [heq]; exact hinv
    · rw [heq]; exact hinv
    · rw [heq]
      have htraded_le : min buy.qty maker.qty ≤ maker.qty := min_le_right _ _
      have hb2inv := viewInv_buyStep hinv hp hg htraded_le
      by_cases h0 : maker.qty - min buy.qty maker.qty = 0
      · have hcount2 :=
          buyStepBook_count rest (min buy.qty maker.qty) hg h0
        exact ih _ _ limit hb2inv (by omega)
      · have hz : buy.qty - min buy.qty maker.qty = 0 := by omega
        rw [matchBuyF_not_pos (by simp [hz]) n _ limit]
        exact hb2inv

theorem matchSellF_viewInv : ∀ (fuel : Nat) (b : Book) (sell : Order) (limit : ℚ),
    ViewInv (b.view Side.BUY) (fun a c => c < a) →
    b.bidOrderCount < fuel →
    ViewInv ((matchSellF fuel b sell limit).2.1.view Side.BUY) (fun a c => c < a) := by
  intro fuel
  induction fuel with
  | zero => intro b sell limit hinv hcount; omega
  | succ n ih =>
    intro b sell limit hinv hcount
    rcases matchSellF_succ_cases n b sell limit with
      ⟨hq, heq⟩ | ⟨hq, hp, heq⟩ | ⟨best, rest, hq, hp, hl, heq⟩ |
      ⟨best, rest, hq, hp, hl, hmal, heq⟩ |
      ⟨best, rest, maker, q_rest, hq, hp, hl, hg, heq⟩
    · rw [heq]; exact hinv
    · rw [heq]; exact hinv
    · rw [heq]; exact hinv
    · rw [heq]; exact hinv
    · rw [heq]
      have htraded_le : min sell.qty maker.qty ≤ maker.qty := min_le_right _ _
      have hb2inv := viewInv_sellStep hinv hp hg htraded_le
      by_cases h0 : maker.qty - min sell.qty maker.qty = 0
      · have hcount2 :=
          sellStepBook_count rest (min sell.qty maker.qty) hg h0
        exact ih _ _ limit hb2inv (by omega)
      · have hz : sell.qty - min sell.qty maker.qty = 0 := by omega
        rw [matchSellF_not_pos (by simp [hz]) n _ limit]
        exact hb2inv

/-- The matching loops preserve the full book invariant. -/
theorem matchBuyF_inv (fuel : Nat) (b : Book) (buy : Order) (limit : WithTop ℚ)
    (hinv : Inv b) (hcount : b.askOrderCount < fuel) :
    Inv (matchBuyF fuel b buy limit).2.1 := by
  obtain ⟨h1, h2, h3⟩ := matchBuyF_other fuel b buy limit
  refine ⟨?_, matchBuyF_viewInv fuel b buy limit hinv.2.1 hcount, ?_⟩
  · simp only [Book.view_buy, h1, h2, h3]
    exact hinv.1
  · intro pb hpb pa hpa
    rw [h2] at hpb
    exact hinv.2.2 pb hpb pa ((matchBuyF_prices fuel b buy limit).subset hpa)

theorem matchSellF_inv (fuel : Nat) (b : Book) (sell : Order) (limit : ℚ)
    (hinv : Inv b) (hcount : b.bidOrderCount < fuel) :
    Inv (matchSellF fuel b sell limit).2.1 := by
  obtain ⟨h1, h2, h3⟩ := matchSellF_other fuel b sell limit
  refine ⟨matchSellF_viewInv fuel b sell limit hinv.1 hcount, ?_, ?_⟩
  · simp only [Book.view_sell, h1, h2, h3]
    exact hinv.2.1
  · intro pb hpb pa hpa
    rw [h2] at hpa
    exact hinv.2.2 pb ((matchSellF_prices fuel b sell limit).subset hpb) pa hpa

theorem place_limit_eq_buy {b : Book} {o : Order} (hs : o.side = Side.BUY) :
    b.place_limit o =
      (if 0 < (matchBuyF (b.askOrderCount + 1) b o (o.price : WithTop ℚ)).2.2.qty then
        ((matchBuyF (b.askOrderCount + 1) b o (o.price : WithTop ℚ)).1,
         ((matchBuyF (b.askOrderCount + 1) b o (o.price : WithTop ℚ)).2.1.rest
           (matchBuyF (b.askOrderCount + 1) b o (o.price : WithTop ℚ)).2.2))
       else ((matchBuyF (b.askOrderCount + 1) b o (o.price : WithTop ℚ)).1,
         (matchBuyF (b.askOrderCount + 1) b o (o.price : WithTop ℚ)).2.1)) := by
  simp [Book.place_limit, hs]

theorem place_limit_eq_sell {b : Book} {o : Order} (hs : o.side = Side.SELL) :
    b.place_limit o =
      (if 0 < (matchSellF (b.bidOrderCount + 1) b o o.price).2.2.qty then
        ((matchSellF (b.bidOrderCount + 1) b o o.price).1,
         ((matchSellF (b.bidOrderCount + 1) b o o.price).2.1.rest
           (matchSellF (b.bidOrderCount + 1) b o o.price).2.2))
       else ((matchSellF (b.bidOrderCount + 1) b o o.price).1,
         (matchSellF (b.bidOrderCount + 1) b o o.price).2.1)) := by
  simp [Book.place_limit, hs]

/-- `place_limit` preserves the full book invariant. -/
theorem place_limit_inv (b : Book) (o : Order) (hv : o.valid) (hinv : Inv b) :
    Inv (b.place_limit o).2 := by
  have hcountb : b.askOrderCount < b.askOrderCount + 1 := Nat.lt_succ_self _
  have hcounts : b.bidOrderCount < b.bidOrderCount + 1 := Nat.lt_succ_self _
  rcases hside : o.side with _ | _
  · rw [place_limit_eq_buy hside]
    have hinvr := matchBuyF_inv (b.askOrderCount + 1) b o (o.price : WithTop ℚ) hinv hcountb
    have htk := matchBuyF_taker (b.askOrderCount + 1) b o (o.price : WithTop ℚ)
    by_cases hq : 0 < (matchBuyF (b.askOrderCount + 1) b o (o.price : WithTop ℚ)).2.2.qty
    · rw [if_pos hq]
      refine rest_inv ⟨hq, ?_⟩ hinvr ?_ ?_
      · rw [htk]
        exact hv.2
      · intro _ pa hpa
        have hnc := matchBuyF_no_cross (b.askOrderCount + 1) b o (o.price : WithTop ℚ)
          hinv.2.1 hcountb hq pa hpa
        rw [htk]
        exact WithTop.coe_lt_coe.mp hnc
      · intro hsd
        rw [htk] at hsd
        simp only [] at hsd
        rw [hside] at hsd
        exact Side.noConfusion hsd
    · rw [if_neg hq]
      exact hinvr
  · rw [place_limit_eq_sell hside]
    have hinvr := matchSellF_inv (b.bidOrderCount + 1) b o o.price hinv hcounts
    have htk := matchSellF_taker (b.bidOrderCount + 1) b o o.price
    by_cases hq : 0 < (matchSellF (b.bidOrderCount + 1) b o o.price).2.2.qty
    · rw [if_pos hq]
      refine rest_inv ⟨hq, ?_⟩ hinvr ?_ ?_
      · rw [htk]
        exact hv.2
      · intro hsd
        rw [htk] at hsd
        simp only [] at hsd
        rw [hside] at hsd
        exact Side.noConfusion hsd
      · intro _ pb hpb
        have hnc := matchSellF_no_cross (b.bidOrderCount + 1) b o o.price
          hinv.1 hcounts hq pb hpb
        rw [htk]
        exact hnc
    · rw [if_neg hq]
      exact hinvr

/-- `place_market` preserves the full book invariant. -/
theorem place_market_inv (b : Book) (o : Order) (hinv : Inv b) :
    Inv (b.place_market o).2 := by
  unfold Book.place_market
  by_cases hs : (o.side == Side.BUY) = true
  · rw [if_pos hs]
    exact matchBuyF_inv _ b o ⊤ hinv (Nat.lt_succ_self _)
  · rw [if_neg hs]
    exact matchSellF_inv _ b o 0 hinv (Nat.lt_succ_self _)

theorem mem_updateFirstOrder {q : List Order} {oid : String} {nq : Int} {o : Order}
    (h : o ∈ updateFirstOrder q oid nq) :
    o ∈ q ∨ ∃ o2 ∈ q, o = { o2 with qty := nq } := by
  induction q with
  | nil => simp [updateFirstOrder] at h
  | cons o2 rest ih =>
    by_cases ho : o2.order_id = oid
    · simp only [updateFirstOrder, ho, if_true, List.mem_cons] at h
      rcases h with rfl | h2
      · exact Or.inr ⟨o2, List.mem_cons_self _ _, by rw [ho]⟩
      · exact Or.inl (List.mem_cons_of_mem _ h2)
    · simp only [updateFirstOrder, ho, if_false, List.mem_cons] at h
      rcases h with rfl | h2
      · exact Or.inl (List.mem_cons_self _ _)
      · rcases ih h2 with h3 | ⟨o3, h3, h4⟩
        · exact Or.inl (List.mem_cons_of_mem _ h3)
        · exact Or.inr ⟨o3, List.mem_cons_of_mem _ h3, h4⟩

theorem updateFirstOrder_length (q : List Order) (oid : String) (nq : Int) :
    (updateFirstOrder q oid nq).length = q.length := by
  induction q with
  | nil => rfl
  | cons o rest ih =>
    by_cases ho : o.order_id = oid <;> simp [updateFirstOrder, ho, ih]

theorem updateFirstOrder_sum {q : List Order} {oid : String} {t : Order} (nq : Int)
    (h : findOrder q oid = some t) :
    sumQty (updateFirstOrder q oid nq) = sumQty q - t.qty + nq := by
  induction q with
  | nil => simp [findOrder] at h
  | cons o rest ih =>
    by_cases ho : o.order_id = oid
    · simp only [findOrder, ho, if_true, Option.some.injEq] at h
      subst h
      simp only [updateFirstOrder, ho, if_true, sumQty_cons]
      omega
    · simp only [findOrder, ho, if_false] at h
      simp only [updateFirstOrder, ho, if_false, sumQty_cons, ih h]
      omega

/-- The in-place qty reduction of `modify` preserves side
well-formedness. -/
theorem viewInv_modify_inplace {book : List (ℚ × List Order)} {prices : List ℚ}
    {agg : List (ℚ × Int)} {r : ℚ → ℚ → Prop} {price : ℚ} {oid : String}
    {q : List Order} {t : Order} {nq : Int}
    (hinv : ViewInv ⟨book, prices, agg⟩ r)
    (hq : alGet book price = some q)
    (hfind : findOrder q oid = some t)
    (hnq : 0 < nq) :
    ViewInv ⟨alSet book price (updateFirstOrder q oid nq), prices,
             alSet agg price ((alGet agg price).getD 0 - (t.qty - nq))⟩ r := by
  obtain ⟨hsort, hsome, hnodup, hlev, hagg⟩ := hinv
  have hmem : (price, q) ∈ book := alGet_mem hq
  have hnodup2 := keysOf_alSet_nodup price (updateFirstOrder q oid nq) hnodup
  refine ⟨hsort, ?_, hnodup2, ?_, ?_⟩
  · intro p hpm
    by_cases he : price = p
    · rw [← he, alGet_alSet_self]; rfl
    · rw [alGet_alSet_ne _ _ he]
      exact hsome p hpm
  · intro kv hkv
    rcases mem_alSet_weak hkv with heq | hkv2
    · subst heq
      constructor
      · intro hz
        have hz2 : updateFirstOrder q oid nq = [] := hz
        have hlen := updateFirstOrder_length q oid nq
        rw [hz2] at hlen
        have hq2 : q = [] := List.length_eq_zero.mp hlen.symm
        rw [hq2] at hfind
        simp [findOrder] at hfind
      · intro o ho
        rcases mem_updateFirstOrder ho with h2 | ⟨o2, h2, rfl⟩
        · exact hlev _ hmem |>.2 o h2
        · exact ⟨hnq, (hlev _ hmem |>.2 o2 h2).2⟩
    · exact hlev kv hkv2
  · intro kv hkv
    have hgot := alGet_of_mem_nodup hnodup2 hkv
    by_cases he : kv.1 = price
    · rw [he, alGet_alSet_self] at hgot
      rw [he, alGet_alSet_self]
      have hval : (alGet agg price).getD 0 - (t.qty - nq) =
          sumQty (updateFirstOrder q oid nq) := by
        rw [hagg _ hmem]
        simp only [Option.getD_some]
        rw [updateFirstOrder_sum nq hfind]
        omega
      rw [hval]
      exact congrArg some (congrArg sumQty (Option.some.inj hgot))
    · have hne : ¬ price = kv.1 := fun hh => he hh.symm
      rw [alGet_alSet_ne _ _ hne] at hgot
      rw [alGet_alSet_ne _ _ hne]
      exact hagg _ (alGet_mem hgot)

/-- The cancel-and-reinsert tail of `modify` preserves the invariant. -/
theorem modifyReinsert_inv (b : Book) (oid : String) (side : Side) (t : Order)
    (np : Option ℚ) (nq : Option Int) (ts : Int) (hinv : Inv b) :
    Inv (b.modifyReinsert oid side t np nq ts).1.2 := by
  unfold Book.modifyReinsert
  dsimp only
  by_cases hc : (b.cancel oid).1 = false
  · rw [if_pos hc]
    exact cancel_inv _ _ hinv
  · rw [if_neg hc]
    by_cases hval : nq.getD t.qty ≤ 0 ∨ np.getD t.price ≤ 0
    · rw [if_pos hval]
      exact cancel_inv _ _ hinv
    · rw [if_neg hval]
      push_neg at hval
      exact place_limit_inv _ _ ⟨hval.1, hval.2⟩ (cancel_inv _ _ hinv)

/-- `modify` when the id is unknown, the level is missing, or the order
is not in its level: no state change. -/
theorem modifyF_eq_noop {b : Book} {oid : String} {np : Option ℚ} {nq : Option Int}
    {ts : Int}
    (h : alGet b.id_map oid = none ∨
      (∃ side price, alGet b.id_map oid = some (side, price) ∧
        (alGet (b.view side).book price = none ∨
         ∃ q, alGet (b.view side).book price = some q ∧ findOrder q oid = none))) :
    b.modifyF oid np nq ts = ((false, b), []) := by
  rcases h with h | ⟨side, price, hid, h⟩
  · simp [Book.modifyF, h]
  · rcases h with h | ⟨q, hbk, hfind⟩
    · simp [Book.modifyF, hid, h]
    · simp [Book.modifyF, hid, hbk, hfind]

/-- `modify` in the in-place qty-reduction branch. -/
theorem modifyF_eq_inplace {b : Book} {oid : String} {side : Side} {price : ℚ}
    {q : List Order} {t : Order} {n2 : Int} {ts : Int}
    (hid : alGet b.id_map oid = some (side, price))
    (hbk : alGet (b.view side).book price = some q)
    (hfind : findOrder q oid = some t)
    (hcond : 0 < n2 ∧ n2 < t.qty) :
    b.modifyF oid none (some n2) ts =
      ((true, b.withView side
         ⟨alSet (b.view side).book price (updateFirstOrder q oid n2), (b.view side).prices,
          alSet (b.view side).agg price
            ((alGet (b.view side).agg price).getD 0 - (t.qty - n2))⟩), []) := by
  simp [Book.modifyF, hid, hbk, hfind, hcond]

/-- `modify` outside the in-place branch reduces to cancel-and-reinsert. -/
theorem modifyF_eq_reinsert {b : Book} {oid : String} {side : Side} {price : ℚ}
    {q : List Order} {t : Order} {np : Option ℚ} {nq : Option Int} {ts : Int}
    (hid : alGet b.id_map oid = some (side, price))
    (hbk : alGet (b.view side).book price = some q)
    (hfind : findOrder q oid = some t)
    (hnot : ∀ n2, np = none → nq = some n2 → ¬ (0 < n2 ∧ n2 < t.qty)) :
    b.modifyF oid np nq ts = b.modifyReinsert oid side t np nq ts := by
  rcases np with _ | p2
  · rcases nq with _ | n2
    · simp [Book.modifyF, hid, hbk, hfind]
    · have := hnot n2 rfl rfl
      simp [Book.modifyF, hid, hbk, hfind, this]
  · simp [Book.modifyF, hid, hbk, hfind]

/-- `modify` preserves the full book invariant. -/
theorem modify_inv (b : Book) (oid : String) (np : Option ℚ) (nq : Option Int)
    (ts : Int) (hinv : Inv b) : Inv (b.modify oid np nq ts).2 := by
  unfold Book.modify
  rcases hid : alGet b.id_map oid with _ | ⟨side, price⟩
  · rw [modifyF_eq_noop (Or.inl hid)]
    exact hinv
  · rcases hbk : alGet (b.view side).book price with _ | q
    · rw [modifyF_eq_noop (Or.inr ⟨side, price, hid, Or.inl hbk⟩)]
      exact hinv
    · rcases hfind : findOrder q oid with _ | t
      · rw [modifyF_eq_noop (Or.inr ⟨side, price, hid, Or.inr ⟨q, hbk, hfind⟩⟩)]
        exact hinv
      · by_cases hinplace : np = none ∧ ∃ n2, nq = some n2 ∧ (0 < n2 ∧ n2 < t.qty)
        · obtain ⟨hnp, n2, hnq, hcond⟩ := hinplace
          subst hnp
          subst hnq
          rw [modifyF_eq_inplace hid hbk hfind hcond]
          cases side
          · exact inv_withView_buy
              (viewInv_modify_inplace hinv.1 hbk hfind hcond.1) hinv.2.1 hinv.2.2
          · exact inv_withView_sell hinv.1
              (viewInv_modify_inplace hinv.2.1 hbk hfind hcond.1) hinv.2.2
        · rw [modifyF_eq_reinsert hid hbk hfind ?_]
          · exact modifyReinsert_inv b oid side t np nq ts hinv
          · intro n2 hnp hnq hcond
            exact hinplace ⟨hnp, n2, hnq, hcond⟩

/-- The empty book is well formed. -/
theorem inv_empty : Inv Book.empty := by decide

/-- Every reachable book is well formed. -/
theorem inv_of_reachable : ∀ {b : Book}, Reachable b → Inv b := by
  intro b h
  induction h with
  | empty => exact inv_empty
  | place_limit _ hv ih => exact place_limit_inv _ _ hv ih
  | place_market _ hv ih => exact place_market_inv _ _ ih
  | cancel _ ih => exact cancel_inv _ _ ih
  | modify _ ih => exact modify_inv _ _ _ _ _ ih

/-! ### Portfolio accounting (`sim/portfolio.py`) -/

/-- Single-asset portfolio: cash, signed position, average cost of the
current position, realized PnL, and a flat per-share fee. -/
structure Portfolio where
  cash : ℚ := 0
  position : Int := 0
  avg_cost : ℚ := 0
  realized_pnl : ℚ := 0
  fee_per_share : ℚ := 0
deriving DecidableEq, Repr

/-- `Portfolio.on_fill`: average-cost accounting for a fill on my order
(`my_order_id` is unused by the source as well). -/
def Portfolio.on_fill (p : Portfolio) (fill : Fill) (my_order_id : String)
    (my_side : Side) : Portfolio :=
  let qty := fill.qty
  let px := fill.price
  let fee := p.fee_per_share * (qty : ℚ)
  if my_side == Side.BUY then
    let cash1 := p.cash - px * (qty : ℚ) - fee
    let new_pos := p.position + qty
    if p.position = 0 then
      { p with cash := cash1, position := new_pos, avg_cost := px }
    else if 0 < p.position then
      { p with cash := cash1, position := new_pos,
               avg_cost := (p.avg_cost * (p.position : ℚ) + px * (qty : ℚ)) / (new_pos : ℚ) }
    else
      let cover := min qty (-p.position)
      let rp := p.realized_pnl + (p.avg_cost - px) * (cover : ℚ)
      if 0 < new_pos then
        { p with cash := cash1, position := new_pos, realized_pnl := rp, avg_cost := px }
      else
        { p with cash := cash1, position := new_pos, realized_pnl := rp }
  else
    let cash1 := p.cash + px * (qty : ℚ) - fee
    let new_pos := p.position - qty
    if p.position = 0 then
      { p with cash := cash1, position := new_pos, avg_cost := px }
    else if p.position < 0 then
      { p with cash := cash1, position := new_pos,
               avg_cost := (p.avg_cost * ((-p.position : Int) : ℚ) + px * (qty : ℚ)) /
                 ((-new_pos : Int) : ℚ) }
    else
      let sold := min qty p.position
      let rp := p.realized_pnl + (px - p.avg_cost) * (sold : ℚ)
      if new_pos < 0 then
        { p with cash := cash1, position := new_pos, realized_pnl := rp, avg_cost := px }
      else
        { p with cash := cash1, position := new_pos, realized_pnl := rp }

/-- `Portfolio.mark_to_market`: realized plus unrealized at mid. -/
def Portfolio.mark_to_market (p : Portfolio) (lob : Book) : Option ℚ :=
  match lob.midprice with
  | none => none
  | some mid =>
    let unreal : ℚ :=
      if 0 < p.position then (mid - p.avg_cost) * (p.position : ℚ)
      else if p.position < 0 then (p.avg_cost - mid) * ((-p.position : Int) : ℚ)
      else 0
    some (p.realized_pnl + unreal)

/-! ### Execution metrics (`sim/execution_metrics.py`) -/

structure ExecutionMetrics where
  market_volume : Int := 0
  filled_qty : Int := 0
  buy_qty : Int := 0
  sell_qty : Int := 0
deriving DecidableEq, Repr

/-- `record_market_volume`: add every fill's qty (the source loops; the
sum is the same accumulation). -/
def ExecutionMetrics.record_market_volume (m : ExecutionMetrics)
    (fills : List Fill) : ExecutionMetrics :=
  { m with market_volume := m.market_volume + (fills.map Fill.qty).sum }

def ExecutionMetrics.on_fill (m : ExecutionMetrics) (fill : Fill) (side : Side) :
    ExecutionMetrics :=
  if side == Side.BUY then
    { m with filled_qty := m.filled_qty + fill.qty, buy_qty := m.buy_qty + fill.qty }
  else
    { m with filled_qty := m.filled_qty + fill.qty, sell_qty := m.sell_qty + fill.qty }

/-! ### Analytics (`sim/metrics.py`, `sim/analytics.py`); `none` stands
for the NaN the source records when a value is undefined -/

def spread (lob : Book) : Option ℚ :=
  match lob.best_bid, lob.best_ask with
  | some bb, some aa => some (aa - bb)
  | _, _ => none

def imbalance (lob : Book) (levels : Nat) : Option ℚ :=
  let d := lob.depth levels
  let bids := (d.1.map Prod.snd).sum
  let asks := (d.2.map Prod.snd).sum
  let total := bids + asks
  if total = 0 then none else some (((bids - asks : Int) : ℚ) / ((total : Int) : ℚ))

structure TimeSeries where
  t : List Int := []
  mid : List (Option ℚ) := []
  spr : List (Option ℚ) := []
  imb : List (Option ℚ) := []
deriving DecidableEq, Repr

def TimeSeries.record (s : TimeSeries) (now : Int) (lob : Book) : TimeSeries :=
  { s with t := s.t ++ [now], mid := s.mid ++ [lob.midprice],
           spr := s.spr ++ [spread lob], imb := s.imb ++ [imbalance lob 3] }

/-! ### Events and the simulator (`sim/events.py`, `sim/simulator.py`)

An `Order` travels through the simulator together with its runtime
`_is_market` marker (a Boolean attribute the source injects on the
object), modelled as an explicit `Bool` next to the order. -/

inductive EventType where
  | SUBMIT : EventType
  | CANCEL : EventType
  | MODIFY : EventType
  | SNAPSHOT : EventType
deriving DecidableEq, Repr

/-- An event: heap priority is `(time, seq)`; the payload slots mirror
the source dataclass. -/
structure Event where
  time : Int
  seq : Int
  etype : EventType
  order : Option (Order × Bool) := none
  order_id : Option String := none
  modify : Option (Option ℚ × Option Int) := none
deriving DecidableEq, Repr

/-- A strategy action `(time, etype, kwargs)`: the kwargs dict carries
the same payload slots `schedule` accepts. -/
structure Action where
  time : Int
  etype : EventType
  order : Option (Order × Bool) := none
  order_id : Option String := none
  modify : Option (Option ℚ × Option Int) := none
deriving DecidableEq, Repr

/-- A strategy: a name, a pure `on_tick` over its own state (which also
covers any seeded RNG the strategy owns), and its claimed order ids. -/
structure StrategyDef (σ : Type) where
  name : String
  on_tick : σ → Int → Book → σ × List Action
  my_order_ids : σ → List String

/-- The simulator state other than the pending event queue: the book,
the strategies (definition, state, portfolio), the `_seq` counter,
`now`, the `_order_owner` map, the per-strategy execution metrics and
the analytics time series.  The queue is threaded separately through the
run loop; `schedule` appends to it. -/
structure SimCore (σ : Type) where
  lob : Book
  strategies : List (StrategyDef σ × σ × Portfolio)
  seq : Int
  now : Int
  order_owner : List (String × Nat × Side)
  exec_metrics : List (String × ExecutionMetrics)
  ts : TimeSeries

/-- `{s.name: ExecutionMetrics() for s in strategies}`. -/
def initMetrics {σ : Type} (strats : List (StrategyDef σ × σ × Portfolio)) :
    List (String × ExecutionMetrics) :=
  strats.foldl (fun acc s => alSet acc s.1.name {}) []

/-- `MarketSimulator.__init__` with a fresh book. -/
def SimCore.init {σ : Type} (strats : List (StrategyDef σ × σ × Portfolio)) : SimCore σ :=
  ⟨Book.empty, strats, 0, 0, [], initMetrics strats, {}⟩

/-- The result record built by `run`. -/
structure SimResult where
  fills : List Fill := []
  snapshots : List (Int × (Option ℚ × Option ℚ × Option ℚ) ×
    (List (ℚ × Int) × List (ℚ × Int))) := []
  pnl : Option (List Int × List (String × List (Option ℚ))) := none
deriving DecidableEq, Repr

/-- `_register_order`: scan the strategies for one that claims the id. -/
def findStratIdx {σ : Type} : List (StrategyDef σ × σ × Portfolio) → String → Nat → Option Nat
  | [], _, _ => none
  | s :: rest, oid, i =>
      if oid ∈ s.1.my_order_ids s.2.1 then some i else findStratIdx rest oid (i + 1)

def registerOrder {σ : Type} (c : SimCore σ) (o : Order) : SimCore σ :=
  match findStratIdx c.strategies o.order_id 0 with
  | none => c
  | some i => { c with order_owner := alSet c.order_owner o.order_id (i, o.side) }

/-- Apply one owned fill to its strategy's portfolio and metrics. -/
def applyOwnFill {σ : Type} (c : SimCore σ) (idx : Nat) (side : Side) (f : Fill)
    (oid : String) : SimCore σ :=
  match c.strategies.get? idx with
  | none => c          -- owner indices always point at existing strategies
  | some (sd, ss, pf) =>
    let c2 := { c with strategies := c.strategies.set idx (sd, ss, pf.on_fill f oid side) }
    match alGet c2.exec_metrics sd.name with
    | none => c2       -- metrics are initialized for every strategy name
    | some m => { c2 with exec_metrics := alSet c2.exec_metrics sd.name (m.on_fill f side) }

/-- Fill attribution: maker side then taker side. -/
def attribFill {σ : Type} (c : SimCore σ) (f : Fill) : SimCore σ :=
  let c1 :=
    match alGet c.order_owner f.maker_order_id with
    | none => c
    | some (idx, side) => applyOwnFill c idx side f f.maker_order_id
  match alGet c1.order_owner f.taker_order_id with
  | none => c1
  | some (idx, side) => applyOwnFill c1 idx side f f.taker_order_id

/-- The SUBMIT branch of the run loop. -/
def dispatchSubmit {σ : Type} (c : SimCore σ) (out : SimResult) (o : Order)
    (is_market : Bool) : SimCore σ × SimResult :=
  let c1 := registerOrder c o
  let r := if is_market then c1.lob.place_market o else c1.lob.place_limit o
  let c2 := { c1 with lob := r.2 }
  let out2 := { out with fills := out.fills ++ r.1 }
  let c3 := { c2 with exec_metrics :=
    c2.exec_metrics.map (fun kv => (kv.1, kv.2.record_market_volume r.1)) }
  (r.1.foldl attribFill c3, out2)

/-- `schedule`: bump `_seq` and push the event (the queue being threaded
through the loop, the new event is returned to be appended). -/
def scheduleEv {σ : Type} (st : SimCore σ × List Event) (a : Action) :
    SimCore σ × List Event :=
  let seq2 := st.1.seq + 1
  ({ st.1 with seq := seq2 },
   st.2 ++ [⟨a.time, seq2, a.etype, a.order, a.order_id, a.modify⟩])

/-- One strategy's tick inside the SNAPSHOT branch: run `on_tick` and
schedule every returned action. -/
def tickOne {σ : Type} (lob : Book) (now : Int) (st : SimCore σ × List Event) (i : Nat) :
    SimCore σ × List Event :=
  match st.1.strategies.get? i with
  | none => st
  | some (sd, ss, pf) =>
    let r := sd.on_tick ss now lob
    let c2 := { st.1 with strategies := st.1.strategies.set i (sd, r.1, pf) }
    r.2.foldl scheduleEv (c2, st.2)

/-- The SNAPSHOT branch: record analytics and a snapshot, tick every
strategy (scheduling their actions), then append one mark-to-market
sample per strategy. -/
def dispatchSnapshot {σ : Type} (c : SimCore σ) (out : SimResult) :
    SimCore σ × List Event × SimResult :=
  let c1 := { c with ts := c.ts.record c.now c.lob }
  let snap := (c.now, c.lob.top_of_book, c.lob.depth 5)
  let out1 := { out with snapshots := out.snapshots ++ [snap] }
  let st2 : SimCore σ × List Event :=
    (List.range c1.strategies.length).foldl (tickOne c1.lob c1.now) (c1, [])
  let pnl0 : List Int × List (String × List (Option ℚ)) :=
    match out1.pnl with
    | none => ([], st2.1.strategies.foldl (fun acc s => alSet acc s.1.name []) [])
    | some x => x
  let pnl1 := (pnl0.1 ++ [st2.1.now],
    st2.1.strategies.foldl (fun acc s =>
      alSet acc s.1.name ((alGet acc s.1.name).getD [] ++
        [s.2.2.mark_to_market st2.1.lob])) pnl0.2)
  (st2.1, st2.2, { out1 with pnl := some pnl1 })

/-- Event dispatch of `run` (the returned list is what the branch
scheduled). -/
def dispatchEvent {σ : Type} (c : SimCore σ) (out : SimResult) (ev : Event) :
    SimCore σ × List Event × SimResult :=
  match ev.etype with
  | EventType.SUBMIT =>
    match ev.order with
    | none => (c, [], out)      -- the source asserts the payload is present
    | some (o, is_market) =>
      let r := dispatchSubmit c out o is_market
      (r.1, [], r.2)
  | EventType.CANCEL =>
    match ev.order_id with
    | none => (c, [], out)
    | some oid =>
      ({ c with lob := (c.lob.cancel oid).2, order_owner := alPop c.order_owner oid },
       [], out)
  | EventType.MODIFY =>
    match ev.order_id, ev.modify with
    | some oid, some (np, nq) =>
      ({ c with lob := (c.lob.modify oid np nq c.now).2 }, [], out)
    | _, _ => (c, [], out)
  | EventType.SNAPSHOT => dispatchSnapshot c out

/-- Heap priority `(time, seq)` of `Event` (`dataclass(order=True)` with
only those two fields participating). -/
def evKeyLE (a b : Event) : Prop :=
  a.time < b.time ∨ (a.time = b.time ∧ a.seq ≤ b.seq)

instance : ∀ a b : Event, Decidable (evKeyLE a b) := fun a b => by
  unfold evKeyLE; infer_instance

/-- Pop a `(time, seq)`-minimal event (what `heapq.heappop` returns; the
heap guarantees a minimal element and the keys in play are distinct). -/
def popMin : List Event → Option (Event × List Event)
  | [] => none
  | e :: rest =>
    match popMin rest with
    | none => some (e, [])
    | some (m, rest2) =>
      if evKeyLE e m then some (e, rest) else some (m, e :: rest2)

/-- `MarketSimulator.run(until)`: pop events while the head's time is
within the horizon and dispatch them; `fuel` bounds the number of loop
iterations (strategies may in principle schedule unboundedly at the
current time, so the Python loop is not always terminating; every claim
proved below holds for every fuel). -/
def runSim {σ : Type} (untilT : Int) : Nat → List Event → SimCore σ → SimResult →
    SimResult × SimCore σ × List Event
  | 0, pq, c, out => (out, c, pq)
  | Nat.succ fuel, pq, c, out =>
    match popMin pq with
    | none => (out, c, pq)
    | some (ev, rest) =>
      if ev.time ≤ untilT then
        let r := dispatchEvent { c with now := ev.time } out ev
        runSim untilT fuel (rest ++ r.2.1) r.1 r.2.2
      else (out, c, pq)

/-! ### The TWAP executor (`sim/strategy.py`) -/

/-- `TWAPExecutor` state: configuration plus the mutable `_sent`,
`_last_t`, `_ts_counter` (from the `Strategy` base class) and the
claimed order ids.  The `end` attribute is spelled `endt` (`end` is a
Lean keyword). -/
structure TWAPExecutor where
  name : String := "twap"
  side : Side
  total_qty : Int
  start : Int
  endt : Int
  tick_interval : Int := 10
  sent : Int := 0
  last_t : Int := -(10 ^ 9)
  ts_counter : Int := 10000000
  my_order_ids : List String := []
  id_to_side : List (String × Side) := []
deriving DecidableEq, Repr

/-- `Strategy._next_ts`: bump the counter, return `max(now, counter)`. -/
def TWAPExecutor.next_ts (s : TWAPExecutor) (now : Int) : TWAPExecutor × Int :=
  let c := s.ts_counter + 1
  ({ s with ts_counter := c }, max now c)

/-- `TWAPExecutor.on_tick`: inside the window and past the interval,
send a market-order slice of `max(1, remaining // slices_left)`. -/
def TWAPExecutor.on_tick (s : TWAPExecutor) (now : Int) (lob : Book) :
    TWAPExecutor × List Action :=
  if now < s.start ∨ s.endt < now then (s, [])
  else if now - s.last_t < s.tick_interval then (s, [])
  else
    let remaining := s.total_qty - s.sent
    if remaining ≤ 0 then (s, [])
    else
      let slices_left := max 1 ((s.endt - now).fdiv s.tick_interval + 1)
      let qty := max 1 (remaining.fdiv slices_left)
      let oid := s.name ++ "_" ++ toString now
      let r := s.next_ts now
      let o : Order := ⟨oid, s.side, 1, qty, r.2⟩
      let s2 := { r.1 with my_order_ids := r.1.my_order_ids ++ [oid],
                           id_to_side := alSet r.1.id_to_side oid s.side,
                           sent := r.1.sent + qty, last_t := now }
      (s2, [{ time := now, etype := EventType.SUBMIT, order := some (o, true) }])

/-- Fold `on_tick` over a sequence of tick times, collecting the
actions. -/
def TWAPExecutor.runTicks (lob : Book) : TWAPExecutor → List Int → TWAPExecutor × List Action
  | s, [] => (s, [])
  | s, t :: rest =>
    let r := s.on_tick t lob
    let r2 := TWAPExecutor.runTicks lob r.1 rest
    (r2.1, r.2 ++ r2.2)

/-- Total quantity of the orders carried by a list of actions. -/
def actionsQty (l : List Action) : Int :=
  (l.map (fun a => match a.order with | none => 0 | some (o, _) => o.qty)).sum

/-- `TWAPExecutor.__init__` (keyword defaults included). -/
def TWAPExecutor.init (side : Side) (total_qty start endt : Int)
    (tick_interval : Int) (name : String) : TWAPExecutor :=
  { side := side, total_qty := total_qty, start := start, endt := endt,
    tick_interval := tick_interval, name := name }

/-! ### Uniqueness of the order-id index keys -/

theorem withView_idmap (b : Book) (s : Side) (v : SideView) :
    (b.withView s v).id_map = b.id_map := by
  cases s <;> rfl

theorem rest_idmap (b : Book) (o : Order) :
    (b.rest o).id_map = alSet b.id_map o.order_id (o.side, o.price) := rfl

/-- `cancel` leaves the index unchanged or pops the id. -/
theorem cancel_idmap (b : Book) (oid : String) :
    (b.cancel oid).2.id_map = b.id_map ∨
    (b.cancel oid).2.id_map = alPop b.id_map oid := by
  rcases hid : alGet b.id_map oid with _ | ⟨side, price⟩
  · rw [cancel_eq_none hid]
    exact Or.inl rfl
  · rcases hbk : alGet (b.view side).book price with _ | q
    · rw [cancel_eq_stale hid hbk]
      exact Or.inr rfl
    · rcases hR : (removeFirstOrder q oid).2.1 with _ | _
      · rw [cancel_eq_notfound hid hbk hR]
        rw [withView_idmap]
        exact Or.inl rfl
      · rcases hE : (removeFirstOrder q oid).1.isEmpty with _ | _
        · rw [cancel_eq_keep hid hbk hR hE]
          exact Or.inr rfl
        · rw [cancel_eq_drop hid hbk hR hE]
          exact Or.inr rfl

theorem nodup_keys_of_sublist {K V : Type} {l1 l2 : List (K × V)}
    (h : l1.Sublist l2) (hnd : (keysOf l2).Nodup) : (keysOf l1).Nodup :=
  (keysOf_sublist_of_sublist h).nodup hnd

theorem place_limit_idnodup (b : Book) (o : Order)
    (h : (keysOf b.id_map).Nodup) : (keysOf (b.place_limit o).2.id_map).Nodup := by
  rcases hside : o.side with _ | _
  · rw [place_limit_eq_buy hside]
    have hm := nodup_keys_of_sublist
      (matchBuyF_idmap (b.askOrderCount + 1) b o (o.price : WithTop ℚ)) h
    by_cases hq : 0 < (matchBuyF (b.askOrderCount + 1) b o (o.price : WithTop ℚ)).2.2.qty
    · rw [if_pos hq]
      simp only [rest_idmap]
      exact keysOf_alSet_nodup _ _ hm
    · rw [if_neg hq]
      exact hm
  · rw [place_limit_eq_sell hside]
    have hm := nodup_keys_of_sublist
      (matchSellF_idmap (b.bidOrderCount + 1) b o o.price) h
    by_cases hq : 0 < (matchSellF (b.bidOrderCount + 1) b o o.price).2.2.qty
    · rw [if_pos hq]
      simp only [rest_idmap]
      exact keysOf_alSet_nodup _ _ hm
    · rw [if_neg hq]
      exact hm

theorem place_market_idnodup (b : Book) (o : Order)
    (h : (keysOf b.id_map).Nodup) : (keysOf (b.place_market o).2.id_map).Nodup := by
  unfold Book.place_market
  by_cases hs : (o.side == Side.BUY) = true
  · rw [if_pos hs]
    exact nodup_keys_of_sublist (matchBuyF_idmap _ b o ⊤) h
  · rw [if_neg hs]
    exact nodup_keys_of_sublist (matchSellF_idmap _ b o 0) h

theorem cancel_idnodup (b : Book) (oid : String)
    (h : (keysOf b.id_map).Nodup) : (keysOf (b.cancel oid).2.id_map).Nodup := by
  rcases cancel_idmap b oid with he | he
  · rw [he]; exact h
  · rw [he]; exact nodup_keys_of_sublist (alPop_sublist _ _) h

theorem modify_idnodup (b : Book) (oid : String) (np : Option ℚ) (nq : Option Int)
    (ts : Int) (h : (keysOf b.id_map).Nodup) :
    (keysOf (b.modify oid np nq ts).2.id_map).Nodup := by
  unfold Book.modify
  rcases hid : alGet b.id_map oid with _ | ⟨side, price⟩
  · rw [modifyF_eq_noop (Or.inl hid)]
    exact h
  · rcases hbk : alGet (b.view side).book price with _ | q
    · rw [modifyF_eq_noop (Or.inr ⟨side, price, hid, Or.inl hbk⟩)]
      exact h
    · rcases hfind : findOrder q oid with _ | t
      · rw [modifyF_eq_noop (Or.inr ⟨side, price, hid, Or.inr ⟨q, hbk, hfind⟩⟩)]
        exact h
      · by_cases hinplace : np = none ∧ ∃ n2, nq = some n2 ∧ (0 < n2 ∧ n2 < t.qty)
        · obtain ⟨hnp, n2, hnq, hcond⟩ := hinplace
          subst hnp
          subst hnq
          rw [modifyF_eq_inplace hid hbk hfind hcond]
          rw [withView_idmap]
          exact h
        · rw [modifyF_eq_reinsert hid hbk hfind
            (fun n2 hnp hnq hcond => hinplace ⟨hnp, n2, hnq, hcond⟩)]
          unfold Book.modifyReinsert
          have hc := cancel_idnodup b oid h
          by_cases hcf : (b.cancel oid).1 = false
          · rw [if_pos hcf]
            exact hc
          · rw [if_neg hcf]
            by_cases hbad : nq.getD t.qty ≤ 0 ∨ np.getD t.price ≤ 0
            · rw [if_pos hbad]
              exact hc
            · rw [if_neg hbad]
              exact place_limit_idnodup _ _ hc

/-- The keys of the order-id index of a reachable book are unique (the
source keeps them in a `dict`). -/
theorem idNodup_of_reachable : ∀ {b : Book}, Reachable b →
    (keysOf b.id_map).Nodup := by
  intro b h
  induction h with
  | empty => exact List.nodup_nil
  | place_limit _ hv ih => exact place_limit_idnodup _ _ ih
  | place_market _ hv ih => exact place_market_idnodup _ _ ih
  | cancel _ ih => exact cancel_idnodup _ _ ih
  | modify _ ih => exact modify_idnodup _ _ _ _ _ ih

/-! ### A small reachable book used to instantiate the theorems -/

/-- A book with one resting ask (`s1`, 100×5) and one resting bid
(`b1`, 90×5), built through `place_limit` from a fresh book. -/
def exBook : Book :=
  ((Book.empty.place_limit ⟨"s1", Side.SELL, 100, 5, 1⟩).2.place_limit
    ⟨"b1", Side.BUY, 90, 5, 2⟩).2

theorem exBook_reachable : Reachable exBook :=
  Reachable.place_limit (Reachable.place_limit Reachable.empty (by decide)) (by decide)

/-! ### C2: the book is never locked or crossed -/

/-- C2: in every reachable book state — in particular after each public
operation (`place_limit`, `place_market`, `cancel`, `modify`) completes,
since reachability is closed under them — if `best_bid` and `best_ask`
are both defined then `best_bid < best_ask`. -/
theorem no_crossed_book {b : Book} (hb : Reachable b) {bb aa : ℚ}
    (hbb : b.best_bid = some bb) (haa : b.best_ask = some aa) : bb < aa := by
  have hinv := inv_of_reachable hb
  have h1 : bb ∈ b.bid_prices := by
    unfold Book.best_bid at hbb
    exact List.mem_of_mem_head? hbb
  have h2 : aa ∈ b.ask_prices := by
    unfold Book.best_ask at haa
    exact List.mem_of_mem_head? haa
  exact hinv.2.2 bb h1 aa h2

/-- Witness for C2 on the concrete two-sided book: 90 < 100. -/
theorem no_crossed_book_witness : (90 : ℚ) < 100 :=
  no_crossed_book exBook_reachable (by decide) (by decide)

/-! ### C6: cached aggregates and `depth` -/

/-- C6: in every reachable book state the cached aggregate of every
level present on either side equals the sum of the current quantities of
that level's FIFO, and `depth k` pairs the first `k` prices of each
side's ordered sequence with exactly these per-level sums.  (Reachable
states are closed under the public operations, so the equality is
preserved by every one of them.) -/
theorem aggregate_depth {b : Book} (hb : Reachable b) :
    (∀ p q, alGet b.bids p = some q → alGet b.bid_qty p = some (sumQty q)) ∧
    (∀ p q, alGet b.asks p = some q → alGet b.ask_qty p = some (sumQty q)) ∧
    (∀ k, b.depth k =
      ((b.bid_prices.take k).map (fun p => (p, sumQty ((alGet b.bids p).getD []))),
       (b.ask_prices.take k).map (fun p => (p, sumQty ((alGet b.asks p).getD []))))) := by
  obtain ⟨hbuy, hsell, _⟩ := inv_of_reachable hb
  have hbagg : ∀ p q, alGet b.bids p = some q → alGet b.bid_qty p = some (sumQty q) :=
    fun p q hget => hbuy.2.2.2.2 (p, q) (alGet_mem hget)
  have hsagg : ∀ p q, alGet b.asks p = some q → alGet b.ask_qty p = some (sumQty q) :=
    fun p q hget => hsell.2.2.2.2 (p, q) (alGet_mem hget)
  refine ⟨hbagg, hsagg, fun k => ?_⟩
  unfold Book.depth
  refine congrArg₂ Prod.mk (List.map_congr_left ?_) (List.map_congr_left ?_)
  · intro p hp
    have hp2 : p ∈ b.bid_prices := List.take_subset k _ hp
    have hsome := hbuy.2.1 p hp2
    rcases Option.isSome_iff_exists.mp hsome with ⟨q, hq⟩
    have hq' : alGet b.bids p = some q := hq
    rw [hq', hbagg p q hq']
    rfl
  · intro p hp
    have hp2 : p ∈ b.ask_prices := List.take_subset k _ hp
    have hsome := hsell.2.1 p hp2
    rcases Option.isSome_iff_exists.mp hsome with ⟨q, hq⟩
    have hq' : alGet b.asks p = some q := hq
    rw [hq', hsagg p q hq']
    rfl

/-- Witness for C6 on the concrete two-sided book. -/
theorem aggregate_depth_witness :
    alGet exBook.ask_qty 100 = some (sumQty [⟨"s1", Side.SELL, 100, 5, 1⟩]) ∧
    exBook.depth 1 =
      ((exBook.bid_prices.take 1).map
        (fun p => (p, sumQty ((alGet exBook.bids p).getD []))),
       (exBook.ask_prices.take 1).map
        (fun p => (p, sumQty ((alGet exBook.asks p).getD [])))) :=
  ⟨(aggregate_depth exBook_reachable).2.1 100 _ (by decide),
   (aggregate_depth exBook_reachable).2.2 1⟩

/-! ### C5: market orders -/

theorem place_market_eq_buy {b : Book} {o : Order} (hs : o.side = Side.BUY) :
    b.place_market o =
      ((matchBuyF (b.askOrderCount + 1) b o (⊤ : WithTop ℚ)).1,
       (matchBuyF (b.askOrderCount + 1) b o (⊤ : WithTop ℚ)).2.1) := by
  simp [Book.place_market, hs]

theorem place_market_eq_sell {b : Book} {o : Order} (hs : o.side = Side.SELL) :
    b.place_market o =
      ((matchSellF (b.bidOrderCount + 1) b o (0 : ℚ)).1,
       (matchSellF (b.bidOrderCount + 1) b o (0 : ℚ)).2.1) := by
  simp [Book.place_market, hs]

/-- C5: `place_market` matches with an effective limit of `⊤` (BUY,
`float("inf")`) or `0` (SELL) — shown by its fills equalling the greedy
matching at that limit — never rests any remainder (its result book's
index holds no key that was not already indexed), and if the market
order's id was not indexed before the call it is not indexed after it
returns. -/
theorem place_market_spec {b : Book} (hb : Reachable b) (o : Order)
    (hid : alGet b.id_map o.order_id = none) :
    (o.side = Side.BUY →
      (b.place_market o).1 = greedyBuy o.order_id ⊤ o.qty (askLevels b)) ∧
    (o.side = Side.SELL →
      (b.place_market o).1 = greedySell o.order_id 0 o.qty (bidLevels b)) ∧
    alGet (b.place_market o).2.id_map o.order_id = none ∧
    ((b.place_market o).2.id_map).Sublist b.id_map := by
  have hinv := inv_of_reachable hb
  rcases hside : o.side with _ | _
  · rw [place_market_eq_buy hside]
    have hsub := matchBuyF_idmap (b.askOrderCount + 1) b o (⊤ : WithTop ℚ)
    refine ⟨fun _ => ?_, fun hs => absurd hs (by decide),
      alGet_none_of_sublist hsub hid, hsub⟩
    exact matchBuyF_refines _ _ _ _ hinv.2.1 (Nat.lt_succ_self _)
  · rw [place_market_eq_sell hside]
    have hsub := matchSellF_idmap (b.bidOrderCount + 1) b o (0 : ℚ)
    refine ⟨fun hs => absurd hs (by decide), fun _ => ?_,
      alGet_none_of_sublist hsub hid, hsub⟩
    exact matchSellF_refines _ _ _ _ hinv.1 (Nat.lt_succ_self _)

/-! ### C3 / C4: `modify` -/

/-- The first order with a given id splits its queue: everything before
it has a different id, and the in-place qty update rewrites exactly that
order, leaving every other order (and its own `ts`) in place. -/
theorem findOrder_decomp {q : List Order} {oid : String} {t : Order}
    (h : findOrder q oid = some t) :
    ∃ q1 q2, q = q1 ++ t :: q2 ∧ (∀ o ∈ q1, o.order_id ≠ oid) ∧ t.order_id = oid ∧
      (∀ nq, updateFirstOrder q oid nq = q1 ++ { t with qty := nq } :: q2) := by
  induction q with
  | nil => simp [findOrder] at h
  | cons o rest ih =>
    by_cases ho : o.order_id = oid
    · simp only [findOrder, ho, if_true, Option.some.injEq] at h
      subst h
      exact ⟨[], rest, rfl, by simp, ho, fun nq => by simp [updateFirstOrder, ho]⟩
    · simp only [findOrder, ho, if_false] at h
      obtain ⟨q1, q2, he, hn, hoid, hupd⟩ := ih h
      refine ⟨o :: q1, q2, by rw [he]; rfl, ?_, hoid, fun nq => ?_⟩
      · intro o2 hm
        rcases List.mem_cons.mp hm with h2 | h2
        · rw [h2]; exact ho
        · exact hn _ h2
      · simp only [updateFirstOrder, ho, if_false, hupd nq]
        rfl

/-- A cancel that actually finds the target order succeeds and pops the
id from the index. -/
theorem cancel_found_true {b : Book} {oid : String} {side : Side} {price : ℚ}
    {q : List Order} {t : Order}
    (hid : alGet b.id_map oid = some (side, price))
    (hbk : alGet (b.view side).book price = some q)
    (hfind : findOrder q oid = some t) :
    (b.cancel oid).1 = true ∧ (b.cancel oid).2.id_map = alPop b.id_map oid := by
  have hR := (removeFirstOrder_of_findOrder hfind).1
  rcases hE : (removeFirstOrder q oid).1.isEmpty with _ | _
  · rw [cancel_eq_keep hid hbk hR hE]
    exact ⟨rfl, rfl⟩
  · rw [cancel_eq_drop hid hbk hR hE]
    exact ⟨rfl, rfl⟩

/-- C4: invoking `modify` on a resting order with a resulting quantity
or price (defaults taken from the old order) that is non-positive
returns `False`, and the only state change is the initial cancel: the
book is exactly the cancel result, no fill was produced, the cancel
succeeded, and the id is gone from the order index. -/
theorem modify_reject_after_cancel {b : Book} (hb : Reachable b) (oid : String)
    (side : Side) (price : ℚ) (q : List Order) (t : Order)
    (np : Option ℚ) (nq : Option Int) (ts : Int)
    (hid : alGet b.id_map oid = some (side, price))
    (hbk : alGet (b.view side).book price = some q)
    (hfind : findOrder q oid = some t)
    (hpos : 0 < t.price)
    (hbad : nq.getD t.qty ≤ 0 ∨ np.getD t.price ≤ 0) :
    b.modify oid np nq ts = (false, (b.cancel oid).2) ∧
    (b.modifyF oid np nq ts).2 = [] ∧
    (b.cancel oid).1 = true ∧
    alGet (b.cancel oid).2.id_map oid = none := by
  have hnd := idNodup_of_reachable hb
  have hnot : ∀ n2, np = none → nq = some n2 → ¬ (0 < n2 ∧ n2 < t.qty) := by
    intro n2 hnp hnq hc
    subst hnp
    subst hnq
    rcases hbad with h | h
    · simp only [Option.getD_some] at h
      omega
    · simp only [Option.getD_none] at h
      exact absurd hpos (not_lt.mpr h)
  have hCT := cancel_found_true hid hbk hfind
  have hcne : ¬ ((b.cancel oid).1 = false) := by
    rw [hCT.1]
    simp
  have heq : b.modifyF oid np nq ts = b.modifyReinsert oid side t np nq ts :=
    modifyF_eq_reinsert hid hbk hfind hnot
  have hre : b.modifyReinsert oid side t np nq ts = ((false, (b.cancel oid).2), []) := by
    simp only [Book.modifyReinsert]
    rw [if_neg hcne, if_pos hbad]
  refine ⟨?_, ?_, hCT.1, ?_⟩
  · unfold Book.modify
    rw [heq, hre]
  · rw [heq, hre]
  · rw [hCT.2]
    exact alGet_alPop_self hnd

/-- Witness for C4: `modify("b1", new_qty=0)` on the concrete book. -/
theorem modify_reject_after_cancel_witness :
    exBook.modify "b1" none (some 0) 7 = (false, (exBook.cancel "b1").2) ∧
    (exBook.modifyF "b1" none (some 0) 7).2 = [] ∧
    (exBook.cancel "b1").1 = true ∧
    alGet (exBook.cancel "b1").2.id_map "b1" = none :=
  modify_reject_after_cancel exBook_reachable "b1" Side.BUY 90
    [⟨"b1", Side.BUY, 90, 5, 2⟩] ⟨"b1", Side.BUY, 90, 5, 2⟩ none (some 0) 7
    (by decide) (by decide) (by decide) (by decide) (by decide)

/-- The matching loop is the identity when the best opposite price does
not cross the aggressor's limit. -/
theorem matchBuyF_eq_nocross {fuel : Nat} {b : Book} {buy : Order} {limit : WithTop ℚ}
    (h : ∀ pa ∈ b.ask_prices.head?, limit < (pa : WithTop ℚ)) :
    matchBuyF fuel b buy limit = ([], b, buy) := by
  cases fuel with
  | zero => rfl
  | succ n =>
    rcases matchBuyF_succ_cases n b buy limit with
      ⟨_, heq⟩ | ⟨_, _, heq⟩ | ⟨_, _, _, _, _, heq⟩ | ⟨_, _, _, _, _, _, heq⟩ |
      ⟨best, rest, maker, q_rest, hq, hp, hl, hg, heq⟩
    · exact heq
    · exact heq
    · exact heq
    · exact heq
    · exact absurd (h best (by rw [hp]; rfl)) hl

/-- Mirror of `matchBuyF_eq_nocross` on the sell side. -/
theorem matchSellF_eq_nocross {fuel : Nat} {b : Book} {sell : Order} {limit : ℚ}
    (h : ∀ pb ∈ b.bid_prices.head?, pb < limit) :
    matchSellF fuel b sell limit = ([], b, sell) := by
  cases fuel with
  | zero => rfl
  | succ n =>
    rcases matchSellF_succ_cases n b sell limit with
      ⟨_, heq⟩ | ⟨_, _, heq⟩ | ⟨_, _, _, _, _, heq⟩ | ⟨_, _, _, _, _, _, heq⟩ |
      ⟨best, rest, maker, q_rest, hq, hp, hl, hg, heq⟩
    · exact heq
    · exact heq
    · exact heq
    · exact heq
    · exact absurd (h best (by rw [hp]; rfl)) hl

/-- A valid BUY limit order that does not cross the best ask and whose
price has an existing level rests at the tail of that level's FIFO. -/
theorem place_limit_rests_tail_buy {b : Book} {o : Order} {q : List Order}
    (hv : o.valid) (hs : o.side = Side.BUY)
    (hq : alGet b.bids o.price = some q)
    (hnc : ∀ pa ∈ b.ask_prices.head?, (o.price : WithTop ℚ) < (pa : WithTop ℚ)) :
    alGet (b.place_limit o).2.bids o.price = some (q ++ [o]) ∧
    (b.place_limit o).1 = [] := by
  rw [place_limit_eq_buy hs, matchBuyF_eq_nocross hnc]
  rw [if_pos hv.1]
  refine ⟨?_, rfl⟩
  rw [rest_eq_buy_existing hs hq]
  exact alGet_alSet_self _ _ _

/-- Mirror of `place_limit_rests_tail_buy` for SELL orders. -/
theorem place_limit_rests_tail_sell {b : Book} {o : Order} {q : List Order}
    (hv : o.valid) (hs : o.side = Side.SELL)
    (hq : alGet b.asks o.price = some q)
    (hnc : ∀ pb ∈ b.bid_prices.head?, pb < o.price) :
    alGet (b.place_limit o).2.asks o.price = some (q ++ [o]) ∧
    (b.place_limit o).1 = [] := by
  rw [place_limit_eq_sell hs, matchSellF_eq_nocross hnc]
  rw [if_pos hv.1]
  refine ⟨?_, rfl⟩
  rw [rest_eq_sell_existing hs hq]
  exact alGet_alSet_self _ _ _

/-- C3 (amended): the qty-reduction-in-place branch is as claimed — with
`new_price` absent and `0 < new_qty < T.qty`, the target order's qty is
rewritten in place (same queue position, same `ts`, all other orders
untouched) and the level aggregate drops by the difference, with prices
and index unchanged.  Any other `modify` on a resting order routes
through cancel-and-reinsert: when the cancel succeeds and the new values
validate, the result is exactly `place_limit` of the rebuilt order with
the supplied `ts` on the post-cancel book — which appends the order at
the tail of its (possibly new) level when that order does not cross the
opposite best (conjuncts three and four), but can instead match
immediately — the counterexample below refutes the original
unconditional \"rests at the tail\" reading. -/
theorem modify_semantics {b : Book} (oid : String) (side : Side) (price : ℚ)
    (q : List Order) (t : Order) (np : Option ℚ) (nq : Option Int) (ts n2 : Int)
    (hid : alGet b.id_map oid = some (side, price))
    (hbk : alGet (b.view side).book price = some q)
    (hfind : findOrder q oid = some t) :
    ((0 < n2 ∧ n2 < t.qty) →
      ∃ q1 q2, q = q1 ++ t :: q2 ∧ (∀ o ∈ q1, o.order_id ≠ oid) ∧
        b.modify oid none (some n2) ts =
          (true, b.withView side
            ⟨alSet (b.view side).book price (q1 ++ { t with qty := n2 } :: q2),
             (b.view side).prices,
             alSet (b.view side).agg price
               ((alGet (b.view side).agg price).getD 0 - (t.qty - n2))⟩)) ∧
    ((∀ m, np = none → nq = some m → ¬ (0 < m ∧ m < t.qty)) →
      (b.cancel oid).1 = true →
      0 < nq.getD t.qty → 0 < np.getD t.price →
      b.modify oid np nq ts =
        (true, ((b.cancel oid).2.place_limit
          ⟨oid, side, np.getD t.price, nq.getD t.qty, ts⟩).2)) := by
  constructor
  · intro hcond
    obtain ⟨q1, q2, hsplit, hpre, hoid, hupd⟩ := findOrder_decomp hfind
    refine ⟨q1, q2, hsplit, hpre, ?_⟩
    unfold Book.modify
    rw [modifyF_eq_inplace hid hbk hfind hcond]
    rw [hupd n2]
  · intro hnot hcanc hq2 hp2
    unfold Book.modify
    rw [modifyF_eq_reinsert hid hbk hfind hnot]
    have hre : b.modifyReinsert oid side t np nq ts =
        ((true, ((b.cancel oid).2.place_limit
            ⟨oid, side, np.getD t.price, nq.getD t.qty, ts⟩).2),
         ((b.cancel oid).2.place_limit
            ⟨oid, side, np.getD t.price, nq.getD t.qty, ts⟩).1) := by
      simp only [Book.modifyReinsert]
      rw [if_neg (by rw [hcanc]; simp), if_neg (by push_neg; exact ⟨hq2, hp2⟩)]
    rw [hre]

/-- Witness for C3 (amended): an in-place qty reduction (`b1` 5 → 2) and
a qty-bump reinsert (`b1` 5 → 7, which does not cross the ask at 100) on
the concrete book. -/
theorem modify_semantics_witness :
    (∃ q1 q2,
      ([(⟨"b1", Side.BUY, 90, 5, 2⟩ : Order)] : List Order) =
        q1 ++ (⟨"b1", Side.BUY, 90, 5, 2⟩ : Order) :: q2 ∧
      (∀ o ∈ q1, o.order_id ≠ "b1") ∧
      exBook.modify "b1" none (some 2) 7 =
        (true, exBook.withView Side.BUY
          ⟨alSet (exBook.view Side.BUY).book 90
             (q1 ++ { (⟨"b1", Side.BUY, 90, 5, 2⟩ : Order) with qty := 2 } :: q2),
           (exBook.view Side.BUY).prices,
           alSet (exBook.view Side.BUY).agg 90
             ((alGet (exBook.view Side.BUY).agg 90).getD 0 - (5 - 2))⟩)) ∧
    exBook.modify "b1" none (some 7) 7 =
      (true, ((exBook.cancel "b1").2.place_limit ⟨"b1", Side.BUY, 90, 7, 7⟩).2) := by
  refine ⟨(modify_semantics "b1" Side.BUY 90 [⟨"b1", Side.BUY, 90, 5, 2⟩]
    ⟨"b1", Side.BUY, 90, 5, 2⟩ none (some 2) 7 2
    (by decide) (by decide) (by decide)).1 (by decide), ?_⟩
  exact (modify_semantics "b1" Side.BUY 90 [⟨"b1", Side.BUY, 90, 5, 2⟩]
    ⟨"b1", Side.BUY, 90, 5, 2⟩ none (some 7) 7 0
    (by decide) (by decide) (by decide)).2
    (fun m _ hm => by cases hm; decide) (by decide) (by decide) (by decide)

/-! ### C1: price-time priority of the matching loops -/

/-- The maker order ids of the ask levels that cross a buy limit, best
price first, each level's FIFO from the head: the (price, ts) priority
sequence of consumable makers. -/
def crossedAskIds (limit : WithTop ℚ) : List (ℚ × List Order) → List String
  | [] => []
  | (p, q) :: rest =>
    if limit < (p : WithTop ℚ) then []
    else q.map Order.order_id ++ crossedAskIds limit rest

/-- Mirror of `crossedAskIds` for bid levels against a sell limit. -/
def crossedBidIds (limit : ℚ) : List (ℚ × List Order) → List String
  | [] => []
  | (p, q) :: rest =>
    if p < limit then []
    else q.map Order.order_id ++ crossedBidIds limit rest

/-- Greedy consumption of one level takes makers from the head without
skipping: the consumed maker ids are a prefix of the FIFO's ids. -/
theorem greedyLevel_isPrefix (tid : String) (p : ℚ) : ∀ (q : List Order) (qty : Int),
    List.IsPrefix ((greedyLevel tid p qty q).1.map Fill.maker_order_id)
      (q.map Order.order_id) := by
  intro q
  induction q with
  | nil =>
    intro qty
    simp [greedyLevel]
  | cons m ms ih =>
    intro qty
    by_cases hq : 0 < qty
    · by_cases hm : m.qty - min qty m.qty = 0
      · simp only [greedyLevel, hq, if_true, hm, List.map_cons]
        exact (List.cons_prefix_cons).mpr ⟨rfl, ih _⟩
      · simp only [greedyLevel, hq, if_true, hm, if_false, List.map_cons]
        exact (List.cons_prefix_cons).mpr ⟨rfl, List.nil_prefix⟩
    · simp only [greedyLevel, hq, if_false]
      exact List.nil_prefix

/-- If the aggressor leaves a level with remaining quantity, the level
was consumed entirely. -/
theorem greedyLevel_full (tid : String) (p : ℚ) : ∀ (q : List Order) (qty : Int),
    0 < (greedyLevel tid p qty q).2 →
    (greedyLevel tid p qty q).1.map Fill.maker_order_id = q.map Order.order_id := by
  intro q
  induction q with
  | nil =>
    intro qty _
    simp [greedyLevel]
  | cons m ms ih =>
    intro qty h
    by_cases hq : 0 < qty
    · by_cases hm : m.qty - min qty m.qty = 0
      · simp only [greedyLevel, hq, if_true, hm] at h ⊢
        rw [List.map_cons, List.map_cons, ih _ h]
      · simp only [greedyLevel, hq, if_true, hm, if_false] at h
        omega
    · simp only [greedyLevel, hq, if_false] at h

/-- The makers greedy buy matching consumes form a prefix of the
priority sequence of crossing ask makers: better price first, FIFO
order within a level, no maker skipped. -/
theorem greedyBuy_isPrefix (tid : String) (limit : WithTop ℚ) :
    ∀ (levels : List (ℚ × List Order)) (qty : Int),
    List.IsPrefix ((greedyBuy tid limit qty levels).map Fill.maker_order_id)
      (crossedAskIds limit levels) := by
  intro levels
  induction levels with
  | nil =>
    intro qty
    simp [greedyBuy, crossedAskIds]
  | cons l rest ih =>
    intro qty
    obtain ⟨p, q⟩ := l
    by_cases hcross : limit < (p : WithTop ℚ)
    · have hno : ¬ (0 < qty ∧ ¬ limit < (p : WithTop ℚ)) := fun h => h.2 hcross
      simp [greedyBuy, crossedAskIds, hcross, hno]
    · simp only [crossedAskIds, if_neg hcross]
      by_cases hq : 0 < qty
      · simp only [greedyBuy, if_pos (And.intro hq hcross)]
        rw [List.map_append]
        by_cases hrem : 0 < (greedyLevel tid p qty q).2
        · rw [greedyLevel_full tid p q qty hrem]
          obtain ⟨tl, htl⟩ := ih (greedyLevel tid p qty q).2
          exact ⟨tl, by rw [List.append_assoc, htl]⟩
        · rw [greedyBuy_not_pos hrem tid limit rest]
          simp only [List.map_nil, List.append_nil]
          exact (greedyLevel_isPrefix tid p q qty).trans (List.prefix_append _ _)
      · have hno : ¬ (0 < qty ∧ ¬ limit < (p : WithTop ℚ)) := fun h => hq h.1
        simp only [greedyBuy, if_neg hno]
        exact List.nil_prefix

/-- Mirror of `greedyBuy_isPrefix` on the bid side. -/
theorem greedySell_isPrefix (tid : String) (limit : ℚ) :
    ∀ (levels : List (ℚ × List Order)) (qty : Int),
    List.IsPrefix ((greedySell tid limit qty levels).map Fill.maker_order_id)
      (crossedBidIds limit levels) := by
  intro levels
  induction levels with
  | nil =>
    intro qty
    simp [greedySell, crossedBidIds]
  | cons l rest ih =>
    intro qty
    obtain ⟨p, q⟩ := l
    by_cases hcross : p < limit
    · have hno : ¬ (0 < qty ∧ ¬ p < limit) := fun h => h.2 hcross
      simp [greedySell, crossedBidIds, hcross, hno]
    · simp only [crossedBidIds, if_neg hcross]
      by_cases hq : 0 < qty
      · simp only [greedySell, if_pos (And.intro hq hcross)]
        rw [List.map_append]
        by_cases hrem : 0 < (greedyLevel tid p qty q).2
        · rw [greedyLevel_full tid p q qty hrem]
          obtain ⟨tl, htl⟩ := ih (greedyLevel tid p qty q).2
          exact ⟨tl, by rw [List.append_assoc, htl]⟩
        · rw [greedySell_not_pos hrem tid limit rest]
          simp only [List.map_nil, List.append_nil]
          exact (greedyLevel_isPrefix tid p q qty).trans (List.prefix_append _ _)
      · have hno : ¬ (0 < qty ∧ ¬ p < limit) := fun h => hq h.1
        simp only [greedySell, if_neg hno]
        exact List.nil_prefix

/-- C1: on every reachable book the fills of the `_match_buy` /
`_match_sell` loop (any sufficient fuel, any effective limit) equal
greedy price-time matching over the opposite side's levels in best-first
order — each fill priced at the maker's resting level price with
quantity `min(remaining, maker.qty)`, consuming each level's FIFO from
the head, stopping only on an exhausted aggressor, exhausted crossable
liquidity, or a non-crossing next price — and the consumed maker
sequence is a prefix of the priority sequence of crossing makers
(better price first, older queue position first): no maker is ever
skipped. -/
theorem matching_loop_priority {b : Book} (hb : Reachable b) (o : Order)
    {fuelA fuelB : Nat} (hfa : b.askOrderCount < fuelA) (hfb : b.bidOrderCount < fuelB)
    (la : WithTop ℚ) (ls : ℚ) :
    (matchBuyF fuelA b o la).1 = greedyBuy o.order_id la o.qty (askLevels b) ∧
    (matchSellF fuelB b o ls).1 = greedySell o.order_id ls o.qty (bidLevels b) ∧
    List.IsPrefix ((matchBuyF fuelA b o la).1.map Fill.maker_order_id)
      (crossedAskIds la (askLevels b)) ∧
    List.IsPrefix ((matchSellF fuelB b o ls).1.map Fill.maker_order_id)
      (crossedBidIds ls (bidLevels b)) := by
  have hinv := inv_of_reachable hb
  have h1 := matchBuyF_refines fuelA b o la hinv.2.1 hfa
  have h2 := matchSellF_refines fuelB b o ls hinv.1 hfb
  refine ⟨h1, h2, ?_, ?_⟩
  · rw [h1]
    exact greedyBuy_isPrefix _ _ _ _
  · rw [h2]
    exact greedySell_isPrefix _ _ _ _

/-- Witness for C1: an aggressive buy for 7 at 100 against the concrete
book (it consumes the whole `s1` level), checked on both loops. -/
theorem matching_loop_priority_witness :
    (matchBuyF 2 exBook ⟨"t", Side.BUY, 100, 7, 9⟩ ((100 : ℚ) : WithTop ℚ)).1 =
      greedyBuy "t" ((100 : ℚ) : WithTop ℚ) 7 (askLevels exBook) ∧
    (matchSellF 2 exBook ⟨"t", Side.BUY, 100, 7, 9⟩ 100).1 =
      greedySell "t" 100 7 (bidLevels exBook) ∧
    List.IsPrefix ((matchBuyF 2 exBook ⟨"t", Side.BUY, 100, 7, 9⟩
        ((100 : ℚ) : WithTop ℚ)).1.map Fill.maker_order_id)
      (crossedAskIds ((100 : ℚ) : WithTop ℚ) (askLevels exBook)) ∧
    List.IsPrefix ((matchSellF 2 exBook ⟨"t", Side.BUY, 100, 7, 9⟩ 100).1.map
        Fill.maker_order_id)
      (crossedBidIds 100 (bidLevels exBook)) :=
  matching_loop_priority exBook_reachable ⟨"t", Side.BUY, 100, 7, 9⟩
    (by decide) (by decide) ((100 : ℚ) : WithTop ℚ) 100

/-! ### C7: portfolio accounting -/

theorem on_fill_sell_zero (p : Portfolio) (f : Fill) (oid : String)
    (h0 : p.position = 0) :
    p.on_fill f oid Side.SELL =
      { p with cash := p.cash + f.price * (f.qty : ℚ) - p.fee_per_share * (f.qty : ℚ),
               position := p.position - f.qty, avg_cost := f.price } := by
  simp [Portfolio.on_fill, h0]

theorem on_fill_sell_short (p : Portfolio) (f : Fill) (oid : String)
    (hneg : p.position < 0) :
    p.on_fill f oid Side.SELL =
      { p with cash := p.cash + f.price * (f.qty : ℚ) - p.fee_per_share * (f.qty : ℚ),
               position := p.position - f.qty,
               avg_cost := (p.avg_cost * ((-p.position : Int) : ℚ) + f.price * (f.qty : ℚ)) /
                 ((-(p.position - f.qty) : Int) : ℚ) } := by
  have h0 : ¬ p.position = 0 := by omega
  simp [Portfolio.on_fill, h0, hneg]

theorem on_fill_sell_long (p : Portfolio) (f : Fill) (oid : String)
    (hpos : 0 < p.position) :
    p.on_fill f oid Side.SELL =
      if p.position - f.qty < 0 then
        { p with cash := p.cash + f.price * (f.qty : ℚ) - p.fee_per_share * (f.qty : ℚ),
                 position := p.position - f.qty,
                 realized_pnl := p.realized_pnl +
                   (f.price - p.avg_cost) * ((min f.qty p.position : Int) : ℚ),
                 avg_cost := f.price }
      else
        { p with cash := p.cash + f.price * (f.qty : ℚ) - p.fee_per_share * (f.qty : ℚ),
                 position := p.position - f.qty,
                 realized_pnl := p.realized_pnl +
                   (f.price - p.avg_cost) * ((min f.qty p.position : Int) : ℚ) } := by
  have h0 : ¬ p.position = 0 := by omega
  have hneg : ¬ p.position < 0 := by omega
  simp [Portfolio.on_fill, h0, hneg]

/-- C7: `Portfolio.on_fill` implements the spec's average-cost
accounting on SELL fills — cash grows by `px*qty − fee`, the position
drops by `qty`, and with a long position it realizes
`(px − avg_cost) * min(qty, position)`, resetting `avg_cost` to `px`
exactly when the position flips negative and keeping it otherwise — and
on the concrete long round-trip (buy 10 @ 100, sell 10 @ 101, zero
fees) the final position is 0 and the realized PnL is 10. -/
theorem portfolio_sell_accounting :
    (∀ (p : Portfolio) (f : Fill) (oid : String),
      (p.on_fill f oid Side.SELL).cash =
        p.cash + f.price * (f.qty : ℚ) - p.fee_per_share * (f.qty : ℚ) ∧
      (p.on_fill f oid Side.SELL).position = p.position - f.qty ∧
      (0 < p.position →
        (p.on_fill f oid Side.SELL).realized_pnl =
          p.realized_pnl + (f.price - p.avg_cost) * ((min f.qty p.position : Int) : ℚ) ∧
        (p.position - f.qty < 0 → (p.on_fill f oid Side.SELL).avg_cost = f.price) ∧
        (0 ≤ p.position - f.qty → (p.on_fill f oid Side.SELL).avg_cost = p.avg_cost))) ∧
    ((({} : Portfolio).on_fill ⟨"b", "m", 100, 10⟩ "b" Side.BUY).on_fill
        ⟨"s", "m2", 101, 10⟩ "s" Side.SELL).position = 0 ∧
    ((({} : Portfolio).on_fill ⟨"b", "m", 100, 10⟩ "b" Side.BUY).on_fill
        ⟨"s", "m2", 101, 10⟩ "s" Side.SELL).realized_pnl = 10 := by
  refine ⟨?_, ?_, ?_⟩
  · intro p f oid
    by_cases h0 : p.position = 0
    · rw [on_fill_sell_zero p f oid h0]
      exact ⟨rfl, rfl, fun hp => absurd hp (by omega)⟩
    · by_cases hneg : p.position < 0
      · rw [on_fill_sell_short p f oid hneg]
        exact ⟨rfl, rfl, fun hp => absurd hp (by omega)⟩
      · have hpos : 0 < p.position := by omega
        rw [on_fill_sell_long p f oid hpos]
        by_cases hflip : p.position - f.qty < 0
        · rw [if_pos hflip]
          exact ⟨rfl, rfl, fun _ => ⟨rfl, fun _ => rfl, fun h => absurd hflip (by omega)⟩⟩
        · rw [if_neg hflip]
          exact ⟨rfl, rfl, fun _ => ⟨rfl, fun h => absurd h hflip, fun _ => rfl⟩⟩
  · norm_num [Portfolio.on_fill]
  · norm_num [Portfolio.on_fill]

/-! ### C10: the TWAP executor never oversends -/

@[simp] theorem actionsQty_nil : actionsQty [] = 0 := rfl

theorem actionsQty_append (l1 l2 : List Action) :
    actionsQty (l1 ++ l2) = actionsQty l1 + actionsQty l2 := by
  simp [actionsQty]

/-- One `TWAPExecutor.on_tick` step: configuration preserved, the sent
counter advances by exactly the emitted quantity and never passes
`total_qty`, and an emitted slice is at least 1. -/
theorem twap_step (s : TWAPExecutor) (now : Int) (lob : Book)
    (hti : 0 < s.tick_interval) (hle : s.sent ≤ s.total_qty) :
    (s.on_tick now lob).1.total_qty = s.total_qty ∧
    (s.on_tick now lob).1.tick_interval = s.tick_interval ∧
    (s.on_tick now lob).1.sent = s.sent + actionsQty (s.on_tick now lob).2 ∧
    (s.on_tick now lob).1.sent ≤ s.total_qty ∧
    ((s.on_tick now lob).2 = [] ∨ 1 ≤ actionsQty (s.on_tick now lob).2) := by
  unfold TWAPExecutor.on_tick
  by_cases g1 : now < s.start ∨ s.endt < now
  · rw [if_pos g1]
    exact ⟨rfl, rfl, by simp, hle, Or.inl rfl⟩
  · rw [if_neg g1]
    by_cases g2 : now - s.last_t < s.tick_interval
    · rw [if_pos g2]
      exact ⟨rfl, rfl, by simp, hle, Or.inl rfl⟩
    · rw [if_neg g2]
      by_cases g3 : s.total_qty - s.sent ≤ 0
      · rw [if_pos g3]
        exact ⟨rfl, rfl, by simp, hle, Or.inl rfl⟩
      · rw [if_neg g3]
        have hsl1 : (0 : Int) ≤ max 1 ((s.endt - now).fdiv s.tick_interval + 1) :=
          le_trans (by norm_num) (le_max_left _ _)
        have hfd : (s.total_qty - s.sent).fdiv
            (max 1 ((s.endt - now).fdiv s.tick_interval + 1)) ≤ s.total_qty - s.sent := by
          rw [Int.fdiv_eq_ediv _ hsl1]
          exact Int.ediv_le_self _ (by omega)
        have hq4 : max 1 ((s.total_qty - s.sent).fdiv
            (max 1 ((s.endt - now).fdiv s.tick_interval + 1))) ≤ s.total_qty - s.sent :=
          max_le (by omega) hfd
        refine ⟨rfl, rfl, ?_, ?_, ?_⟩
        · simp [actionsQty, TWAPExecutor.next_ts]
        · dsimp only [TWAPExecutor.next_ts]
          omega
        · right
          simp [actionsQty]

/-- Folding `on_tick` over any tick sequence: the total emitted quantity
equals the final sent counter minus the initial one, and the counter
stays at or below `total_qty`. -/
theorem twap_runTicks (lob : Book) : ∀ (ticks : List Int) (s : TWAPExecutor),
    0 < s.tick_interval → s.sent ≤ s.total_qty →
    (TWAPExecutor.runTicks lob s ticks).1.total_qty = s.total_qty ∧
    (TWAPExecutor.runTicks lob s ticks).1.sent =
      s.sent + actionsQty (TWAPExecutor.runTicks lob s ticks).2 ∧
    (TWAPExecutor.runTicks lob s ticks).1.sent ≤ s.total_qty := by
  intro ticks
  induction ticks with
  | nil =>
    intro s h1 h2
    exact ⟨rfl, by simp [TWAPExecutor.runTicks], h2⟩
  | cons t rest ih =>
    intro s h1 h2
    obtain ⟨ha, hb, hc, hd, _⟩ := twap_step s t lob h1 h2
    obtain ⟨ih1, ih2, ih3⟩ := ih (s.on_tick t lob).1 (by rw [hb]; exact h1)
      (by rw [ha]; exact hd)
    simp only [TWAPExecutor.runTicks]
    refine ⟨by rw [ih1, ha], ?_, by rw [ha] at ih3; exact ih3⟩
    rw [actionsQty_append, ih2, hc]
    ring

/-- C10: the TWAP executor never sends more than `total_qty` in
aggregate.  Once `remaining = total_qty − sent ≤ 0`, `on_tick` emits
nothing and leaves the state unchanged; an emitting tick sends a slice
of at least 1 and at most `remaining`; and over any tick sequence from a
fresh configuration the cumulative emitted quantity equals the final
`sent`, which never exceeds `total_qty`. -/
theorem twap_never_oversends (side : Side) (total_qty start endt tick_interval : Int)
    (name : String) (lob : Book) (ticks : List Int)
    (hq : 1 ≤ total_qty) (hti : 0 < tick_interval) :
    (∀ (s : TWAPExecutor) (now : Int) (lob2 : Book),
      s.total_qty - s.sent ≤ 0 → s.on_tick now lob2 = (s, [])) ∧
    (∀ (s : TWAPExecutor) (now : Int) (lob2 : Book),
      0 < s.tick_interval → 0 < s.total_qty - s.sent →
      ((s.on_tick now lob2).2 = [] ∨
       (1 ≤ actionsQty (s.on_tick now lob2).2 ∧
        actionsQty (s.on_tick now lob2).2 ≤ s.total_qty - s.sent))) ∧
    actionsQty (TWAPExecutor.runTicks lob
      (TWAPExecutor.init side total_qty start endt tick_interval name) ticks).2 =
      (TWAPExecutor.runTicks lob
        (TWAPExecutor.init side total_qty start endt tick_interval name) ticks).1.sent ∧
    (TWAPExecutor.runTicks lob
      (TWAPExecutor.init side total_qty start endt tick_interval name) ticks).1.sent ≤
      total_qty := by
  have hnoop : ∀ (s : TWAPExecutor) (now : Int) (lob2 : Book),
      s.total_qty - s.sent ≤ 0 → s.on_tick now lob2 = (s, []) := by
    intro s now lob2 hdone
    unfold TWAPExecutor.on_tick
    by_cases g1 : now < s.start ∨ s.endt < now
    · rw [if_pos g1]
    · rw [if_neg g1]
      by_cases g2 : now - s.last_t < s.tick_interval
      · rw [if_pos g2]
      · rw [if_neg g2, if_pos hdone]
  refine ⟨hnoop, ?_, ?_, ?_⟩
  · intro s now lob2 h1 h2
    obtain ⟨_, _, hc, hd, he⟩ := twap_step s now lob2 h1 (by omega)
    rcases he with he | he
    · exact Or.inl he
    · exact Or.inr ⟨he, by omega⟩
  · obtain ⟨_, h2, _⟩ := twap_runTicks lob ticks
      (TWAPExecutor.init side total_qty start endt tick_interval name) hti (by
        show (0 : Int) ≤ total_qty
        omega)
    rw [h2]
    show actionsQty _ = 0 + actionsQty _
    ring
  · obtain ⟨_, _, h3⟩ := twap_runTicks lob ticks
      (TWAPExecutor.init side total_qty start endt tick_interval name) hti (by
        show (0 : Int) ≤ total_qty
        omega)
    exact h3

/-- Witness for C10: a BUY TWAP of 10 over `[0, 100]` ticked at 0 and
10 on the empty book. -/
theorem twap_never_oversends_witness :
    actionsQty (TWAPExecutor.runTicks Book.empty
      (TWAPExecutor.init Side.BUY 10 0 100 10 "twap") [0, 10]).2 =
      (TWAPExecutor.runTicks Book.empty
        (TWAPExecutor.init Side.BUY 10 0 100 10 "twap") [0, 10]).1.sent ∧
    (TWAPExecutor.runTicks Book.empty
      (TWAPExecutor.init Side.BUY 10 0 100 10 "twap") [0, 10]).1.sent ≤ 10 :=
  ⟨(twap_never_oversends Side.BUY 10 0 100 10 "twap" Book.empty [0, 10]
      (by decide) (by decide)).2.2.1,
   (twap_never_oversends Side.BUY 10 0 100 10 "twap" Book.empty [0, 10]
      (by decide) (by decide)).2.2.2⟩

/-! ### C8: `market_volume` during a run -/

/-- Total executed quantity of a list of fills. -/
def sumFillQty (l : List Fill) : Int := (l.map Fill.qty).sum

theorem sumFillQty_append (l1 l2 : List Fill) :
    sumFillQty (l1 ++ l2) = sumFillQty l1 + sumFillQty l2 := by
  simp [sumFillQty]

/-- The `market_volume` entry a metrics map holds for a strategy name. -/
def mvAt (l : List (String × ExecutionMetrics)) (k : String) : Option Int :=
  (alGet l k).map ExecutionMetrics.market_volume

theorem on_fill_market_volume (m : ExecutionMetrics) (f : Fill) (side : Side) :
    (m.on_fill f side).market_volume = m.market_volume := by
  unfold ExecutionMetrics.on_fill
  by_cases h : (side == Side.BUY) = true
  · rw [if_pos h]
  · rw [if_neg h]

theorem record_market_volume_mv (m : ExecutionMetrics) (fills : List Fill) :
    (m.record_market_volume fills).market_volume = m.market_volume + sumFillQty fills :=
  rfl

theorem alGet_mapRecord (fills : List Fill) :
    ∀ (l : List (String × ExecutionMetrics)) (k : String),
    alGet (l.map (fun kv => (kv.1, kv.2.record_market_volume fills))) k =
      (alGet l k).map (fun m => m.record_market_volume fills) := by
  intro l
  induction l with
  | nil => intro k; rfl
  | cons kv rest ih =>
    intro k
    by_cases h : kv.1 = k <;> simp [alGet, h, ih]

theorem registerOrder_exec_metrics {σ : Type} (c : SimCore σ) (o : Order) :
    (registerOrder c o).exec_metrics = c.exec_metrics := by
  unfold registerOrder
  rcases h : findStratIdx c.strategies o.order_id 0 with _ | i <;> simp only [h]

/-- Fill attribution never touches `market_volume`. -/
theorem mvAt_applyOwnFill {σ : Type} (c : SimCore σ) (idx : Nat) (side : Side)
    (f : Fill) (oid : String) (k : String) :
    mvAt (applyOwnFill c idx side f oid).exec_metrics k = mvAt c.exec_metrics k := by
  unfold applyOwnFill
  rcases hg : c.strategies.get? idx with _ | ⟨sd, ss, pf⟩
  · simp only [hg]
  · simp only [hg]
    rcases hm : alGet c.exec_metrics sd.name with _ | m
    · simp only [hm]
    · simp only [hm]
      unfold mvAt
      by_cases hk : sd.name = k
      · subst hk
        rw [alGet_alSet_self, hm]
        simp [on_fill_market_volume]
      · rw [alGet_alSet_ne _ _ hk]

theorem mvAt_attribFill {σ : Type} (c : SimCore σ) (f : Fill) (k : String) :
    mvAt (attribFill c f).exec_metrics k = mvAt c.exec_metrics k := by
  unfold attribFill
  rcases h1 : alGet c.order_owner f.maker_order_id with _ | ⟨idx, side⟩
  · simp only [h1]
    rcases h2 : alGet c.order_owner f.taker_order_id with _ | ⟨i2, s2⟩
    · simp only [h2]
    · simp only [h2]
      exact mvAt_applyOwnFill c i2 s2 f f.taker_order_id k
  · simp only [h1]
    rcases h2 : alGet (applyOwnFill c idx side f f.maker_order_id).order_owner
        f.taker_order_id with _ | ⟨i2, s2⟩
    · simp only [h2]
      exact mvAt_applyOwnFill c idx side f f.maker_order_id k
    · simp only [h2]
      exact (mvAt_applyOwnFill _ i2 s2 f f.taker_order_id k).trans
        (mvAt_applyOwnFill c idx side f f.maker_order_id k)

theorem mvAt_attribFold {σ : Type} : ∀ (fills : List Fill) (c : SimCore σ) (k : String),
    mvAt (fills.foldl attribFill c).exec_metrics k = mvAt c.exec_metrics k := by
  intro fills
  induction fills with
  | nil => intro c k; rfl
  | cons f rest ih =>
    intro c k
    rw [List.foldl_cons]
    exact (ih _ _).trans (mvAt_attribFill c f k)

theorem scheduleFold_exec_metrics {σ : Type} :
    ∀ (acts : List Action) (st : SimCore σ × List Event),
    (acts.foldl scheduleEv st).1.exec_metrics = st.1.exec_metrics := by
  intro acts
  induction acts with
  | nil => intro st; rfl
  | cons a rest ih =>
    intro st
    rw [List.foldl_cons, ih]
    rfl

theorem tickOne_exec_metrics {σ : Type} (lob : Book) (now : Int)
    (st : SimCore σ × List Event) (i : Nat) :
    (tickOne lob now st i).1.exec_metrics = st.1.exec_metrics := by
  unfold tickOne
  rcases hg : st.1.strategies.get? i with _ | ⟨sd, ss, pf⟩
  · simp only [hg]
  · simp only [hg]
    rw [scheduleFold_exec_metrics]

theorem tickFold_exec_metrics {σ : Type} (lob : Book) (now : Int) :
    ∀ (l : List Nat) (st : SimCore σ × List Event),
    (l.foldl (tickOne lob now) st).1.exec_metrics = st.1.exec_metrics := by
  intro l
  induction l with
  | nil => intro st; rfl
  | cons i rest ih =>
    intro st
    rw [List.foldl_cons, ih]
    exact tickOne_exec_metrics lob now st i

/-- The SNAPSHOT branch touches neither the fill log nor the metrics. -/
theorem dispatchSnapshot_parts {σ : Type} (c : SimCore σ) (out : SimResult) :
    (dispatchSnapshot c out).2.2.fills = out.fills ∧
    (dispatchSnapshot c out).1.exec_metrics = c.exec_metrics := by
  constructor
  · rfl
  · exact tickFold_exec_metrics c.lob c.now (List.range c.strategies.length)
      ({ c with ts := c.ts.record c.now c.lob }, [])

theorem mvAt_map_zero (x : Option Int) :
    x = x.map (fun v => v + sumFillQty []) := by
  cases x <;> simp [sumFillQty]

/-- One dispatched event appends some fills `δ` to the output log and
adds exactly `sumFillQty δ` to every strategy's `market_volume` — the
fills a MODIFY event's internal re-insertion produces are in neither. -/
theorem dispatchEvent_mv {σ : Type} (c : SimCore σ) (out : SimResult) (ev : Event) :
    ∃ δ, (dispatchEvent c out ev).2.2.fills = out.fills ++ δ ∧
      ∀ k, mvAt (dispatchEvent c out ev).1.exec_metrics k =
        (mvAt c.exec_metrics k).map (fun v => v + sumFillQty δ) := by
  unfold dispatchEvent
  rcases hety : ev.etype
  · -- SUBMIT
    rcases ho : ev.order with _ | ⟨o, im⟩
    · simp only [ho]
      exact ⟨[], by simp, fun k => mvAt_map_zero _⟩
    · simp only [ho]
      refine ⟨(if im then (registerOrder c o).lob.place_market o
               else (registerOrder c o).lob.place_limit o).1, ?_, fun k => ?_⟩
      · rfl
      · unfold dispatchSubmit
        rw [mvAt_attribFold]
        dsimp only
        unfold mvAt
        rw [alGet_mapRecord, registerOrder_exec_metrics]
        rcases alGet c.exec_metrics k with _ | m
        · rfl
        · simp [record_market_volume_mv]
  · -- CANCEL
    rcases ho : ev.order_id with _ | oid
    · simp only [ho]
      exact ⟨[], by simp, fun k => mvAt_map_zero _⟩
    · simp only [ho]
      exact ⟨[], by simp, fun k => mvAt_map_zero _⟩
  · -- MODIFY
    rcases ho : ev.order_id with _ | oid
    · simp only [ho]
      exact ⟨[], by simp, fun k => mvAt_map_zero _⟩
    · rcases hm : ev.modify with _ | ⟨np, nq⟩
      · simp only [ho, hm]
        exact ⟨[], by simp, fun k => mvAt_map_zero _⟩
      · simp only [ho, hm]
        exact ⟨[], by simp, fun k => mvAt_map_zero _⟩
  · -- SNAPSHOT
    obtain ⟨hf, hm⟩ := dispatchSnapshot_parts c out
    exact ⟨[], by rw [hf]; simp, fun k => by rw [hm]; exact mvAt_map_zero _⟩

/-- C8 (amended): during any simulator run, every strategy's
`market_volume` counter accumulates exactly the quantity of the fills
the run appends to `out.fills` — the fills the SUBMIT branch collects
from the engine.  It does NOT count every fill the engine produces: the
fills of a MODIFY event's internal re-insertion are discarded before
either `out.fills` or the metrics see them, as the counterexample run
below exhibits. -/
theorem market_volume_accumulates {σ : Type} (untilT : Int) :
    ∀ (fuel : Nat) (pq : List Event) (c : SimCore σ) (out : SimResult),
    ∃ Δ, (runSim untilT fuel pq c out).1.fills = out.fills ++ Δ ∧
      ∀ k, mvAt (runSim untilT fuel pq c out).2.1.exec_metrics k =
        (mvAt c.exec_metrics k).map (fun v => v + sumFillQty Δ) := by
  intro fuel
  induction fuel with
  | zero =>
    intro pq c out
    exact ⟨[], by simp [runSim], fun k => mvAt_map_zero _⟩
  | succ n ih =>
    intro pq c out
    simp only [runSim]
    rcases hpop : popMin pq with _ | ⟨ev, rest⟩
    · simp only
      exact ⟨[], by simp, fun k => mvAt_map_zero _⟩
    · simp only
      by_cases ht : ev.time ≤ untilT
      · rw [if_pos ht]
        obtain ⟨δ1, hf1, hm1⟩ := dispatchEvent_mv { c with now := ev.time } out ev
        obtain ⟨δ2, hf2, hm2⟩ := ih
          (rest ++ (dispatchEvent { c with now := ev.time } out ev).2.1)
          (dispatchEvent { c with now := ev.time } out ev).1
          (dispatchEvent { c with now := ev.time } out ev).2.2
        refine ⟨δ1 ++ δ2, ?_, fun k => ?_⟩
        · rw [hf2, hf1, List.append_assoc]
        · rw [hm2 k, hm1 k]
          dsimp only
          rcases mvAt c.exec_metrics k with _ | v
          · rfl
          · simp [sumFillQty_append, add_assoc]
      · rw [if_neg ht]
        exact ⟨[], by simp, fun k => mvAt_map_zero _⟩

/-- The strategy set of the C8 counterexample run: one passive strategy
named `s` that never acts and owns no orders. -/
def exStrategy : StrategyDef Unit :=
  ⟨"s", fun s _ _ => (s, []), fun _ => []⟩

def exCore : SimCore Unit := SimCore.init [(exStrategy, (), {})]

/-- SUBMIT `s1` (SELL 100×5) at t=1, SUBMIT `b1` (BUY 90×5) at t=2,
then MODIFY `b1` to price 100 at t=3 — the re-inserted bid crosses and
trades against `s1` inside `modify`. -/
def exQueue : List Event :=
  [⟨1, 1, EventType.SUBMIT, some (⟨"s1", Side.SELL, 100, 5, 1⟩, false), none, none⟩,
   ⟨2, 2, EventType.SUBMIT, some (⟨"b1", Side.BUY, 90, 5, 2⟩, false), none, none⟩,
   ⟨3, 3, EventType.MODIFY, none, some "b1", some (some 100, none)⟩]

/-- C8 counterexample: in the concrete run, after the two SUBMIT events
the book is exactly `exBook` and the MODIFY event's internal
re-insertion produces an engine fill of quantity 5 (conjuncts 3–4, and
the ask liquidity is indeed consumed by the end of the run, conjunct 5)
— yet the final `market_volume` of strategy `s` is 0 and the run's fill
log is empty: `market_volume` did not accumulate every fill the engine
produced. -/
theorem market_volume_counterexample :
    mvAt (runSim 100 10 exQueue exCore {}).2.1.exec_metrics "s" = some 0 ∧
    (runSim 100 10 exQueue exCore {}).1.fills = [] ∧
    (runSim 100 2 exQueue exCore {}).2.1.lob = exBook ∧
    ((runSim 100 2 exQueue exCore {}).2.1.lob.modifyF "b1" (some 100) none 3).2 =
      [⟨"b1", "s1", 100, 5⟩] ∧
    (runSim 100 10 exQueue exCore {}).2.1.lob.asks = [] := by
  refine ⟨?_, ?_, ?_, ?_, ?_⟩ <;> decide

/-! ### C9: determinism of the run loop -/

theorem evKeyLE_refl (a : Event) : evKeyLE a a := by
  unfold evKeyLE
  omega

theorem evKeyLE_total (a b : Event) : evKeyLE a b ∨ evKeyLE b a := by
  unfold evKeyLE
  omega

theorem evKeyLE_trans {a b c : Event} (h1 : evKeyLE a b) (h2 : evKeyLE b c) :
    evKeyLE a c := by
  unfold evKeyLE at h1 h2 ⊢
  omega

theorem evKeyLE_antisymm_key {a b : Event} (h1 : evKeyLE a b) (h2 : evKeyLE b a) :
    a.time = b.time ∧ a.seq = b.seq := by
  unfold evKeyLE at h1 h2
  omega

theorem popMin_eq_none {l : List Event} (h : popMin l = none) : l = [] := by
  cases l with
  | nil => rfl
  | cons e rest =>
    exfalso
    simp only [popMin] at h
    rcases hp : popMin rest with _ | ⟨m, r2⟩
    · rw [hp] at h
      cases h
    · simp only [hp] at h
      by_cases hle : evKeyLE e m
      · rw [if_pos hle] at h
        cases h
      · rw [if_neg hle] at h
        cases h

/-- `popMin` returns a minimal element (what `heappop` pops) and the
rest of the queue as a permutation of the remainder. -/
theorem popMin_spec : ∀ {l : List Event} {e : Event} {r : List Event},
    popMin l = some (e, r) →
    e ∈ l ∧ (∀ x ∈ l, evKeyLE e x) ∧ l.Perm (e :: r) := by
  intro l
  induction l with
  | nil => intro e r h; cases h
  | cons a rest ih =>
    intro e r h
    simp only [popMin] at h
    rcases hp : popMin rest with _ | ⟨m, r2⟩
    · rw [hp] at h
      have hrest : rest = [] := popMin_eq_none hp
      cases h
      subst hrest
      refine ⟨List.mem_cons_self _ _, ?_, List.Perm.refl _⟩
      intro x hx
      rcases List.mem_cons.mp hx with rfl | hx2
      · exact evKeyLE_refl _
      · cases hx2
    · simp only [hp] at h
      obtain ⟨hm_mem, hm_min, hm_perm⟩ := ih hp
      by_cases hle : evKeyLE a m
      · rw [if_pos hle] at h
        cases h
        refine ⟨List.mem_cons_self _ _, ?_, List.Perm.refl _⟩
        intro x hx
        rcases List.mem_cons.mp hx with rfl | hx2
        · exact evKeyLE_refl _
        · exact evKeyLE_trans hle (hm_min x hx2)
      · rw [if_neg hle] at h
        cases h
        have hma : evKeyLE e a := by
          rcases evKeyLE_total a e with h1 | h1
          · exact absurd h1 hle
          · exact h1
        refine ⟨List.mem_cons_of_mem _ hm_mem, ?_, ?_⟩
        · intro x hx
          rcases List.mem_cons.mp hx with rfl | hx2
          · exact hma
          · exact hm_min x hx2
        · exact (hm_perm.cons a).trans (List.Perm.swap e a r2)

/-- With pairwise-distinct `seq` keys, `popMin` pops the same event from
any permutation of the queue, leaving permuted remainders: heap layout
cannot influence the served order. -/
theorem popMin_agree {l1 l2 : List Event} (hperm : l1.Perm l2)
    (hnd : (l1.map Event.seq).Nodup) {e1 e2 : Event} {r1 r2 : List Event}
    (h1 : popMin l1 = some (e1, r1)) (h2 : popMin l2 = some (e2, r2)) :
    e1 = e2 ∧ r1.Perm r2 := by
  obtain ⟨m1, min1, p1⟩ := popMin_spec h1
  obtain ⟨m2, min2, p2⟩ := popMin_spec h2
  have he2l1 : e2 ∈ l1 := hperm.symm.subset m2
  have he1l2 : e1 ∈ l2 := hperm.subset m1
  have hk := evKeyLE_antisymm_key (min1 e2 he2l1) (min2 e1 he1l2)
  have he : e1 = e2 := List.inj_on_of_nodup_map hnd m1 he2l1 hk.2
  subst he
  exact ⟨rfl, List.Perm.cons_inv (p1.symm.trans (hperm.trans p2))⟩

theorem registerOrder_seq {σ : Type} (c : SimCore σ) (o : Order) :
    (registerOrder c o).seq = c.seq := by
  unfold registerOrder
  rcases h : findStratIdx c.strategies o.order_id 0 with _ | i <;> simp only [h]

theorem applyOwnFill_seq {σ : Type} (c : SimCore σ) (idx : Nat) (side : Side)
    (f : Fill) (oid : String) : (applyOwnFill c idx side f oid).seq = c.seq := by
  unfold applyOwnFill
  rcases hg : c.strategies.get? idx with _ | ⟨sd, ss, pf⟩
  · simp only [hg]
  · simp only [hg]
    rcases hm : alGet c.exec_metrics sd.name with _ | m
    · simp only [hm]
    · simp only [hm]

theorem attribFill_seq {σ : Type} (c : SimCore σ) (f : Fill) :
    (attribFill c f).seq = c.seq := by
  unfold attribFill
  rcases h1 : alGet c.order_owner f.maker_order_id with _ | ⟨idx, side⟩
  · simp only [h1]
    rcases h2 : alGet c.order_owner f.taker_order_id with _ | ⟨i2, s2⟩
    · simp only [h2]
    · simp only [h2]
      exact applyOwnFill_seq c i2 s2 f f.taker_order_id
  · simp only [h1]
    rcases h2 : alGet (applyOwnFill c idx side f f.maker_order_id).order_owner
        f.taker_order_id with _ | ⟨i2, s2⟩
    · simp only [h2]
      exact applyOwnFill_seq c idx side f f.maker_order_id
    · simp only [h2]
      exact (applyOwnFill_seq _ i2 s2 f f.taker_order_id).trans
        (applyOwnFill_seq c idx side f f.maker_order_id)

theorem attribFold_seq {σ : Type} : ∀ (fills : List Fill) (c : SimCore σ),
    (fills.foldl attribFill c).seq = c.seq := by
  intro fills
  induction fills with
  | nil => intro c; rfl
  | cons f rest ih =>
    intro c
    rw [List.foldl_cons]
    exact (ih _).trans (attribFill_seq c f)

/-- `schedule` folds: the `_seq` counter only grows, the new events are
appended with seqs strictly between the old and new counter values, all
distinct. -/
theorem scheduleFold_seqs {σ : Type} :
    ∀ (acts : List Action) (st : SimCore σ × List Event),
    ∃ new, (acts.foldl scheduleEv st).2 = st.2 ++ new ∧
      st.1.seq ≤ (acts.foldl scheduleEv st).1.seq ∧
      (∀ e ∈ new, st.1.seq < e.seq ∧ e.seq ≤ (acts.foldl scheduleEv st).1.seq) ∧
      (new.map Event.seq).Nodup := by
  intro acts
  induction acts with
  | nil =>
    intro st
    exact ⟨[], by simp, le_refl _, by simp, List.nodup_nil⟩
  | cons a rest ih =>
    intro st
    rw [List.foldl_cons]
    obtain ⟨new, hnew, hle, hbnd, hnd⟩ := ih (scheduleEv st a)
    have hsq : (scheduleEv st a).1.seq = st.1.seq + 1 := rfl
    refine ⟨⟨a.time, st.1.seq + 1, a.etype, a.order, a.order_id, a.modify⟩ :: new,
      ?_, ?_, ?_, ?_⟩
    · rw [hnew]
      show (st.2 ++ [⟨a.time, st.1.seq + 1, a.etype, a.order, a.order_id, a.modify⟩]) ++ new = _
      rw [List.append_assoc]
      rfl
    · omega
    · intro e he
      rcases List.mem_cons.mp he with rfl | he2
      · refine ⟨?_, ?_⟩ <;> dsimp only <;> omega
      · have hb := hbnd e he2
        omega
    · rw [List.map_cons, List.nodup_cons]
      refine ⟨?_, hnd⟩
      intro hmem
      rcases List.mem_map.mp hmem with ⟨e, he, hseq⟩
      have hb := hbnd e he
      have hs : Event.seq ⟨a.time, st.1.seq + 1, a.etype, a.order, a.order_id, a.modify⟩ =
        st.1.seq + 1 := rfl
      omega

theorem tickOne_seqs {σ : Type} (lob : Book) (now : Int)
    (st : SimCore σ × List Event) (i : Nat) :
    ∃ new, (tickOne lob now st i).2 = st.2 ++ new ∧
      st.1.seq ≤ (tickOne lob now st i).1.seq ∧
      (∀ e ∈ new, st.1.seq < e.seq ∧ e.seq ≤ (tickOne lob now st i).1.seq) ∧
      (new.map Event.seq).Nodup := by
  unfold tickOne
  rcases hg : st.1.strategies.get? i with _ | ⟨sd, ss, pf⟩
  · simp only [hg]
    exact ⟨[], by simp, le_refl _, by simp, List.nodup_nil⟩
  · simp only [hg]
    exact scheduleFold_seqs (sd.on_tick ss now lob).2 _

theorem tickFold_seqs {σ : Type} (lob : Book) (now : Int) :
    ∀ (l : List Nat) (st : SimCore σ × List Event),
    ∃ new, (l.foldl (tickOne lob now) st).2 = st.2 ++ new ∧
      st.1.seq ≤ (l.foldl (tickOne lob now) st).1.seq ∧
      (∀ e ∈ new, st.1.seq < e.seq ∧ e.seq ≤ (l.foldl (tickOne lob now) st).1.seq) ∧
      (new.map Event.seq).Nodup := by
  intro l
  induction l with
  | nil =>
    intro st
    exact ⟨[], by simp, le_refl _, by simp, List.nodup_nil⟩
  | cons i rest ih =>
    intro st
    rw [List.foldl_cons]
    obtain ⟨n1, h11, h12, h13, h14⟩ := tickOne_seqs lob now st i
    obtain ⟨n2, h21, h22, h23, h24⟩ := ih (tickOne lob now st i)
    refine ⟨n1 ++ n2, ?_, ?_, ?_, ?_⟩
    · rw [h21, h11, List.append_assoc]
    · omega
    · intro e he
      rcases List.mem_append.mp he with he1 | he2
      · have hb := h13 e he1
        omega
      · have hb := h23 e he2
        omega
    · rw [List.map_append]
      refine List.Nodup.append h14 h24 ?_
      intro x hx1 hx2
      obtain ⟨e1, he1, rfl⟩ := List.mem_map.mp hx1
      obtain ⟨e2, he2, hseq⟩ := List.mem_map.mp hx2
      have b1 := h13 e1 he1
      have b2 := h23 e2 he2
      omega

/-- Event dispatch: the `_seq` counter only grows and the freshly
scheduled events carry distinct seqs strictly above the old counter. -/
theorem dispatchEvent_seqs {σ : Type} (c : SimCore σ) (out : SimResult) (ev : Event) :
    c.seq ≤ (dispatchEvent c out ev).1.seq ∧
    (∀ e ∈ (dispatchEvent c out ev).2.1,
      c.seq < e.seq ∧ e.seq ≤ (dispatchEvent c out ev).1.seq) ∧
    ((dispatchEvent c out ev).2.1.map Event.seq).Nodup := by
  unfold dispatchEvent
  rcases hety : ev.etype
  · rcases ho : ev.order with _ | ⟨o, im⟩
    · simp only [ho]
      exact ⟨le_refl _, by simp, List.nodup_nil⟩
    · simp only [ho]
      refine ⟨?_, by simp, List.nodup_nil⟩
      show c.seq ≤ (dispatchSubmit c out o im).1.seq
      unfold dispatchSubmit
      rw [attribFold_seq]
      dsimp only
      rw [registerOrder_seq]
  · rcases ho : ev.order_id with _ | oid
    · simp only [ho]
      exact ⟨le_refl _, by simp, List.nodup_nil⟩
    · simp only [ho]
      exact ⟨le_refl _, by simp, List.nodup_nil⟩
  · rcases ho : ev.order_id with _ | oid
    · simp only [ho]
      exact ⟨le_refl _, by simp, List.nodup_nil⟩
    · rcases hm : ev.modify with _ | ⟨np, nq⟩
      · simp only [ho, hm]
        exact ⟨le_refl _, by simp, List.nodup_nil⟩
      · simp only [ho, hm]
        exact ⟨le_refl _, by simp, List.nodup_nil⟩
  · obtain ⟨new, h1, h2, h3, h4⟩ := tickFold_seqs c.lob c.now
      (List.range c.strategies.length) ({ c with ts := c.ts.record c.now c.lob }, [])
    refine ⟨h2, ?_, ?_⟩
    · intro e he
      have he2 : e ∈ ([] : List Event) ++ new := by
        rw [← h1]
        exact he
      rw [List.nil_append] at he2
      exact h3 e he2
    · show (((List.range c.strategies.length).foldl
        (tickOne c.lob c.now) ({ c with ts := c.ts.record c.now c.lob }, [])).2.map
          Event.seq).Nodup
      rw [h1, List.nil_append]
      exact h4

/-- C9: determinism of `run(until)`.  The run is a function of the
event queue's CONTENTS, not of its layout: for any two permutations of
the same pending-event multiset (with the distinct `_seq` keys
`schedule` assigns, all at or below the current `_seq` counter), every
prefix of the run — any fuel — produces the same `SimResult` (identical
fill sequence, snapshots and PnL series) and the same simulator core
(identical book, hence identical top-of-book after every event), with
the remaining queues again permutations.  Since strategies are pure
state-transition functions here (seeded RNG included in the state), two
runs from identical inputs are literally the same value; this theorem
captures the nontrivial half: the heap order on equal inputs cannot
change the outcome. -/
theorem runSim_deterministic {σ : Type} (untilT : Int) :
    ∀ (fuel : Nat) (pq1 pq2 : List Event) (c : SimCore σ) (out : SimResult),
    pq1.Perm pq2 → (pq1.map Event.seq).Nodup → (∀ e ∈ pq1, e.seq ≤ c.seq) →
    (runSim untilT fuel pq1 c out).1 = (runSim untilT fuel pq2 c out).1 ∧
    (runSim untilT fuel pq1 c out).2.1 = (runSim untilT fuel pq2 c out).2.1 ∧
    ((runSim untilT fuel pq1 c out).2.2).Perm ((runSim untilT fuel pq2 c out).2.2) := by
  intro fuel
  induction fuel with
  | zero =>
    intro pq1 pq2 c out hperm _ _
    exact ⟨rfl, rfl, hperm⟩
  | succ n ih =>
    intro pq1 pq2 c out hperm hnd hbd
    simp only [runSim]
    rcases hpop1 : popMin pq1 with _ | ⟨e1, r1⟩
    · have h1 : pq1 = [] := popMin_eq_none hpop1
      subst h1
      have h2 : pq2 = [] := hperm.symm.eq_nil
      subst h2
      exact ⟨rfl, rfl, List.Perm.refl _⟩
    · rcases hpop2 : popMin pq2 with _ | ⟨e2, r2⟩
      · have h2 : pq2 = [] := popMin_eq_none hpop2
        subst h2
        have h1 : pq1 = [] := hperm.eq_nil
        subst h1
        cases hpop1
      · obtain ⟨he, hr⟩ := popMin_agree hperm hnd hpop1 hpop2
        subst he
        simp only [hpop1, hpop2]
        by_cases ht : e1.time ≤ untilT
        · rw [if_pos ht, if_pos ht]
          have hds : c.seq ≤ (dispatchEvent { c with now := e1.time } out e1).1.seq ∧
              (∀ e ∈ (dispatchEvent { c with now := e1.time } out e1).2.1,
                c.seq < e.seq ∧
                e.seq ≤ (dispatchEvent { c with now := e1.time } out e1).1.seq) ∧
              (((dispatchEvent { c with now := e1.time } out e1).2.1).map
                Event.seq).Nodup :=
            dispatchEvent_seqs { c with now := e1.time } out e1
          obtain ⟨hm1, hmin1, hp1⟩ := popMin_spec hpop1
          have hnd_er1 : ((e1 :: r1).map Event.seq).Nodup :=
            (List.Perm.nodup_iff (hp1.map Event.seq)).mp hnd
          have hnd_r1 : (r1.map Event.seq).Nodup :=
            (List.nodup_cons.mp hnd_er1).2
          have hbd_r1 : ∀ e ∈ r1, e.seq ≤ c.seq := fun e he =>
            hbd e (hp1.symm.subset (List.mem_cons_of_mem _ he))
          apply ih
          · exact hr.append_right _
          · rw [List.map_append]
            refine List.Nodup.append hnd_r1 hds.2.2 ?_
            intro x hx1 hx2
            obtain ⟨ea, hea, rfl⟩ := List.mem_map.mp hx1
            obtain ⟨eb, heb, hseq⟩ := List.mem_map.mp hx2
            have b1 := hbd_r1 ea hea
            have b2 := (hds.2.1 eb heb).1
            omega
          · intro e he
            rcases List.mem_append.mp he with he1 | he2
            · have := hbd_r1 e he1
              have := hds.1
              omega
            · exact (hds.2.1 e he2).2
        · rw [if_neg ht, if_neg ht]
          exact ⟨rfl, rfl, hperm⟩

/-- Witness for C9: two layouts of the same two-SUBMIT queue on a
strategy-free simulator core. -/
theorem runSim_deterministic_witness :
    (runSim 100 10
        [⟨1, 1, EventType.SUBMIT, some (⟨"s1", Side.SELL, 100, 5, 1⟩, false), none, none⟩,
         ⟨2, 2, EventType.SUBMIT, some (⟨"b1", Side.BUY, 90, 5, 2⟩, false), none, none⟩]
        { SimCore.init ([] : List (StrategyDef Unit × Unit × Portfolio)) with seq := 2 }
        {}).1 =
      (runSim 100 10
        [⟨2, 2, EventType.SUBMIT, some (⟨"b1", Side.BUY, 90, 5, 2⟩, false), none, none⟩,
         ⟨1, 1, EventType.SUBMIT, some (⟨"s1", Side.SELL, 100, 5, 1⟩, false), none, none⟩]
        { SimCore.init ([] : List (StrategyDef Unit × Unit × Portfolio)) with seq := 2 }
        {}).1 ∧
    (runSim 100 10
        [⟨1, 1, EventType.SUBMIT, some (⟨"s1", Side.SELL, 100, 5, 1⟩, false), none, none⟩,
         ⟨2, 2, EventType.SUBMIT, some (⟨"b1", Side.BUY, 90, 5, 2⟩, false), none, none⟩]
        { SimCore.init ([] : List (StrategyDef Unit × Unit × Portfolio)) with seq := 2 }
        {}).2.1 =
      (runSim 100 10
        [⟨2, 2, EventType.SUBMIT, some (⟨"b1", Side.BUY, 90, 5, 2⟩, false), none, none⟩,
         ⟨1, 1, EventType.SUBMIT, some (⟨"s1", Side.SELL, 100, 5, 1⟩, false), none, none⟩]
        { SimCore.init ([] : List (StrategyDef Unit × Unit × Portfolio)) with seq := 2 }
        {}).2.1 ∧
    ((runSim 100 10
        [⟨1, 1, EventType.SUBMIT, some (⟨"s1", Side.SELL, 100, 5, 1⟩, false), none, none⟩,
         ⟨2, 2, EventType.SUBMIT, some (⟨"b1", Side.BUY, 90, 5, 2⟩, false), none, none⟩]
        { SimCore.init ([] : List (StrategyDef Unit × Unit × Portfolio)) with seq := 2 }
        {}).2.2).Perm
      ((runSim 100 10
        [⟨2, 2, EventType.SUBMIT, some (⟨"b1", Side.BUY, 90, 5, 2⟩, false), none, none⟩,
         ⟨1, 1, EventType.SUBMIT, some (⟨"s1", Side.SELL, 100, 5, 1⟩, false), none, none⟩]
        { SimCore.init ([] : List (StrategyDef Unit × Unit × Portfolio)) with seq := 2 }
        {}).2.2) :=
  runSim_deterministic 100 10
    [⟨1, 1, EventType.SUBMIT, some (⟨"s1", Side.SELL, 100, 5, 1⟩, false), none, none⟩,
     ⟨2, 2, EventType.SUBMIT, some (⟨"b1", Side.BUY, 90, 5, 2⟩, false), none, none⟩]
    [⟨2, 2, EventType.SUBMIT, some (⟨"b1", Side.BUY, 90, 5, 2⟩, false), none, none⟩,
     ⟨1, 1, EventType.SUBMIT, some (⟨"s1", Side.SELL, 100, 5, 1⟩, false), none, none⟩]
    { SimCore.init ([] : List (StrategyDef Unit × Unit × Portfolio)) with seq := 2 }
    {} (by decide) (by decide) (by decide)

/-- C3 counterexample: on the book with resting ask `s1` (100×5) and
resting bid `b1` (90×5), the successful `modify("b1", new_price=100,
ts=7)` does NOT re-insert `b1` at the tail of the 100 level: the
re-inserted order crosses and matches `s1` immediately (the fill is
discarded by `modify`), leaving `b1` absent from both the book and the
index — refuting the claim that any other successful modify places the
order at the tail of the level at its possibly-new price. -/
theorem modify_tail_counterexample :
    (exBook.modify "b1" (some 100) none 7).1 = true ∧
    alGet (exBook.modify "b1" (some 100) none 7).2.id_map "b1" = none ∧
    (exBook.modify "b1" (some 100) none 7).2.bids = [] ∧
    (exBook.modify "b1" (some 100) none 7).2.asks = [] ∧
    (exBook.modifyF "b1" (some 100) none 7).2 = [⟨"b1", "s1", 100, 5⟩] := by
  decide

/-- Witness for C5: a market buy for 3 on the concrete book. -/
theorem place_market_spec_witness :
    ((⟨"m1", Side.BUY, 1, 3, 5⟩ : Order).side = Side.BUY →
      (exBook.place_market ⟨"m1", Side.BUY, 1, 3, 5⟩).1 =
        greedyBuy "m1" ⊤ 3 (askLevels exBook)) ∧
    ((⟨"m1", Side.BUY, 1, 3, 5⟩ : Order).side = Side.SELL →
      (exBook.place_market ⟨"m1", Side.BUY, 1, 3, 5⟩).1 =
        greedySell "m1" 0 3 (bidLevels exBook)) ∧
    alGet (exBook.place_market ⟨"m1", Side.BUY, 1, 3, 5⟩).2.id_map "m1" = none ∧
    ((exBook.place_market ⟨"m1", Side.BUY, 1, 3, 5⟩).2.id_map).Sublist exBook.id_map :=
  place_market_spec exBook_reachable _ (by decide)

end Microbook
